import Mathlib

/-! # Order placement and rate limiting of the e-commerce backend

A shallow embedding of `controllers/order_controller.go`,
`controllers/product_controller.go`, `utils/response.go` and
`middleware/rate_limiter.go`, followed by theorems about them.

Conventions of the embedding.

* The relational store is a record of three tables, each a list of rows in
  insertion order.  A unit of work (`db.Transaction`) runs its body on the
  store it was opened on and yields either the store the body produced
  (commit) or the store it was opened on (rollback).
* Go `error` values are modelled by their `Error()` text, the only thing the
  handlers inspect.
* Everything a call obtains from outside the program (driver failures, fresh
  identifiers, the text of a binding error) is collected in `Env`.
* `float64` is a type parameter `F` with the operations the code uses
  collected in `Float64Ops`; no law of arithmetic is assumed for them.
* Go `int` values are mathematical integers.  In `PlaceOrder` the only
  arithmetic on them is `p.Stock - item.Quantity` under the guard
  `item.Quantity <= p.Stock` with `1 <= item.Quantity`, which cannot leave
  the range of `int`.  The sums of the rate limiter can leave it: its handler
  is embedded with 64-bit arithmetic as well (`RateLimitMiddleware64`).
* Columns that no handler modelled here reads (description, image, category,
  owner and the time stamps of a product, the creation time of an order) are
  left out of the rows.
-/

namespace Ecommerce

/-! ## Strings -/

/-- Go `strings.Contains` on character lists: `sub` occurs in `s`. -/
def containsChars : List Char → List Char → Bool
  | [], sub => sub.isEmpty
  | c :: cs, sub => sub.isPrefixOf (c :: cs) || containsChars cs sub

/-- Go `strings.Contains(s, sub)`. -/
def stringsContains (s sub : String) : Bool :=
  containsChars s.data sub.data

/-- One character of `[0-9a-f]`. -/
def isLowerHex (c : Char) : Bool :=
  ('0' ≤ c && c ≤ '9') || ('a' ≤ c && c ≤ 'f')

/-- One character of `[0-9a-fA-F]`. -/
def isHex (c : Char) : Bool :=
  isLowerHex c || ('A' ≤ c && c ≤ 'F')

/-- Lower-case form of a hexadecimal digit, other characters unchanged. -/
def lowerHex (c : Char) : Char :=
  if 'A' ≤ c && c ≤ 'F' then Char.ofNat (c.toNat + 32) else c

/-- The layout `8-4-4-4-12`: 36 characters, `-` at offsets 8, 13, 18 and 23,
and `digit` everywhere else. -/
def uuidLayout (digit : Char → Bool) : Nat → List Char → Bool
  | i, [] => i == 36
  | i, c :: cs =>
    (if i == 8 || i == 13 || i == 18 || i == 23 then c == '-' else digit c)
      && uuidLayout digit (i + 1) cs

/-- The `uuid` binding tag of the request binder:
`^[0-9a-f]{8}-[0-9a-f]{4}-[0-9a-f]{4}-[0-9a-f]{4}-[0-9a-f]{12}$`. -/
def isUUID (s : String) : Bool :=
  uuidLayout isLowerHex 0 s.data

/-- The nil UUID, the value `uuid.Parse` leaves in its result on an error. -/
def uuidNil : String := "00000000-0000-0000-0000-000000000000"

/-- Whether `uuid.Parse(s)` returns no error.  Only the hyphenated
36-character layout is modelled: an input in one of the other layouts the
library reads (URN, braces, 32 bare digits) counts as rejected here.  None of
them passes the `uuid` binding tag. -/
def uuidParseOk (s : String) : Bool :=
  uuidLayout isHex 0 s.data

/-- The value of `uuid.Parse(s)`, rendered the way the driver sends a
`uuid.UUID` to the store (lower-case hyphenated text).  On a rejected input
the value is taken to be the nil UUID; the statements below rely on
`uuidParse` only for identifiers that passed the `uuid` binding tag. -/
def uuidParse (s : String) : String :=
  if uuidParseOk s then String.mk (s.data.map lowerHex) else uuidNil

/-! ## Data model (`config/config.go`) -/

/-- The `float64` operations used by the handlers. -/
structure Float64Ops (F : Type) where
  /-- The zero value of a `float64` variable. -/
  zero : F
  /-- Addition `x + y`. -/
  add : F → F → F
  /-- Multiplication `x * y`. -/
  mul : F → F → F
  /-- The conversion `float64(n)` of an `int`. -/
  ofInt : Int → F
  /-- The call `strconv.ParseFloat(s, 64)`; `none` is an error. -/
  parse : String → Option F
  /-- The comparison `x > 0`. -/
  isPos : F → Bool
  /-- The comparison `x <= 0`. -/
  isNonpos : F → Bool

/-- A row of `config.Product`. -/
structure Product (F : Type) where
  id : String
  name : String
  price : F
  stock : Int
  deriving DecidableEq, Repr

/-- A row of `config.Order`. -/
structure Order (F : Type) where
  id : String
  userID : String
  totalPrice : F
  status : String
  deriving DecidableEq, Repr

/-- A row of `config.OrderItem`. -/
structure OrderItem (F : Type) where
  id : String
  orderID : String
  productID : String
  quantity : Int
  unitPrice : F
  deriving DecidableEq, Repr

/-- The relational store: the tables the handlers read and write. -/
structure Store (F : Type) where
  products : List (Product F)
  orders : List (Order F)
  orderItems : List (OrderItem F)
  deriving DecidableEq, Repr

/-! ## Responses (`utils/response.go`) -/

/-- What a handler passes as `obj` to `utils.JSON`. -/
inductive Payload (F : Type) where
  | product (p : Product F)
  | orders (os : List (Order F × List (OrderItem F)))
  | user (id username email : String)
  deriving DecidableEq, Repr

/-- The HTTP status together with `utils.BaseResponse`. -/
structure BaseResponse (F : Type) where
  status : Nat
  success : Bool
  message : String
  object : Option (Payload F)
  errors : Option String
  deriving DecidableEq, Repr

/-- The function `utils.JSON`. -/
def JSON {F : Type} (status : Nat) (success : Bool) (msg : String)
    (obj : Option (Payload F)) (errs : Option String) : BaseResponse F :=
  { status := status, success := success, message := msg, object := obj, errors := errs }

def StatusOK : Nat := 200
def StatusCreated : Nat := 201
def StatusBadRequest : Nat := 400
def StatusNotFound : Nat := 404
def StatusTooManyRequests : Nat := 429
def StatusInternalServerError : Nat := 500

/-! ## The environment of one call -/

/-- The statements a unit of work of `PlaceOrder` sends to the store; the
index is the position of the request entry being processed. -/
inductive Op where
  | begin
  | createOrder
  | lockProduct (i : Nat)
  | saveProduct (i : Nat)
  | createItem (i : Nat)
  | saveOrder
  | commit
  deriving DecidableEq, Repr

/-- What one call of `PlaceOrder` obtains from outside the program. -/
structure Env where
  /-- The driver's answer to a statement: `none` when it executes,
  `some text` when it fails with an error of that text (a lost connection, a
  lock that cannot be taken, a violated key constraint). -/
  fault : Op → Option String
  /-- The value of `uuid.New().String()` for the order. -/
  orderID : String
  /-- The value of `uuid.New().String()` for the item of entry `i`. -/
  itemID : Nat → String
  /-- The text of the error `ShouldBindJSON` returns when it rejects. -/
  bindError : String

/-- An environment in which no statement fails. -/
def Env.noFault (e : Env) : Prop := ∀ op, e.fault op = none

/-! ## Order placement (`controllers/order_controller.go`) -/

/-- One element of the JSON array of the request, as decoded: a field the
document does not carry is `none`.  A body that is not an array of objects
with a string and an integer of the range of `int` in these fields is refused
by the decoder and is not modelled. -/
structure RawItem where
  productId : Option String
  quantity : Option Int
  deriving DecidableEq, Repr

/-- One element of `req` after decoding: absent fields hold the zero value. -/
structure Item where
  productID : String
  quantity : Int
  deriving DecidableEq, Repr

/-- Decoding of one element into the request struct. -/
def RawItem.decode (r : RawItem) : Item :=
  { productID := r.productId.getD "", quantity := r.quantity.getD 0 }

/-- The binding tags of one element: `required,uuid` on `ProductID` and
`required,min=1` on `Quantity`. -/
def Item.valid (it : Item) : Bool :=
  (it.productID != "" && isUUID it.productID)
    && (it.quantity != 0 && decide (1 ≤ it.quantity))

/-- The call `c.ShouldBindJSON(&req)`: decode, then check the tags of every
element of the slice. -/
def ShouldBindJSON (env : Env) (raw : List RawItem) : Except String (List Item) :=
  let req := raw.map RawItem.decode
  if req.all Item.valid then .ok req else .error env.bindError

/-- The text of `gorm.ErrRecordNotFound`. -/
def ErrRecordNotFound : String := "record not found"

/-- The statement `tx.Clauses(clause.Locking{Strength: "UPDATE"}).First(&p, "id = ?", pid)`. -/
def lockFirst {F : Type} (env : Env) (i : Nat) (tx : Store F) (pid : String) :
    Except String (Product F) :=
  match env.fault (.lockProduct i) with
  | some e => .error e
  | none =>
    match tx.products.find? (fun p => p.id == pid) with
    | some p => .ok p
    | none => .error ErrRecordNotFound

/-- The rows of `products` after `tx.Save(&p)`: the row of that identity is
overwritten, and a row is inserted when there is none. -/
def saveProductRows {F : Type} (rows : List (Product F)) (p : Product F) : List (Product F) :=
  if rows.any (fun r => r.id == p.id) then
    rows.map (fun r => if r.id == p.id then p else r)
  else rows ++ [p]

/-- The statement `tx.Save(&p)` on a product. -/
def saveProduct {F : Type} (env : Env) (i : Nat) (tx : Store F) (p : Product F) :
    Except String (Store F) :=
  match env.fault (.saveProduct i) with
  | some e => .error e
  | none => .ok { tx with products := saveProductRows tx.products p }

/-- The statement `tx.Create(&oi)`. -/
def createItem {F : Type} (env : Env) (i : Nat) (tx : Store F) (oi : OrderItem F) :
    Except String (Store F) :=
  match env.fault (.createItem i) with
  | some e => .error e
  | none => .ok { tx with orderItems := tx.orderItems ++ [oi] }

/-- The statement `tx.Create(&order)`. -/
def createOrder {F : Type} (env : Env) (tx : Store F) (o : Order F) :
    Except String (Store F) :=
  match env.fault .createOrder with
  | some e => .error e
  | none => .ok { tx with orders := tx.orders ++ [o] }

/-- The rows of `orders` after `tx.Save(&order)`. -/
def saveOrderRows {F : Type} (rows : List (Order F)) (o : Order F) : List (Order F) :=
  if rows.any (fun r => r.id == o.id) then
    rows.map (fun r => if r.id == o.id then o else r)
  else rows ++ [o]

/-- The statement `tx.Save(&order)`. -/
def saveOrder {F : Type} (env : Env) (tx : Store F) (o : Order F) :
    Except String (Store F) :=
  match env.fault .saveOrder with
  | some e => .error e
  | none => .ok { tx with orders := saveOrderRows tx.orders o }

/-- The text of `fmt.Errorf("insufficient stock for %s", p.Name)`. -/
def insufficientStockError (name : String) : String :=
  "insufficient stock for " ++ name

/-- The loop `for _, item := range req` of the unit of work, from entry
number `i` on, with the running `total`. -/
def processItems {F : Type} (fl : Float64Ops F) (env : Env) (orderID : String) :
    Nat → List Item → Store F → F → Except String (Store F × F)
  | _, [], tx, total => .ok (tx, total)
  | i, item :: rest, tx, total =>
    let pid := uuidParse item.productID
    match lockFirst env i tx pid with
    | .error e => .error e
    | .ok p =>
      if p.stock < item.quantity then
        .error (insufficientStockError p.name)
      else
        let p1 : Product F := { p with stock := p.stock - item.quantity }
        match saveProduct env i tx p1 with
        | .error e => .error e
        | .ok tx1 =>
          let oi : OrderItem F :=
            { id := env.itemID i, orderID := orderID, productID := pid,
              quantity := item.quantity, unitPrice := p1.price }
          match createItem env i tx1 oi with
          | .error e => .error e
          | .ok tx2 =>
            processItems fl env orderID (i + 1) rest tx2
              (fl.add total (fl.mul (fl.ofInt item.quantity) p1.price))

/-- The function passed to `db.Transaction` by `PlaceOrder`. -/
def placeOrderTx {F : Type} (fl : Float64Ops F) (env : Env) (uid : String)
    (req : List Item) (tx : Store F) : Except String (Store F) :=
  let order : Order F :=
    { id := env.orderID, userID := uid, totalPrice := fl.zero, status := "pending" }
  match createOrder env tx order with
  | .error e => .error e
  | .ok tx1 =>
    match processItems fl env order.id 0 req tx1 fl.zero with
    | .error e => .error e
    | .ok (tx2, total) => saveOrder env tx2 { order with totalPrice := total }

/-- The call `db.Transaction(fn)`: the error it returns, if any, and the
store it leaves.  The store changes only when `BEGIN`, `fn` and `COMMIT` all
succeed. -/
def Transaction {F : Type} (env : Env) (db : Store F)
    (fn : Store F → Except String (Store F)) : Option String × Store F :=
  match env.fault .begin with
  | some e => (some e, db)
  | none =>
    match fn db with
    | .error e => (some e, db)
    | .ok tx =>
      match env.fault .commit with
      | some e => (some e, db)
      | none => (none, tx)

/-- The handler `PlaceOrder`: the response written and the store left, for the
value `userID` of the context key `user_id` and the decoded request body. -/
def PlaceOrder {F : Type} (fl : Float64Ops F) (env : Env) (db : Store F)
    (userID : String) (raw : List RawItem) : BaseResponse F × Store F :=
  match ShouldBindJSON env raw with
  | .error e => (JSON StatusBadRequest false "validation error" none (some e), db)
  | .ok req =>
    let uid := uuidParse userID
    match Transaction env db (placeOrderTx fl env uid req) with
    | (some e, db1) =>
      if stringsContains e "insufficient stock" then
        (JSON StatusBadRequest false "insufficient stock" none (some e), db1)
      else
        (JSON StatusInternalServerError false "failed to place order" none (some e), db1)
    | (none, db1) =>
      (JSON StatusCreated true "order placed successfully" none none, db1)

/-! ## Product administration (`controllers/product_controller.go`) -/

/-- The value of a run of decimal digits. -/
def digitsValue (cs : List Char) : Nat :=
  cs.foldl (fun n c => n * 10 + (c.toNat - 48)) 0

/-- The call `strconv.Atoi(s)`: an optional sign followed by one or more
decimal digits, of a value in the range of `int`; `none` is an error. -/
def atoi (s : String) : Option Int :=
  let body : List Char :=
    match s.data with
    | '-' :: cs => cs
    | '+' :: cs => cs
    | cs => cs
  if body.isEmpty || !body.all Char.isDigit then none
  else
    let v : Int :=
      match s.data with
      | '-' :: _ => -(digitsValue body : Int)
      | _ => (digitsValue body : Int)
    if -(2 : Int) ^ 63 ≤ v ∧ v < (2 : Int) ^ 63 then some v else none

/-- The outcome of `c.FormFile("image")` followed, when a file is there, by
`utils.SaveUploadedFile`. -/
inductive Upload where
  /-- `FormFile` returned `http.ErrMissingFile`. -/
  | missing
  /-- `FormFile` returned another error. -/
  | fileError (e : String)
  /-- `SaveUploadedFile` returned an error. -/
  | saveFailed (e : String)
  /-- `SaveUploadedFile` stored the file at `path` and returned `"/" + path`. -/
  | saved (path : String)
  deriving DecidableEq, Repr

/-- What one call of a product handler obtains from outside the program. -/
structure ProductEnv where
  /-- The outcome of the image upload. -/
  upload : Upload
  /-- The value of `uuid.New().String()` for the product. -/
  productID : String
  /-- The driver's answer to the handler's read statement. -/
  readFault : Option String
  /-- The driver's answer to the handler's write statement. -/
  writeFault : Option String
  /-- The text of the error `ShouldBind` returns when it rejects. -/
  bindError : String

/-- The form fields of `CreateProduct` and `UpdateProduct`; a field the form
does not carry is the empty string. -/
structure ProductForm where
  name : String
  description : String
  price : String
  stock : String
  category : String
  deriving DecidableEq, Repr

/-- The handler `CreateProduct`: the response written and the store left. -/
def CreateProduct {F : Type} (fl : Float64Ops F) (env : ProductEnv) (db : Store F)
    (form : ProductForm) : BaseResponse F × Store F :=
  if form.name == "" || form.description == "" || form.price == "" || form.stock == "" then
    (JSON StatusBadRequest false "validation error in form fields" none (some env.bindError), db)
  else
    match fl.parse form.price with
    | none =>
      (JSON StatusBadRequest false "validation error" none
        (some "price must be a valid number greater than 0"), db)
    | some price =>
      if fl.isNonpos price then
        (JSON StatusBadRequest false "validation error" none
          (some "price must be a valid number greater than 0"), db)
      else
        match atoi form.stock with
        | none =>
          (JSON StatusBadRequest false "validation error" none
            (some "stock must be a valid non-negative integer"), db)
        | some stock =>
          if stock < 0 then
            (JSON StatusBadRequest false "validation error" none
              (some "stock must be a valid non-negative integer"), db)
          else
            match env.upload with
            | .saveFailed e =>
              (JSON StatusInternalServerError false "failed to save image" none (some e), db)
            | .fileError e => (JSON StatusBadRequest false "file error" none (some e), db)
            | _ =>
              let p : Product F :=
                { id := env.productID, name := form.name, price := price, stock := stock }
              match env.writeFault with
              | some e =>
                (JSON StatusInternalServerError false "failed to create product" none (some e),
                  db)
              | none =>
                (JSON StatusCreated true "product created" (some (.product p)) none,
                  { db with products := db.products ++ [p] })

/-- The map `updates` of `UpdateProduct`: the columns it holds. -/
structure Updates (F : Type) where
  name : Option String
  description : Option String
  category : Option String
  price : Option F
  stock : Option Int
  imageURL : Option String

/-- The test `len(updates) == 0`. -/
def Updates.isEmpty {F : Type} (u : Updates F) : Bool :=
  u.name.isNone && u.description.isNone && u.category.isNone && u.price.isNone
    && u.stock.isNone && u.imageURL.isNone

/-- The row `r` with the columns of `u` written over it. -/
def Updates.apply {F : Type} (u : Updates F) (r : Product F) : Product F :=
  { id := r.id, name := u.name.getD r.name, price := u.price.getD r.price,
    stock := u.stock.getD r.stock }

/-- The map `updates` built from the form and the stored image path. -/
def buildUpdates {F : Type} (fl : Float64Ops F) (form : ProductForm) (imageURL : String) :
    Updates F :=
  { name := if form.name != "" then some form.name else none,
    description := if form.description != "" then some form.description else none,
    category := if form.category != "" then some form.category else none,
    price :=
      if form.price != "" then
        match fl.parse form.price with
        | some price => if fl.isPos price then some price else none
        | none => none
      else none,
    stock :=
      if form.stock != "" then
        match atoi form.stock with
        | some stock => if 0 ≤ stock then some stock else none
        | none => none
      else none,
    imageURL := if imageURL != "" then some imageURL else none }

/-- The rows of `products` after `db.Model(&p).Updates(updates)`, `id` being
the identity of `p`. -/
def updateRows {F : Type} (rows : List (Product F)) (id : String) (u : Updates F) :
    List (Product F) :=
  rows.map (fun r => if r.id == id then u.apply r else r)

/-- The statement `db.First(&p, "id = ?", pid)` of `UpdateProduct`, whose
error is only tested against `nil`. -/
def firstProduct {F : Type} (env : ProductEnv) (db : Store F) (pid : String) :
    Option (Product F) :=
  match env.readFault with
  | some _ => none
  | none => db.products.find? (fun p => p.id == pid)

/-- The value of `imageURL` after the upload step. -/
def Upload.imageURL (up : Upload) : String :=
  match up with
  | .saved path => "/" ++ path
  | _ => ""

/-- The handler `UpdateProduct` for the path parameter `id`: the response
written and the store left. -/
def UpdateProduct {F : Type} (fl : Float64Ops F) (env : ProductEnv) (db : Store F)
    (id : String) (form : ProductForm) : BaseResponse F × Store F :=
  if !uuidParseOk id then
    (JSON StatusBadRequest false "invalid product id" none none, db)
  else
    let pid := uuidParse id
    match firstProduct env db pid with
    | none => (JSON StatusNotFound false "product not found" none none, db)
    | some p =>
      match env.upload with
      | .saveFailed e =>
        (JSON StatusInternalServerError false "failed to save image" none (some e), db)
      | .fileError e => (JSON StatusBadRequest false "file error" none (some e), db)
      | up =>
        let updates : Updates F := buildUpdates fl form up.imageURL
        if updates.isEmpty && up == Upload.missing then
          (JSON StatusOK true "no fields to update" (some (.product p)) none, db)
        else
          match env.writeFault with
          | some e => (JSON StatusInternalServerError false "update failed" none (some e), db)
          | none =>
            let db1 : Store F := { db with products := updateRows db.products p.id updates }
            let p1 : Product F :=
              (db1.products.find? (fun (r : Product F) => r.id == pid)).getD (updates.apply p)
            (JSON StatusOK true "product updated" (some (.product p1)) none, db1)

/-! ## Passwords and registration (`utils/password.go`, `controllers/auth_controller.go`) -/

/-- The call `re.MatchString(p)` for a pattern `re` that is one character
class: some character of `p` is in the class. -/
def matchClass (cls : Char → Bool) (p : String) : Bool :=
  p.data.any cls

/-- The class `[A-Z]`. -/
def upper (c : Char) : Bool := 'A' ≤ c && c ≤ 'Z'

/-- The class `[a-z]`. -/
def lower (c : Char) : Bool := 'a' ≤ c && c ≤ 'z'

/-- The class `[0-9]`. -/
def digit (c : Char) : Bool := '0' ≤ c && c ≤ '9'

/-- The class `[!@#$%^&*]`. -/
def special (c : Char) : Bool :=
  c == '!' || c == '@' || c == '#' || c == '$' || c == '%' || c == '^' || c == '&' || c == '*'

/-- The function `utils.IsStrongPassword`; `len(p)` is the length in bytes. -/
def IsStrongPassword (p : String) : Bool :=
  decide (p.utf8ByteSize ≥ 8) &&
    matchClass upper p &&
    matchClass lower p &&
    matchClass digit p &&
    matchClass special p

/-- A row of `config.User`. -/
structure User where
  id : String
  username : String
  email : String
  password : String
  role : String
  deriving DecidableEq, Repr

/-- The struct `RegisterInput` after decoding: absent fields are empty. -/
structure RegisterInput where
  username : String
  email : String
  password : String
  deriving DecidableEq, Repr

/-- What one call of `Register` obtains from outside the program. -/
structure AuthEnv where
  /-- The text of the error `ShouldBindJSON` returns when it rejects. -/
  bindError : String
  /-- The `email` binding tag of the request binder. -/
  isEmail : String → Bool
  /-- The call `utils.HashPassword(password)`. -/
  hash : String → Except String String
  /-- The value of `uuid.New().String()` for the user. -/
  userID : String
  /-- Whether the statement that counts the users of that email or name fails;
  its error is dropped and `count` keeps its zero value. -/
  countFault : Bool
  /-- The driver's answer to `db.Create(&user)`. -/
  createFault : Option String

/-- The binding tags of `RegisterInput`: `required,alphanum,min=3,max=30` on
the name, `required,email` on the email and `required,min=8` on the password,
the lengths being counted in characters. -/
def RegisterInput.valid (env : AuthEnv) (input : RegisterInput) : Bool :=
  (input.username != "" && input.username.data.all Char.isAlphanum
      && decide (3 ≤ input.username.length) && decide (input.username.length ≤ 30))
    && (input.email != "" && env.isEmail input.email)
    && (input.password != "" && decide (8 ≤ input.password.length))

/-- The handler `Register`: the response written and the table `users` left,
the only table it reads and writes. -/
def Register {F : Type} (env : AuthEnv) (users : List User) (input : RegisterInput) :
    BaseResponse F × List User :=
  if !input.valid env then
    (JSON StatusBadRequest false "validation error" none (some env.bindError), users)
  else if !IsStrongPassword input.password then
    (JSON StatusBadRequest false "weak password" none
      (some "password must include uppercase, lowercase, number, and special character"),
      users)
  else
    let count : Nat :=
      if env.countFault then 0
      else (users.filter
        (fun u => u.email == input.email || u.username == input.username)).length
    if count > 0 then
      (JSON StatusBadRequest false "user already exists" none none, users)
    else
      match env.hash input.password with
      | .error e =>
        (JSON StatusInternalServerError false "failed to hash password" none (some e), users)
      | .ok hash =>
        let user : User :=
          { id := env.userID, username := input.username, email := input.email,
            password := hash, role := "User" }
        match env.createFault with
        | some e =>
          (JSON StatusInternalServerError false "failed to create user" none (some e), users)
        | none =>
          (JSON StatusCreated true "user created"
            (some (.user user.id user.username user.email)) none, users ++ [user])

/-! ## Rate limiting (`middleware/rate_limiter.go`)

Instants are nanoseconds on one time line, on which the wall clock of the
expiring store and the clock of `time.Now()` agree; durations are nanoseconds.

The handler is embedded twice.  `RateLimitMiddleware` takes the two sums of the
handler, `entry.Count++` and `window + 1*time.Second`, and the difference
`currentTime.Sub(entry.LastRequest)` in the integers.  `RateLimitMiddleware64`
takes them as the program computes them: `int` and `time.Duration` are 64-bit,
their sums wrap around, and `Sub` returns the largest or the least duration for
a difference out of range.  The two agree (`middleware64_eq`) for a window above
the least duration whose sum with one second does not overflow and a live
stored count below the largest `int`; hence they agree on every run of requests
from the empty store when, besides, the limit is below the largest `int`
(`runLimiter64_eq`), a stored count being at most the limit. -/

/-- The duration `time.Second`. -/
def Second : Int := 1000000000

/-- The struct `RateLimitEntry`. -/
structure RateLimitEntry where
  LastRequest : Int
  Count : Int
  deriving DecidableEq, Repr

/-- An item of the expiring store (`cache.Item`): the object and the instant
after which it is expired, `0` for an item that never expires. -/
structure CacheItem where
  Object : RateLimitEntry
  Expiration : Int
  deriving DecidableEq, Repr

/-- The expiring store (`cache.Cache`) of the limiter.  Its clean-up task,
which deletes expired items, is not modelled: `Get` does not return them. -/
structure Cache where
  defaultExpiration : Int
  items : String → Option CacheItem

/-- The call `c.Get(k)` at instant `now`. -/
def Cache.Get (c : Cache) (now : Int) (k : String) : Option RateLimitEntry :=
  match c.items k with
  | none => none
  | some item =>
    if item.Expiration > 0 ∧ now > item.Expiration then none else some item.Object

/-- The call `c.Set(k, x, d)` at instant `now`; the duration `0` stands for the
default expiration and a duration below zero for none. -/
def Cache.Set (c : Cache) (now : Int) (k : String) (x : RateLimitEntry) (d : Int) : Cache :=
  let d1 : Int := if d = 0 then c.defaultExpiration else d
  let e : Int := if d1 > 0 then now + d1 else 0
  { c with items := fun j => if j = k then some { Object := x, Expiration := e } else c.items j }

/-- The store `cache.New(defaultExpiration, _)` with nothing in it. -/
def Cache.New (defaultExpiration : Int) : Cache :=
  { defaultExpiration := defaultExpiration, items := fun _ => none }

/-- The clock readings of one request, in program order. -/
structure Clock where
  /-- The reading inside `c.Get`. -/
  get : Int
  /-- The reading `time.Now()` of a synthesized entry. -/
  fresh : Int
  /-- The reading `currentTime := time.Now()`. -/
  current : Int
  /-- The reading inside `c.Set`. -/
  set : Int

/-- A request handled at the single instant `now`. -/
def Clock.instant (now : Int) : Clock :=
  { get := now, fresh := now, current := now, set := now }

/-- What the middleware does with the request: `ctx.Next()` or
`ctx.AbortWithStatusJSON(status, message)`. -/
inductive Outcome where
  | next
  | abort (status : Nat) (message : String)
  deriving DecidableEq, Repr

/-- The key under which the entry of a client address is stored. -/
def cacheKey (clientIP : String) : String := "rate_limit:" ++ clientIP

/-- The handler returned by `RateLimitMiddleware(c, limit, window)`, for a
request of address `clientIP`: the outcome and the store left. -/
def RateLimitMiddleware (c : Cache) (limit : Int) (window : Int) (clk : Clock)
    (clientIP : String) : Outcome × Cache :=
  let key := cacheKey clientIP
  let entry0 : RateLimitEntry :=
    match c.Get clk.get key with
    | some cached => cached
    | none => { LastRequest := clk.fresh, Count := 0 }
  let entry : RateLimitEntry :=
    if clk.current - entry0.LastRequest ≥ window then
      { LastRequest := clk.current, Count := 1 }
    else
      { entry0 with Count := entry0.Count + 1 }
  if entry.Count > limit then
    (.abort StatusTooManyRequests "Too many requests. Please try again later.", c)
  else
    (.next, c.Set clk.set key entry (window + 1 * Second))

/-- The largest value of the 64-bit `int` and of `time.Duration`. -/
def maxInt64 : Int := 9223372036854775807

/-- The least value of the 64-bit `int` and of `time.Duration`. -/
def minInt64 : Int := -9223372036854775808

/-- The 64-bit result of a sum whose value in the integers is `x`: Go's signed
arithmetic wraps around. -/
def wrap64 (x : Int) : Int :=
  (x + 9223372036854775808) % 18446744073709551616 - 9223372036854775808

/-- The result of `t.Sub(u)` for two instants whose difference in the integers
is `x`: the largest or the least duration when `x` is out of range. -/
def sat64 (x : Int) : Int :=
  if x > maxInt64 then maxInt64 else if x < minInt64 then minInt64 else x

/-- The handler returned by `RateLimitMiddleware(c, limit, window)` with the
64-bit arithmetic of the program: `currentTime.Sub(entry.LastRequest)`
saturates, `entry.Count++` and `window + 1*time.Second` wrap around. -/
def RateLimitMiddleware64 (c : Cache) (limit : Int) (window : Int) (clk : Clock)
    (clientIP : String) : Outcome × Cache :=
  let key := cacheKey clientIP
  let entry0 : RateLimitEntry :=
    match c.Get clk.get key with
    | some cached => cached
    | none => { LastRequest := clk.fresh, Count := 0 }
  let entry : RateLimitEntry :=
    if sat64 (clk.current - entry0.LastRequest) ≥ window then
      { LastRequest := clk.current, Count := 1 }
    else
      { entry0 with Count := wrap64 (entry0.Count + 1) }
  if entry.Count > limit then
    (.abort StatusTooManyRequests "Too many requests. Please try again later.", c)
  else
    (.next, c.Set clk.set key entry (wrap64 (window + 1 * Second)))

/-! ## Vocabulary of the statements about rate limiting -/

/-- The count of the reference algorithm for the live entry `stored` of the
caller: 1 when there is none or its window has passed, one more than the
stored count otherwise. -/
def refCount (stored : Option RateLimitEntry) (now window : Int) : Int :=
  match stored with
  | none => 1
  | some e => if now - e.LastRequest ≥ window then 1 else e.Count + 1

/-- The window start of the reference algorithm: `now` when there is no live
entry or its window has passed, the stored window start otherwise. -/
def refWindowStart (stored : Option RateLimitEntry) (now window : Int) : Int :=
  match stored with
  | none => now
  | some e => if now - e.LastRequest ≥ window then now else e.LastRequest

/-- The configuration of `SetupRouter`: the limit of 5. -/
def routerLimit : Int := 5

/-- The configuration of `SetupRouter`: the window of 10 seconds. -/
def routerWindow : Int := 10 * Second

/-- The store of `SetupRouter`: `cache.New(10*time.Second, 20*time.Second)`. -/
def routerCache : Cache := Cache.New (10 * Second)

/-- The entry the middleware computes from the live entry `stored` of the
caller, before it compares the count with the limit. -/
def computedEntry (stored : Option RateLimitEntry) (window : Int) (clk : Clock) :
    RateLimitEntry :=
  let entry0 : RateLimitEntry :=
    match stored with
    | some cached => cached
    | none => { LastRequest := clk.fresh, Count := 0 }
  if clk.current - entry0.LastRequest ≥ window then
    { LastRequest := clk.current, Count := 1 }
  else
    { entry0 with Count := entry0.Count + 1 }

/-- The answer of the middleware to a request it does not let through. -/
def tooManyRequests : Outcome :=
  Outcome.abort StatusTooManyRequests "Too many requests. Please try again later."

/-- The requests, each an instant and a client address, handled one after
another, each on the store the previous one left: the outcomes in order and
the final store. -/
def runLimiter (limit window : Int) : List (Int × String) → Cache → List Outcome × Cache
  | [], c => ([], c)
  | (t, a) :: rest, c =>
    let r := RateLimitMiddleware c limit window (Clock.instant t) a
    let rs := runLimiter limit window rest r.2
    (r.1 :: rs.1, rs.2)

/-- The requests handled one after another by the handler in 64-bit
arithmetic: the outcomes in order and the final store. -/
def runLimiter64 (limit window : Int) : List (Int × String) → Cache → List Outcome × Cache
  | [], c => ([], c)
  | (t, a) :: rest, c =>
    let r := RateLimitMiddleware64 c limit window (Clock.instant t) a
    let rs := runLimiter64 limit window rest r.2
    (r.1 :: rs.1, rs.2)

/-- The requests come in the order of their instants. -/
def timeOrdered (reqs : List (Int × String)) : Prop :=
  (reqs.map Prod.fst).Pairwise (fun s t => s ≤ t)

/-- The instant of the last request of `ip` that was let through, `la` when
there is none in the run. -/
def lastAccepted (ip : String) : Option Int → List (Int × String) → List Outcome → Option Int
  | la, (t, a) :: rest, o :: os =>
    lastAccepted ip (if a = ip ∧ o = Outcome.next then some t else la) rest os
  | la, _, _ => la

/-- The entry stored for `ip` is in step with a run whose last accepted
request of `ip` was at `la`: there is no item when no request was accepted;
otherwise the window start is not later than that request, the count is between
1 and the limit, and the item expires `window + 1 s` after that request. -/
def entryInStep (c : Cache) (limit window : Int) (ip : String) (la : Option Int) : Prop :=
  match c.items (cacheKey ip) with
  | none => la = none
  | some item =>
    ∃ ta, la = some ta ∧ item.Object.LastRequest ≤ ta ∧ 1 ≤ item.Object.Count ∧
      item.Object.Count ≤ limit ∧
      (0 < window + Second → item.Expiration = ta + (window + Second))

/-- The number of requests of `ip` in the run that were let through at an
instant `t` with `lo ≤ t < hi`. -/
def allowedIn (ip : String) (lo hi : Int) : List (Int × String) → List Outcome → Nat
  | (t, a) :: rest, o :: os =>
    (if a = ip ∧ o = Outcome.next ∧ lo ≤ t ∧ t < hi then 1 else 0) + allowedIn ip lo hi rest os
  | _, _ => 0

/-- The window starts stored for `ip` during the run: the `LastRequest` of its
entry after each of its requests that was let through. -/
def windowStarts (limit window : Int) (ip : String) : List (Int × String) → Cache → List Int
  | [], _ => []
  | (t, a) :: rest, c =>
    let r := RateLimitMiddleware c limit window (Clock.instant t) a
    let here : List Int :=
      if a = ip ∧ r.1 = Outcome.next then
        match r.2.items (cacheKey ip) with
        | some item => [item.Object.LastRequest]
        | none => []
      else []
    here ++ windowStarts limit window ip rest r.2

/-- The governor over a store that never expires entries, written from the
words of the specification on a plain map from keys to entries: look the key of
the caller up and take a fresh entry, window start `now` and count 0, when
there is none; when `now - windowStart ≥ window` reset the entry to count 1 and
window start `now`, otherwise add one to its count; when the count exceeds the
limit answer throttled and write nothing, otherwise write the entry back and
let the request through. -/
def admitNoExpiry (s : String → Option RateLimitEntry) (limit window now : Int)
    (clientIP : String) : Outcome × (String → Option RateLimitEntry) :=
  let key := cacheKey clientIP
  let entry0 : RateLimitEntry :=
    match s key with
    | some stored => stored
    | none => { LastRequest := now, Count := 0 }
  let entry : RateLimitEntry :=
    if now - entry0.LastRequest ≥ window then
      { LastRequest := now, Count := 1 }
    else
      { entry0 with Count := entry0.Count + 1 }
  if entry.Count > limit then
    (tooManyRequests, s)
  else
    (Outcome.next, fun j => if j = key then some entry else s j)

/-- The requests handled one after another by `admitNoExpiry`: the outcomes in
order and the final map. -/
def runNoExpiry (limit window : Int) :
    List (Int × String) → (String → Option RateLimitEntry) →
      List Outcome × (String → Option RateLimitEntry)
  | [], s => ([], s)
  | (t, a) :: rest, s =>
    let r := admitNoExpiry s limit window t a
    let rs := runNoExpiry limit window rest r.2
    (r.1 :: rs.1, rs.2)

/-- Two successive window starts: the same window, or at least a window apart. -/
def windowApart (window : Int) (s t : Int) : Prop :=
  t = s ∨ s + window ≤ t

/-! ## Vocabulary of the statements about order placement -/

/-- The product row of identity `pid`, as `First` finds it. -/
def productOf {F : Type} (db : Store F) (pid : String) : Option (Product F) :=
  db.products.find? (fun p => p.id == pid)

/-- The stock of the product of identity `pid`. -/
def stockOf {F : Type} (db : Store F) (pid : String) : Option Int :=
  (productOf db pid).map (fun p => p.stock)

/-- The sum of the quantities of the entries of `req` that reference `pid`. -/
def qtyFor (pid : String) (req : List Item) : Int :=
  ((req.filter (fun it => it.productID == pid)).map Item.quantity).sum

/-- The row `p` with `n` units taken from its stock. -/
def withdraw {F : Type} (n : Int) (p : Product F) : Product F :=
  { p with stock := p.stock - n }

/-- Every product row has a stock of at least zero. -/
def stockNonneg {F : Type} (db : Store F) : Prop :=
  ∀ p ∈ db.products, 0 ≤ p.stock

/-- The total of an order computed from the prices of `db`: starting from
`start`, each entry in request order adds its quantity times the price of the
product it references. -/
def orderTotal {F : Type} (fl : Float64Ops F) (db : Store F) (items : List Item) (start : F) : F :=
  items.foldl
    (fun acc it =>
      match productOf db it.productID with
      | some p => fl.add acc (fl.mul (fl.ofInt it.quantity) p.price)
      | none => acc)
    start

/-- The environment `e` with a driver that executes every statement. -/
def Env.quiet (e : Env) : Env := { e with fault := fun _ => none }

/-- The order row the unit of work creates first. -/
def newOrder {F : Type} (fl : Float64Ops F) (env : Env) (userID : String) : Order F :=
  { id := env.orderID, userID := uuidParse userID, totalPrice := fl.zero, status := "pending" }

/-- An element of the request the binder refuses on sight: its quantity is
absent or less than 1, or its product identifier is absent or not a UUID. -/
def RawItem.malformed (r : RawItem) : Prop :=
  (∀ q, r.quantity = some q → q < 1) ∨ (∀ s, r.productId = some s → isUUID s = false)

/-- The first entry, in request order, whose quantity exceeds the stock `db`
holds for its product minus the quantities of the entries before it that
reference the same product; `earlier` are the entries already passed. -/
def firstShort {F : Type} (db : Store F) : List Item → List Item → Option Item
  | _, [] => none
  | earlier, it :: rest =>
    match stockOf db it.productID with
    | some s =>
      if s - qtyFor it.productID earlier < it.quantity then some it
      else firstShort db (earlier ++ [it]) rest
    | none => firstShort db (earlier ++ [it]) rest

/-- The order items a successful call persists for the entries `items`, the
first of which has number `i`: one per entry, in request order, each with the
identity drawn for it, the identity of the order, the product and the quantity
of the entry, and the price `db` holds for that product. -/
def expectedItems {F : Type} (fl : Float64Ops F) (env : Env) (oid : String) (db : Store F) :
    Nat → List Item → List (OrderItem F)
  | _, [] => []
  | i, it :: rest =>
    { id := env.itemID i, orderID := oid, productID := it.productID,
      quantity := it.quantity,
      unitPrice :=
        match productOf db it.productID with
        | some p => p.price
        | none => fl.zero } :: expectedItems fl env oid db (i + 1) rest

/-! ## Serial executions of `PlaceOrder` -/

/-- One call of `PlaceOrder`: what it obtains from outside, the value of the
context key `user_id` and the decoded request body. -/
structure Call where
  env : Env
  userID : String
  body : List RawItem

/-- The calls executed one after another, each on the store the previous one
left: the responses in order and the final store. -/
def runSerial {F : Type} (fl : Float64Ops F) :
    List Call → Store F → List (BaseResponse F) × Store F
  | [], db => ([], db)
  | c :: cs, db =>
    let r := PlaceOrder fl c.env db c.userID c.body
    let rest := runSerial fl cs r.2
    (r.1 :: rest.1, rest.2)

/-- The sum, over the calls that were answered `201 Created`, of the quantities
their requests ask of product `pid`. -/
def committedQty {F : Type} (pid : String) : List Call → List (BaseResponse F) → Int
  | c :: cs, r :: rs =>
    (if r.status = StatusCreated then qtyFor pid (c.body.map RawItem.decode) else 0)
      + committedQty pid cs rs
  | _, _ => 0

/-! ## Concrete data used to evaluate the handlers -/

/-- Exact arithmetic on rationals, reading whole numbers only.  On the values
used below (whole numbers and halves of small size) `float64` arithmetic is
exact and agrees with it. -/
def ratOps : Float64Ops ℚ :=
  { zero := 0, add := fun x y => x + y, mul := fun x y => x * y,
    ofInt := fun n => (n : ℚ), parse := fun s => (atoi s).map (fun n => (n : ℚ)),
    isPos := fun x => decide (0 < x), isNonpos := fun x => decide (x ≤ 0) }

/-- An environment in which every statement executes. -/
def quietEnv : Env :=
  { fault := fun _ => none,
    orderID := "0e0e0e0e-0000-4000-8000-000000000001",
    itemID := fun i => "item-" ++ toString i,
    bindError := "binding failed" }

def idA : String := "aaaaaaaa-0000-4000-8000-000000000001"
def idB : String := "bbbbbbbb-0000-4000-8000-000000000002"
def userU : String := "cccccccc-0000-4000-8000-000000000003"

/-- Scenario C of the specification: one product with stock 4. -/
def storeC : Store ℚ :=
  { products := [{ id := idA, name := "Widget", price := 10, stock := 4 }],
    orders := [], orderItems := [] }

/-- Scenario C: the same product twice, quantities 2 and 3. -/
def requestC : List RawItem :=
  [{ productId := some idA, quantity := some 2 }, { productId := some idA, quantity := some 3 }]

/-- The store of `TestPlaceOrder_Success`: one product, price 100, stock 5. -/
def storeT : Store ℚ :=
  { products := [{ id := idA, name := "Test Product", price := 100, stock := 5 }],
    orders := [], orderItems := [] }

/-- The request of `TestPlaceOrder_Success`: two units of the product. -/
def requestT : List RawItem := [{ productId := some idA, quantity := some 2 }]

/-- Scenario B of the specification: prices 10.00 and 7.50, both in stock. -/
def storeB : Store ℚ :=
  { products := [{ id := idA, name := "First", price := 10, stock := 8 },
                 { id := idB, name := "Second", price := 15 / 2, stock := 3 }],
    orders := [], orderItems := [] }

/-- Scenario B: quantities 2 and 1. -/
def requestB : List RawItem :=
  [{ productId := some idA, quantity := some 2 }, { productId := some idB, quantity := some 1 }]

/-- An environment of a product handler: no upload, no failing statement. -/
def quietProductEnv : ProductEnv :=
  { upload := .missing, productID := "dddddddd-0000-4000-8000-000000000004",
    readFault := none, writeFault := none, bindError := "binding failed" }

/-- A form that asks for a stock of `-1`. -/
def formNegative : ProductForm :=
  { name := "Gadget", description := "A gadget", price := "10", stock := "-1", category := "" }

/-- A form that asks for a stock of `7`. -/
def formSeven : ProductForm :=
  { name := "Gadget", description := "A gadget", price := "10", stock := "7", category := "" }

/-- Scenario A of the specification: one product with stock 5. -/
def storeA : Store ℚ :=
  { products := [{ id := idA, name := "Widget", price := 10, stock := 5 }],
    orders := [], orderItems := [] }

/-- Scenario A: a request for three units of the product. -/
def requestA : List RawItem := [{ productId := some idA, quantity := some 3 }]

/-- The environment of the second caller of scenario A. -/
def quietEnv2 : Env :=
  { fault := fun _ => none,
    orderID := "0e0e0e0e-0000-4000-8000-000000000002",
    itemID := fun i => "item2-" ++ toString i,
    bindError := "binding failed" }

def userV : String := "cccccccc-0000-4000-8000-000000000005"

/-- The first caller of scenario A. -/
def callA1 : Call := { env := quietEnv, userID := userU, body := requestA }

/-- The second caller of scenario A. -/
def callA2 : Call := { env := quietEnv2, userID := userV, body := requestA }

/-- An environment whose first `tx.Save(&p)` fails. -/
def faultyEnv : Env :=
  { fault := fun op => if op = Op.saveProduct 0 then some "connection reset" else none,
    orderID := "0e0e0e0e-0000-4000-8000-000000000003",
    itemID := fun i => "item3-" ++ toString i,
    bindError := "binding failed" }

/-- The request of `TestPlaceOrder_ValidationFailure`: one entry, quantity 0. -/
def requestZero : List RawItem := [{ productId := some idA, quantity := some 0 }]

/-- A request for nine units of the product of `storeT`, which holds five. -/
def requestNine : List RawItem := [{ productId := some idA, quantity := some 9 }]

/-- A request for a product that `storeT` does not hold. -/
def requestUnknown : List RawItem := [{ productId := some idB, quantity := some 1 }]

/-- A client address. -/
def clientA : String := "203.0.113.9"

/-- Another client address. -/
def clientB : String := "198.51.100.7"

/-- Five requests of `clientA`, one second apart from instant 0. -/
def fiveHits : List (Int × String) :=
  [(0, clientA), (1 * Second, clientA), (2 * Second, clientA), (3 * Second, clientA),
   (4 * Second, clientA)]

/-- The store of `SetupRouter` after `fiveHits`. -/
def fullCache : Cache := (runLimiter routerLimit routerWindow fiveHits routerCache).2

/-- Eight instants within ten seconds of the first. -/
def eightTimes : List Int :=
  [1 * Second, 2 * Second, 2 * Second, 3 * Second, 5 * Second, 8 * Second, 9 * Second]

/-- Nine requests of `clientA` over twelve seconds. -/
def nineHits : List (Int × String) :=
  fiveHits ++ [(5 * Second, clientA), (9 * Second, clientA), (10 * Second, clientA),
    (11 * Second, clientA)]

/-- An environment of `Register`: any text with an `@` passes for an email,
hashing and the statements succeed. -/
def quietAuthEnv : AuthEnv :=
  { bindError := "binding failed", isEmail := fun s => stringsContains s "@",
    hash := fun p => .ok ("hash of " ++ p),
    userID := "eeeeeeee-0000-4000-8000-000000000006", countFault := false,
    createFault := none }

/-- A registration with a password of twelve lower-case letters. -/
def weakInput : RegisterInput :=
  { username := "weakuser", email := "weak@example.com", password := "weakpassword" }

/-- The registration of `TestRegister_Success`. -/
def strongInput : RegisterInput :=
  { username := "kaleb", email := "kaleb@example.com", password := "Strong@123" }

/-- A request that lists the product of `storeC` twice, two units each. -/
def requestTwoTwo : List RawItem :=
  [{ productId := some idA, quantity := some 2 }, { productId := some idA, quantity := some 2 }]

/-- The request of scenario B with its entries in the other order. -/
def requestBSwapped : List RawItem :=
  [{ productId := some idB, quantity := some 1 }, { productId := some idA, quantity := some 2 }]

/-- Nine units of the product of `storeT`, then a product it does not hold. -/
def requestNineThenUnknown : List RawItem :=
  [{ productId := some idA, quantity := some 9 }, { productId := some idB, quantity := some 1 }]

/-- The entries of `requestNineThenUnknown` in the other order. -/
def requestUnknownThenNine : List RawItem :=
  [{ productId := some idB, quantity := some 1 }, { productId := some idA, quantity := some 9 }]

/-- Five requests of `clientA` in five seconds, a throttled one at 5 s, and two
more at 16 s and 17 s, after the item written at 4 s has expired (at 15 s). -/
def idleHits : List (Int × String) :=
  fiveHits ++ [(5 * Second, clientA), (16 * Second, clientA), (17 * Second, clientA)]

/-- Ten requests of `clientA`: one at 0, four at the end of its window (6 s to
9 s) and five at the start of the next (10 s to 14 s). -/
def burstHits : List (Int × String) :=
  [(0, clientA), (6 * Second, clientA), (7 * Second, clientA), (8 * Second, clientA),
   (9 * Second, clientA), (10 * Second, clientA), (11 * Second, clientA),
   (12 * Second, clientA), (13 * Second, clientA), (14 * Second, clientA)]

/-! ## Lemmas on strings -/

theorem lowerHex_of_isLowerHex (c : Char) (h : isLowerHex c = true) : lowerHex c = c := by
  unfold lowerHex
  split
  · rename_i h2
    simp only [isLowerHex, Bool.or_eq_true, Bool.and_eq_true, decide_eq_true_eq] at h h2
    simp only [Char.le_def, UInt32.le_def, BitVec.le_def] at h h2
    have e9 : ('9' : Char).val.toBitVec.toNat = 57 := rfl
    have ea : ('a' : Char).val.toBitVec.toNat = 97 := rfl
    have eA : ('A' : Char).val.toBitVec.toNat = 65 := rfl
    have eF : ('F' : Char).val.toBitVec.toNat = 70 := rfl
    omega
  · rfl

theorem isHex_of_isLowerHex (c : Char) (h : isLowerHex c = true) : isHex c = true := by
  simp [isHex, h]

theorem uuidLayout_lower (l : List Char) (i : Nat)
    (h : uuidLayout isLowerHex i l = true) :
    uuidLayout isHex i l = true ∧ l.map lowerHex = l := by
  induction l generalizing i with
  | nil => exact ⟨by simpa [uuidLayout] using h, rfl⟩
  | cons c cs ih =>
    simp only [uuidLayout, Bool.and_eq_true] at h ⊢
    obtain ⟨hc, hcs⟩ := h
    obtain ⟨h1, h2⟩ := ih (i + 1) hcs
    refine ⟨⟨?_, h1⟩, ?_⟩
    · split at hc
      · rename_i hi
        simp only [hi, if_true]
        exact hc
      · rename_i hi
        simp only [hi]
        exact isHex_of_isLowerHex c hc
    · simp only [List.map_cons, h2, List.cons.injEq, and_true]
      split at hc
      · have : c = '-' := by simpa using hc
        subst this
        decide
      · exact lowerHex_of_isLowerHex c hc

/-- On an identifier the binder accepts, parsing and rendering returns the
identifier itself. -/
theorem uuidParse_of_isUUID (s : String) (h : isUUID s = true) : uuidParse s = s := by
  obtain ⟨h1, h2⟩ := uuidLayout_lower s.data 0 h
  simp [uuidParse, uuidParseOk, h1, h2]

theorem containsChars_append (pre rest : List Char) :
    containsChars (pre ++ rest) pre = true := by
  cases pre with
  | nil => cases rest <;> simp [containsChars]
  | cons c cs =>
    simp only [List.cons_append, containsChars, Bool.or_eq_true]
    left
    simp

/-- The text of every insufficient-stock error contains `insufficient stock`. -/
theorem contains_insufficientStockError (name : String) :
    stringsContains (insufficientStockError name) "insufficient stock" = true := by
  have h : (insufficientStockError name).data
      = "insufficient stock".data ++ (" for ".data ++ name.data) := by
    simp [insufficientStockError, String.data_append]
  unfold stringsContains
  rw [h]
  exact containsChars_append _ _

/-! ## Lemmas on the statements of the unit of work -/

theorem find_map_replace_ne {F : Type} (rows : List (Product F)) (p : Product F)
    (pid : String) (hp : ¬ p.id = pid) :
    (rows.map (fun r => if r.id == p.id then p else r)).find? (fun r => r.id == pid)
      = rows.find? (fun r => r.id == pid) := by
  induction rows with
  | nil => rfl
  | cons r rs ih =>
    cases h1 : (r.id == p.id)
    · simp only [List.map_cons, h1, Bool.false_eq_true, if_false, List.find?_cons, ih]
    · have hr : r.id = p.id := by simpa using h1
      have e1 : (p.id == pid) = false := by simpa using hp
      have e2 : (r.id == pid) = false := by simpa [hr] using hp
      simp only [List.map_cons, h1, if_true, List.find?_cons, e1, e2, ih]

theorem find_map_replace_eq {F : Type} (rows : List (Product F)) (p : Product F)
    (h : rows.any (fun r => r.id == p.id) = true) :
    (rows.map (fun r => if r.id == p.id then p else r)).find? (fun r => r.id == p.id)
      = some p := by
  induction rows with
  | nil => simp at h
  | cons r rs ih =>
    cases h1 : (r.id == p.id)
    · have h2 : rs.any (fun r => r.id == p.id) = true := by
        simpa [List.any_cons, h1] using h
      simp only [List.map_cons, h1, Bool.false_eq_true, if_false, List.find?_cons, ih h2]
    · have e1 : (p.id == p.id) = true := by simp
      simp only [List.map_cons, h1, if_true, List.find?_cons, e1]

theorem find_saveProductRows {F : Type} (rows : List (Product F)) (p p0 : Product F)
    (pid : String) (h : rows.find? (fun r => r.id == p.id) = some p0) :
    (saveProductRows rows p).find? (fun r => r.id == pid)
      = if p.id = pid then some p else rows.find? (fun r => r.id == pid) := by
  have hany : rows.any (fun r => r.id == p.id) = true := by
    rw [List.any_eq_true]
    exact ⟨p0, List.mem_of_find?_eq_some h, by simpa using List.find?_some h⟩
  simp only [saveProductRows, hany, if_true]
  by_cases hp : p.id = pid
  · subst hp
    simp only [if_true]
    exact find_map_replace_eq rows p hany
  · simp only [hp, if_false]
    exact find_map_replace_ne rows p pid hp

theorem mem_saveProductRows {F : Type} (rows : List (Product F)) (p r : Product F)
    (h : r ∈ saveProductRows rows p) : r = p ∨ r ∈ rows := by
  unfold saveProductRows at h
  split at h
  · rw [List.mem_map] at h
    obtain ⟨a, ha, e⟩ := h
    split at e
    · exact Or.inl e.symm
    · exact Or.inr (e ▸ ha)
  · rw [List.mem_append] at h
    rcases h with h | h
    · exact Or.inr h
    · exact Or.inl (by simpa using h)

/-- What a successful pass over a non-empty list of entries consists of. -/
theorem processItems_cons_ok {F : Type} (fl : Float64Ops F) (env : Env) (oid : String)
    (i : Nat) (item : Item) (rest : List Item) (tx : Store F) (total : F)
    (r : Store F × F)
    (h : processItems fl env oid i (item :: rest) tx total = .ok r) :
    ∃ p, productOf tx (uuidParse item.productID) = some p ∧ item.quantity ≤ p.stock ∧
      processItems fl env oid (i + 1) rest
        { products := saveProductRows tx.products (withdraw item.quantity p),
          orders := tx.orders,
          orderItems := tx.orderItems ++
            [{ id := env.itemID i, orderID := oid, productID := uuidParse item.productID,
               quantity := item.quantity, unitPrice := p.price }] }
        (fl.add total (fl.mul (fl.ofInt item.quantity) p.price)) = .ok r := by
  simp only [processItems, lockFirst, saveProduct, createItem] at h
  split at h
  · cases h
  · rename_i p hp
    split at hp
    · cases hp
    · split at hp
      · rename_i q hq
        cases hp
        split at h
        · cases h
        · rename_i hst
          split at h
          · cases h
          · rename_i tx1 h1
            split at h1
            · cases h1
            · cases h1
              split at h
              · cases h
              · rename_i tx2 h2
                split at h2
                · cases h2
                · cases h2
                  exact ⟨p, hq, not_lt.mp hst, h⟩
      · cases hp

/-- What a call that answers `201` consists of. -/
theorem placeOrder_created {F : Type} (fl : Float64Ops F) (env : Env) (db : Store F)
    (userID : String) (raw : List RawItem)
    (h : (PlaceOrder fl env db userID raw).1.status = StatusCreated) :
    (raw.map RawItem.decode).all Item.valid = true ∧
    ∃ tx total,
      processItems fl env env.orderID 0 (raw.map RawItem.decode)
        { db with orders := db.orders ++ [newOrder fl env userID] } fl.zero = .ok (tx, total) ∧
      PlaceOrder fl env db userID raw =
        (JSON StatusCreated true "order placed successfully" none none,
         { tx with orders :=
             saveOrderRows tx.orders { newOrder fl env userID with totalPrice := total } }) := by
  unfold PlaceOrder at h ⊢
  unfold ShouldBindJSON at h ⊢
  by_cases hv : (raw.map RawItem.decode).all Item.valid = true
  · refine ⟨hv, ?_⟩
    simp only [hv, if_true] at h ⊢
    unfold Transaction at h ⊢
    cases hb : env.fault .begin with
    | some e =>
      simp only [hb] at h
      split at h <;> simp [JSON, StatusBadRequest, StatusInternalServerError, StatusCreated] at h
    | none =>
      simp only [hb] at h ⊢
      cases hf : placeOrderTx fl env (uuidParse userID) (raw.map RawItem.decode) db with
      | error e =>
        simp only [hf] at h
        split at h <;> simp [JSON, StatusBadRequest, StatusInternalServerError, StatusCreated] at h
      | ok tx3 =>
        simp only [hf] at h ⊢
        cases hc : env.fault .commit with
        | some e =>
          simp only [hc] at h
          split at h <;>
            simp [JSON, StatusBadRequest, StatusInternalServerError, StatusCreated] at h
        | none =>
          simp only [hc]
          simp only [placeOrderTx, createOrder, saveOrder] at hf
          cases hco : env.fault .createOrder with
          | some e => simp [hco] at hf
          | none =>
            simp only [hco] at hf
            cases hp : processItems fl env env.orderID 0 (raw.map RawItem.decode)
                { db with orders := db.orders ++ [newOrder fl env userID] } fl.zero with
            | error e =>
              simp only [newOrder] at hp
              simp [hp] at hf
            | ok r =>
              obtain ⟨tx, total⟩ := r
              simp only [newOrder] at hp
              simp only [hp] at hf
              cases hso : env.fault .saveOrder with
              | some e => simp [hso] at hf
              | none =>
                simp only [hso] at hf
                cases hf
                exact ⟨tx, total, rfl, rfl⟩
  · simp only [hv] at h
    simp [JSON, StatusBadRequest, StatusCreated] at h

/-- A call that does not answer `201` leaves the store as it found it. -/
theorem placeOrder_not_created {F : Type} (fl : Float64Ops F) (env : Env) (db : Store F)
    (userID : String) (raw : List RawItem)
    (h : (PlaceOrder fl env db userID raw).1.status ≠ StatusCreated) :
    (PlaceOrder fl env db userID raw).2 = db := by
  unfold PlaceOrder at h ⊢
  split
  · rfl
  · rename_i req hreq
    simp only [hreq] at h
    unfold Transaction at h ⊢
    cases hb : env.fault .begin with
    | some e => simp only [hb]; split <;> rfl
    | none =>
      simp only [hb] at h ⊢
      cases hf : placeOrderTx fl env (uuidParse userID) req db with
      | error e => simp only [hf]; split <;> rfl
      | ok tx3 =>
        simp only [hf] at h ⊢
        cases hc : env.fault .commit with
        | some e => simp only [hc]; split <;> rfl
        | none =>
          simp only [hc] at h
          simp [JSON] at h

theorem qtyFor_cons (pid : String) (it : Item) (rest : List Item) :
    qtyFor pid (it :: rest)
      = (if it.productID = pid then it.quantity else 0) + qtyFor pid rest := by
  unfold qtyFor
  by_cases h : it.productID = pid
  · simp [List.filter_cons, h]
  · simp [List.filter_cons, h]

theorem withdraw_withdraw {F : Type} (a b : Int) (p : Product F) :
    withdraw b (withdraw a p) = withdraw (a + b) p := by
  simp only [withdraw, Product.mk.injEq, true_and]
  omega

theorem withdraw_zero {F : Type} (p : Product F) : withdraw 0 p = p := by
  simp [withdraw]

theorem productOf_id {F : Type} (db : Store F) (pid : String) (p : Product F)
    (h : productOf db pid = some p) : p.id = pid := by
  have := List.find?_some h
  simpa using this

/-- After a successful pass over `items`, every product row is the row before
the pass with the quantities of the entries that reference it withdrawn. -/
theorem processItems_products {F : Type} (fl : Float64Ops F) (env : Env) (oid : String)
    (items : List Item) :
    ∀ (i : Nat) (tx : Store F) (total : F) (r : Store F × F),
      (∀ it ∈ items, uuidParse it.productID = it.productID) →
      processItems fl env oid i items tx total = .ok r →
      ∀ pid, productOf r.1 pid = (productOf tx pid).map (withdraw (qtyFor pid items)) := by
  induction items with
  | nil =>
    intro i tx total r _ h pid
    simp only [processItems] at h
    cases h
    cases hp : productOf tx pid <;> simp [qtyFor, withdraw_zero]
  | cons item rest ih =>
    intro i tx total r hids h pid
    obtain ⟨p, hp, _, hrest⟩ := processItems_cons_ok fl env oid i item rest tx total r h
    have hid : uuidParse item.productID = item.productID := hids item (List.mem_cons_self _ _)
    rw [hid] at hp hrest
    have hpid : p.id = item.productID := productOf_id tx _ p hp
    have := ih (i + 1) _ _ r (fun it hit => hids it (List.mem_cons_of_mem _ hit)) hrest pid
    rw [this, qtyFor_cons]
    have hfind : productOf
        ({ products := saveProductRows tx.products (withdraw item.quantity p),
           orders := tx.orders,
           orderItems := tx.orderItems ++
             [{ id := env.itemID i, orderID := oid, productID := item.productID,
                quantity := item.quantity, unitPrice := p.price }] } : Store F) pid
        = if item.productID = pid then some (withdraw item.quantity p)
          else productOf tx pid := by
      unfold productOf at hp ⊢
      have hw : (withdraw item.quantity p).id = item.productID := hpid
      have := find_saveProductRows tx.products (withdraw item.quantity p) p pid
        (by rw [hw]; exact hp)
      rw [hw] at this
      exact this
    rw [hfind]
    by_cases hc : item.productID = pid
    · subst hc
      simp only [if_true, hp, Option.map_some', withdraw_withdraw]
    · simp only [hc, if_false, zero_add]

theorem processItems_orders {F : Type} (fl : Float64Ops F) (env : Env) (oid : String)
    (items : List Item) :
    ∀ (i : Nat) (tx : Store F) (total : F) (r : Store F × F),
      processItems fl env oid i items tx total = .ok r → r.1.orders = tx.orders := by
  induction items with
  | nil =>
    intro i tx total r h
    simp only [processItems] at h
    cases h
    rfl
  | cons item rest ih =>
    intro i tx total r h
    obtain ⟨p, _, _, hrest⟩ := processItems_cons_ok fl env oid i item rest tx total r h
    have hr := ih (i + 1) _ _ r hrest
    exact hr

theorem processItems_stockNonneg {F : Type} (fl : Float64Ops F) (env : Env) (oid : String)
    (items : List Item) :
    ∀ (i : Nat) (tx : Store F) (total : F) (r : Store F × F),
      processItems fl env oid i items tx total = .ok r →
      stockNonneg tx → stockNonneg r.1 := by
  induction items with
  | nil =>
    intro i tx total r h hn
    simp only [processItems] at h
    cases h
    exact hn
  | cons item rest ih =>
    intro i tx total r h hn
    obtain ⟨p, _, hq, hrest⟩ := processItems_cons_ok fl env oid i item rest tx total r h
    refine ih (i + 1) _ _ r hrest ?_
    intro q hq2
    rcases mem_saveProductRows _ _ _ hq2 with e | hmem
    · subst e
      simp only [withdraw]
      omega
    · exact hn q hmem

theorem processItems_total {F : Type} (fl : Float64Ops F) (env : Env) (oid : String)
    (db : Store F) (items : List Item) :
    ∀ (i : Nat) (tx : Store F) (total : F) (r : Store F × F),
      (∀ it ∈ items, uuidParse it.productID = it.productID) →
      (∀ pid, (productOf tx pid).map (fun p => p.price)
        = (productOf db pid).map (fun p => p.price)) →
      processItems fl env oid i items tx total = .ok r →
      r.2 = orderTotal fl db items total := by
  induction items with
  | nil =>
    intro i tx total r _ _ h
    simp only [processItems] at h
    cases h
    rfl
  | cons item rest ih =>
    intro i tx total r hids hprice h
    obtain ⟨p, hp, _, hrest⟩ := processItems_cons_ok fl env oid i item rest tx total r h
    have hid : uuidParse item.productID = item.productID := hids item (List.mem_cons_self _ _)
    rw [hid] at hp hrest
    have hstep : ∀ pid,
        (productOf
          ({ products := saveProductRows tx.products (withdraw item.quantity p),
             orders := tx.orders,
             orderItems := tx.orderItems ++
               [{ id := env.itemID i, orderID := oid, productID := item.productID,
                  quantity := item.quantity, unitPrice := p.price }] } : Store F) pid).map
          (fun p => p.price) = (productOf db pid).map (fun p => p.price) := by
      intro pid
      rw [← hprice pid]
      have hw : (withdraw item.quantity p).id = item.productID := productOf_id tx _ p hp
      have hfind := find_saveProductRows tx.products (withdraw item.quantity p) p pid
        (by rw [hw]; exact hp)
      unfold productOf at hp ⊢
      rw [hfind, hw]
      by_cases hc : item.productID = pid
      · subst hc
        simp [hp, withdraw]
      · simp [hc]
    have hr := ih (i + 1) _ _ r (fun it hit => hids it (List.mem_cons_of_mem _ hit)) hstep hrest
    rw [hr]
    have hdb : ∃ p0, productOf db item.productID = some p0 ∧ p0.price = p.price := by
      have := hprice item.productID
      rw [hp] at this
      cases hd : productOf db item.productID with
      | none => simp [hd] at this
      | some p0 => exact ⟨p0, rfl, by simpa [hd] using this.symm⟩
    obtain ⟨p0, hp0, hpp⟩ := hdb
    simp only [orderTotal, List.foldl_cons, hp0, hpp]

theorem getLast_saveOrderRows {F : Type} (rows : List (Order F)) (o o1 : Order F)
    (h : o1.id = o.id) :
    (saveOrderRows (rows ++ [o]) o1).getLast? = some o1 := by
  have hany : (rows ++ [o]).any (fun r => r.id == o1.id) = true := by
    simp [List.any_append, h]
  simp [saveOrderRows, hany, h]

theorem stockNonneg_placeOrder {F : Type} (fl : Float64Ops F) (env : Env) (db : Store F)
    (userID : String) (raw : List RawItem) (h : stockNonneg db) :
    stockNonneg (PlaceOrder fl env db userID raw).2 := by
  by_cases hs : (PlaceOrder fl env db userID raw).1.status = StatusCreated
  · obtain ⟨_, tx, total, hproc, hres⟩ := placeOrder_created fl env db userID raw hs
    rw [hres]
    have := processItems_stockNonneg fl env env.orderID _ 0 _ fl.zero (tx, total) hproc h
    exact this
  · rw [placeOrder_not_created fl env db userID raw hs]
    exact h

/-! ## Lemmas on product administration -/

theorem buildUpdates_stock_nonneg {F : Type} (fl : Float64Ops F) (form : ProductForm)
    (url : String) (n : Int) (h : (buildUpdates fl form url).stock = some n) : 0 ≤ n := by
  simp only [buildUpdates] at h
  split at h
  · split at h
    · split at h
      · cases h
        assumption
      · cases h
    · cases h
  · cases h

theorem createProduct_cases {F : Type} (fl : Float64Ops F) (env : ProductEnv) (db : Store F)
    (form : ProductForm) :
    (CreateProduct fl env db form).2 = db ∨
    ∃ p : Product F, atoi form.stock = some p.stock ∧ 0 ≤ p.stock ∧
      (CreateProduct fl env db form).2 = { db with products := db.products ++ [p] } := by
  unfold CreateProduct
  split
  · exact Or.inl rfl
  · split
    · exact Or.inl rfl
    · split
      · exact Or.inl rfl
      · split
        · exact Or.inl rfl
        · rename_i stock hstock
          split
          · exact Or.inl rfl
          · rename_i hneg
            split
            · exact Or.inl rfl
            · exact Or.inl rfl
            · split
              · exact Or.inl rfl
              · exact Or.inr ⟨_, hstock, not_lt.mp hneg, rfl⟩

theorem updateProduct_cases {F : Type} (fl : Float64Ops F) (env : ProductEnv) (db : Store F)
    (id : String) (form : ProductForm) :
    (UpdateProduct fl env db id form).2 = db ∨
    ∃ pid, (UpdateProduct fl env db id form).2
      = { db with products :=
            updateRows db.products pid (buildUpdates fl form env.upload.imageURL) } := by
  unfold UpdateProduct
  split
  · exact Or.inl rfl
  · simp only
    split
    · exact Or.inl rfl
    · rename_i p hp
      split
      · exact Or.inl rfl
      · exact Or.inl rfl
      · split
        · exact Or.inl rfl
        · split
          · exact Or.inl rfl
          · exact Or.inr ⟨p.id, rfl⟩

theorem find_updateRows {F : Type} (rows : List (Product F)) (id pid : String)
    (u : Updates F) :
    (updateRows rows id u).find? (fun r => r.id == pid)
      = (rows.find? (fun r => r.id == pid)).map
          (fun r => if r.id == id then u.apply r else r) := by
  unfold updateRows
  induction rows with
  | nil => rfl
  | cons r rs ih =>
    have hid : (if r.id == id then u.apply r else r).id = r.id := by
      split <;> rfl
    simp only [List.map_cons, List.find?_cons, hid]
    cases (r.id == pid)
    · exact ih
    · rfl

theorem placeOrder_last_order {F : Type} (fl : Float64Ops F) (env : Env) (db : Store F)
    (userID : String) (raw : List RawItem)
    (h : (PlaceOrder fl env db userID raw).1.status = StatusCreated) :
    (PlaceOrder fl env db userID raw).2.orders.getLast?
      = some { id := env.orderID, userID := uuidParse userID,
               totalPrice := orderTotal fl db (raw.map RawItem.decode) fl.zero,
               status := "pending" } := by
  obtain ⟨hv, tx, total, hproc, hres⟩ := placeOrder_created fl env db userID raw h
  have hids : ∀ it ∈ raw.map RawItem.decode, uuidParse it.productID = it.productID := by
    intro it hit
    have hval := (List.all_eq_true.mp hv) it hit
    simp only [Item.valid, Bool.and_eq_true] at hval
    exact uuidParse_of_isUUID _ hval.1.2
  have htot := processItems_total fl env env.orderID db _ 0
    { db with orders := db.orders ++ [newOrder fl env userID] } fl.zero (tx, total) hids
    (fun _ => rfl) hproc
  have hord := processItems_orders fl env env.orderID _ 0 _ fl.zero (tx, total) hproc
  simp only at htot hord
  rw [hres]
  simp only [hord, htot]
  exact getLast_saveOrderRows db.orders (newOrder fl env userID) _ rfl

/-- What the handler answers, by the outcome of the unit of work. -/
theorem placeOrder_of_bind_ok {F : Type} (fl : Float64Ops F) (env : Env) (db : Store F)
    (userID : String) (raw : List RawItem) (req : List Item)
    (hb : ShouldBindJSON env raw = .ok req) :
    PlaceOrder fl env db userID raw =
      match Transaction env db (placeOrderTx fl env (uuidParse userID) req) with
      | (some e, db1) =>
        if stringsContains e "insufficient stock" then
          (JSON StatusBadRequest false "insufficient stock" none (some e), db1)
        else
          (JSON StatusInternalServerError false "failed to place order" none (some e), db1)
      | (none, db1) =>
        (JSON StatusCreated true "order placed successfully" none none, db1) := by
  unfold PlaceOrder
  rw [hb]

theorem malformed_not_valid (r : RawItem) (h : r.malformed) : r.decode.valid = false := by
  unfold RawItem.malformed at h
  unfold Item.valid RawItem.decode
  rcases h with h | h
  · cases hq : r.quantity with
    | none => simp
    | some q =>
      have := h q hq
      have hd : decide (1 ≤ q) = false := by simpa using this
      simp [hd]
  · cases hp : r.productId with
    | none => simp [isUUID, uuidLayout]
    | some s =>
      have := h s hp
      simp [this]

theorem qtyFor_append (pid : String) (xs ys : List Item) :
    qtyFor pid (xs ++ ys) = qtyFor pid xs + qtyFor pid ys := by
  simp [qtyFor, List.filter_append, List.map_append, List.sum_append]

theorem qtyFor_nil (pid : String) : qtyFor pid [] = 0 := rfl

/-- One turn of the loop when no statement fails and the product is there. -/
theorem processItems_cons_noFault {F : Type} (fl : Float64Ops F) (env : Env) (oid : String)
    (i : Nat) (item : Item) (rest : List Item) (tx : Store F) (total : F) (p : Product F)
    (hf : env.noFault) (hp : productOf tx (uuidParse item.productID) = some p) :
    processItems fl env oid i (item :: rest) tx total =
      if p.stock < item.quantity then .error (insufficientStockError p.name)
      else processItems fl env oid (i + 1) rest
        { products := saveProductRows tx.products (withdraw item.quantity p),
          orders := tx.orders,
          orderItems := tx.orderItems ++
            [{ id := env.itemID i, orderID := oid, productID := uuidParse item.productID,
               quantity := item.quantity, unitPrice := p.price }] }
        (fl.add total (fl.mul (fl.ofInt item.quantity) p.price)) := by
  unfold productOf at hp
  simp only [processItems, lockFirst, saveProduct, createItem, hf (.lockProduct i),
    hf (.saveProduct i), hf (.createItem i), hp]
  rfl

/-- With no failing statement and every referenced product in the store, the
loop stops with the insufficient-stock error of the first short entry, and
runs to its end when there is none. -/
theorem processItems_firstShort {F : Type} (fl : Float64Ops F) (env : Env) (oid : String)
    (db : Store F) (hf : env.noFault) (rest : List Item) :
    ∀ (earlier : List Item) (i : Nat) (tx : Store F) (total : F),
      (∀ pid, productOf tx pid = (productOf db pid).map (withdraw (qtyFor pid earlier))) →
      (∀ it ∈ rest, uuidParse it.productID = it.productID) →
      (∀ it ∈ rest, productOf db it.productID ≠ none) →
      (∀ it, firstShort db earlier rest = some it →
        ∃ p, productOf db it.productID = some p ∧
          processItems fl env oid i rest tx total = .error (insufficientStockError p.name)) ∧
      (firstShort db earlier rest = none →
        ∃ r, processItems fl env oid i rest tx total = .ok r) := by
  induction rest with
  | nil =>
    intro earlier i tx total _ _ _
    refine ⟨?_, ?_⟩
    · intro it h
      simp [firstShort] at h
    · intro _
      exact ⟨(tx, total), rfl⟩
  | cons item rest ih =>
    intro earlier i tx total hinv hids hex
    have hid : uuidParse item.productID = item.productID := hids item (List.mem_cons_self _ _)
    obtain ⟨p0, hp0⟩ : ∃ p0, productOf db item.productID = some p0 := by
      cases hd : productOf db item.productID with
      | none => exact absurd hd (hex item (List.mem_cons_self _ _))
      | some p0 => exact ⟨p0, rfl⟩
    have hptx : productOf tx (uuidParse item.productID)
        = some (withdraw (qtyFor item.productID earlier) p0) := by
      rw [hid, hinv, hp0]
      rfl
    have hstep := processItems_cons_noFault fl env oid i item rest tx total _ hf hptx
    have hstock : stockOf db item.productID = some p0.stock := by
      simp [stockOf, hp0]
    have hw : (withdraw (qtyFor item.productID earlier) p0).stock
        = p0.stock - qtyFor item.productID earlier := rfl
    have hwid : (withdraw item.quantity (withdraw (qtyFor item.productID earlier) p0)).id
        = item.productID := productOf_id db _ p0 hp0
    by_cases hlt : p0.stock - qtyFor item.productID earlier < item.quantity
    · refine ⟨?_, ?_⟩
      · intro it h
        simp only [firstShort, hstock, hlt, if_true, Option.some.injEq] at h
        subst h
        refine ⟨p0, hp0, ?_⟩
        rw [hstep, hw]
        simp only [hlt, if_true]
        rfl
      · intro h
        simp [firstShort, hstock, hlt] at h
    · have hinv2 : ∀ pid,
          productOf
            ({ products := saveProductRows tx.products
                 (withdraw item.quantity (withdraw (qtyFor item.productID earlier) p0)),
               orders := tx.orders,
               orderItems := tx.orderItems ++
                 [{ id := env.itemID i, orderID := oid, productID := uuidParse item.productID,
                    quantity := item.quantity,
                    unitPrice := (withdraw (qtyFor item.productID earlier) p0).price }] } :
              Store F) pid
            = (productOf db pid).map (withdraw (qtyFor pid (earlier ++ [item]))) := by
        intro pid
        have hfind := find_saveProductRows tx.products
          (withdraw item.quantity (withdraw (qtyFor item.productID earlier) p0))
          (withdraw (qtyFor item.productID earlier) p0) pid
          (by
            rw [hwid]
            have := hptx
            rw [hid] at this
            exact this)
        rw [hwid] at hfind
        unfold productOf at hinv ⊢
        simp only
        rw [hfind, qtyFor_append]
        by_cases hc : item.productID = pid
        · subst hc
          have hq : qtyFor item.productID [item] = item.quantity := by
            simp [qtyFor]
          have hp0b : List.find? (fun p => p.id == item.productID) db.products = some p0 := hp0
          simp only [if_true, hp0b, Option.map_some', withdraw_withdraw, hq]
        · have hq : qtyFor pid [item] = 0 := by
            simp [qtyFor, hc]
          simp only [hc, if_false, hq, add_zero]
          exact hinv pid
      have hrec := ih (earlier ++ [item]) (i + 1) _
        (fl.add total (fl.mul (fl.ofInt item.quantity)
          (withdraw (qtyFor item.productID earlier) p0).price)) hinv2
        (fun it hit => hids it (List.mem_cons_of_mem _ hit))
        (fun it hit => hex it (List.mem_cons_of_mem _ hit))
      have hfs : firstShort db earlier (item :: rest)
          = firstShort db (earlier ++ [item]) rest := by
        simp only [firstShort, hstock, hlt, if_false]
      rw [hfs, hstep, hw]
      simp only [hlt, if_false]
      exact hrec

/-- With no failing statement, what the handler answers to a request that
passes the binder, by the outcome of the loop. -/
theorem placeOrder_noFault {F : Type} (fl : Float64Ops F) (env : Env) (db : Store F)
    (userID : String) (raw : List RawItem) (hf : env.noFault)
    (hv : (raw.map RawItem.decode).all Item.valid = true) :
    PlaceOrder fl env db userID raw =
      match processItems fl env env.orderID 0 (raw.map RawItem.decode)
          { db with orders := db.orders ++ [newOrder fl env userID] } fl.zero with
      | .error e =>
        if stringsContains e "insufficient stock" then
          (JSON StatusBadRequest false "insufficient stock" none (some e), db)
        else
          (JSON StatusInternalServerError false "failed to place order" none (some e), db)
      | .ok (tx, total) =>
        (JSON StatusCreated true "order placed successfully" none none,
          { tx with orders :=
              saveOrderRows tx.orders { newOrder fl env userID with totalPrice := total } }) := by
  unfold PlaceOrder ShouldBindJSON
  simp only [hv, if_true]
  unfold Transaction placeOrderTx createOrder saveOrder
  simp only [hf .begin, hf .createOrder, hf .saveOrder, hf .commit, newOrder]
  cases processItems fl env env.orderID 0 (raw.map RawItem.decode)
      { products := db.products,
        orders := db.orders ++
          [{ id := env.orderID, userID := uuidParse userID, totalPrice := fl.zero,
             status := "pending" }],
        orderItems := db.orderItems } fl.zero with
  | error e => rfl
  | ok r => rfl

/-! ## Order placement: atomicity, stock and total -/

/-- C1 (atomicity of `PlaceOrder`): for every store, environment and request,
a call that does not answer `201 Created` (its unit of work met a missing
product, an entry asking for more than the remaining stock, or a failing
statement) leaves the store exactly as it found it: no stock changed, no order
row and no order item row added. -/
theorem PlaceOrder_atomic {F : Type} (fl : Float64Ops F) (env : Env) (db : Store F)
    (userID : String) (raw : List RawItem)
    (h : (PlaceOrder fl env db userID raw).1.status ≠ StatusCreated) :
    (PlaceOrder fl env db userID raw).2 = db :=
  placeOrder_not_created fl env db userID raw h

/-- Scenario C: the first entry passes its stock check and is decremented, the
second fails, and the store is the one before the call. -/
theorem PlaceOrder_atomic_witness :
    (PlaceOrder ratOps quietEnv storeC userU requestC).1.status ≠ StatusCreated ∧
    (PlaceOrder ratOps quietEnv storeC userU requestC).2 = storeC :=
  ⟨by decide, PlaceOrder_atomic ratOps quietEnv storeC userU requestC (by decide)⟩

/-- C2 (stock postcondition of `PlaceOrder`): after a call that answers
`201 Created`, the stock of every product is its stock before the call minus
the sum of the quantities of the request entries that reference it, and the row
of a product that no entry references is unchanged. -/
theorem PlaceOrder_stock {F : Type} (fl : Float64Ops F) (env : Env) (db : Store F)
    (userID : String) (raw : List RawItem)
    (h : (PlaceOrder fl env db userID raw).1.status = StatusCreated) :
    (∀ pid, stockOf (PlaceOrder fl env db userID raw).2 pid
        = (stockOf db pid).map (fun s => s - qtyFor pid (raw.map RawItem.decode))) ∧
    (∀ pid, (∀ it ∈ raw.map RawItem.decode, it.productID ≠ pid) →
        productOf (PlaceOrder fl env db userID raw).2 pid = productOf db pid) := by
  obtain ⟨hv, tx, total, hproc, hres⟩ := placeOrder_created fl env db userID raw h
  have hids : ∀ it ∈ raw.map RawItem.decode, uuidParse it.productID = it.productID := by
    intro it hit
    have hval := (List.all_eq_true.mp hv) it hit
    simp only [Item.valid, Bool.and_eq_true] at hval
    exact uuidParse_of_isUUID _ hval.1.2
  have hprod := processItems_products fl env env.orderID _ 0 _ fl.zero (tx, total) hids hproc
  have hrows : ∀ pid, productOf (PlaceOrder fl env db userID raw).2 pid
      = (productOf db pid).map (withdraw (qtyFor pid (raw.map RawItem.decode))) := by
    intro pid
    rw [hres]
    exact hprod pid
  constructor
  · intro pid
    unfold stockOf
    rw [hrows pid]
    cases productOf db pid <;> simp [withdraw]
  · intro pid hno
    rw [hrows pid]
    have hz : qtyFor pid (raw.map RawItem.decode) = 0 := by
      unfold qtyFor
      have : (raw.map RawItem.decode).filter (fun it => it.productID == pid) = [] := by
        rw [List.filter_eq_nil_iff]
        intro it hit
        simpa using hno it hit
      rw [this]
      rfl
    rw [hz]
    cases productOf db pid <;> simp [withdraw_zero]

/-- The call of `TestPlaceOrder_Success`: stock 5 and quantity 2 leave 3. -/
theorem PlaceOrder_stock_witness :
    (PlaceOrder ratOps quietEnv storeT userU requestT).1.status = StatusCreated ∧
    stockOf (PlaceOrder ratOps quietEnv storeT userU requestT).2 idA = some 3 :=
  ⟨by decide,
   ((PlaceOrder_stock ratOps quietEnv storeT userU requestT (by decide)).1 idA).trans
     (by decide)⟩

/-- C3 (order total of `PlaceOrder`): after a call that answers `201 Created`,
the order row it persisted is the last row of `orders`, has status `pending`,
and its total price is the sum, accumulated from zero in request order, of
each entry's quantity times the price of the product it references as the
store holds it; nothing supplied by the client other than the quantities
enters the total. -/
theorem PlaceOrder_total {F : Type} (fl : Float64Ops F) (env : Env) (db : Store F)
    (userID : String) (raw : List RawItem)
    (h : (PlaceOrder fl env db userID raw).1.status = StatusCreated) :
    ((PlaceOrder fl env db userID raw).2.orders.getLast?).map
        (fun o => (o.id, o.status, o.totalPrice))
      = some (env.orderID, "pending",
          orderTotal fl db (raw.map RawItem.decode) fl.zero) := by
  rw [placeOrder_last_order fl env db userID raw h]
  rfl

/-- Scenario B (prices 10.00 and 7.50, quantities 2 and 1) totals 27.50, and
the call of `TestPlaceOrder_Success` (price 100.00, quantity 2) totals 200.00. -/
theorem PlaceOrder_total_witness :
    ((PlaceOrder ratOps quietEnv storeB userU requestB).1.status = StatusCreated ∧
      ((PlaceOrder ratOps quietEnv storeB userU requestB).2.orders.getLast?).map
          (fun o => (o.id, o.status, o.totalPrice))
        = some (quietEnv.orderID, "pending", 55 / 2)) ∧
    ((PlaceOrder ratOps quietEnv storeT userU requestT).1.status = StatusCreated ∧
      ((PlaceOrder ratOps quietEnv storeT userU requestT).2.orders.getLast?).map
          (fun o => (o.id, o.status, o.totalPrice))
        = some (quietEnv.orderID, "pending", 200)) := by
  have hB : orderTotal ratOps storeB (requestB.map RawItem.decode) ratOps.zero = 55 / 2 := by
    simp [orderTotal, productOf, storeB, requestB, RawItem.decode, ratOps, idA, idB]
    norm_num
  have hT : orderTotal ratOps storeT (requestT.map RawItem.decode) ratOps.zero = 200 := by
    simp [orderTotal, productOf, storeT, requestT, RawItem.decode, ratOps, idA]
    norm_num
  refine ⟨⟨by decide, ?_⟩, ⟨by decide, ?_⟩⟩
  · rw [PlaceOrder_total ratOps quietEnv storeB userU requestB (by decide), hB]
  · rw [PlaceOrder_total ratOps quietEnv storeT userU requestT (by decide), hT]

/-! ## Serial executions -/

theorem processItems_stock_at {F : Type} (fl : Float64Ops F) (env : Env) (oid : String)
    (items : List Item) :
    ∀ (i : Nat) (tx : Store F) (total : F) (r : Store F × F),
      (∀ it ∈ items, uuidParse it.productID = it.productID) →
      processItems fl env oid i items tx total = .ok r →
      ∀ pid s, stockOf tx pid = some s → 0 ≤ s →
        ∃ s1, stockOf r.1 pid = some s1 ∧ 0 ≤ s1 := by
  induction items with
  | nil =>
    intro i tx total r _ h pid s hs h0
    simp only [processItems] at h
    cases h
    exact ⟨s, hs, h0⟩
  | cons item rest ih =>
    intro i tx total r hids h pid s hs h0
    obtain ⟨p, hp, hq, hrest⟩ := processItems_cons_ok fl env oid i item rest tx total r h
    have hid : uuidParse item.productID = item.productID := hids item (List.mem_cons_self _ _)
    rw [hid] at hp hrest
    have hw : (withdraw item.quantity p).id = item.productID := productOf_id tx _ p hp
    have hfind := find_saveProductRows tx.products (withdraw item.quantity p) p pid
      (by rw [hw]; exact hp)
    rw [hw] at hfind
    refine ih (i + 1) _ _ r (fun it hit => hids it (List.mem_cons_of_mem _ hit)) hrest pid
      (if item.productID = pid then p.stock - item.quantity else s) ?_ ?_
    · unfold stockOf productOf at hs ⊢
      simp only
      rw [hfind]
      by_cases hc : item.productID = pid
      · simp [hc, withdraw]
      · simp only [hc, if_false]
        exact hs
    · split
      · omega
      · exact h0

theorem created_stock_at {F : Type} (fl : Float64Ops F) (env : Env)
    (db : Store F) (userID : String) (raw : List RawItem)
    (h : (PlaceOrder fl env db userID raw).1.status = StatusCreated) (pid : String) (s : Int)
    (hs : stockOf db pid = some s) (h0 : 0 ≤ s) :
    stockOf (PlaceOrder fl env db userID raw).2 pid
        = some (s - qtyFor pid (raw.map RawItem.decode)) ∧
      0 ≤ s - qtyFor pid (raw.map RawItem.decode) := by
  obtain ⟨hv, tx, total, hproc, hres⟩ := placeOrder_created fl env db userID raw h
  have hids : ∀ it ∈ raw.map RawItem.decode, uuidParse it.productID = it.productID := by
    intro it hit
    have hval := (List.all_eq_true.mp hv) it hit
    simp only [Item.valid, Bool.and_eq_true] at hval
    exact uuidParse_of_isUUID _ hval.1.2
  have hprod := processItems_products fl env env.orderID _ 0 _ fl.zero (tx, total) hids hproc pid
  have hat := processItems_stock_at fl env env.orderID _ 0 _ fl.zero (tx, total) hids hproc
    pid s hs h0
  have hst : stockOf (PlaceOrder fl env db userID raw).2 pid
      = some (s - qtyFor pid (raw.map RawItem.decode)) := by
    rw [hres]
    unfold stockOf at hs ⊢
    have hprod2 : productOf tx pid
        = (productOf db pid).map (withdraw (qtyFor pid (raw.map RawItem.decode))) := hprod
    change Option.map (fun p => p.stock) (productOf tx pid) = _
    rw [hprod2]
    cases hd : productOf db pid with
    | none => simp [hd] at hs
    | some p =>
      have : p.stock = s := by simpa [hd] using hs
      simp [withdraw, this]
  refine ⟨hst, ?_⟩
  obtain ⟨s1, hs1, h1⟩ := hat
  have hs1b : stockOf (PlaceOrder fl env db userID raw).2 pid = some s1 := by
    rw [hres]
    exact hs1
  rw [hst] at hs1b
  have := Option.some.inj hs1b
  omega

theorem runSerial_stock {F : Type} (fl : Float64Ops F) (pid : String) (calls : List Call) :
    ∀ (db : Store F) (s : Int), stockOf db pid = some s → 0 ≤ s →
      committedQty pid calls (runSerial fl calls db).1 ≤ s ∧
      stockOf (runSerial fl calls db).2 pid
        = some (s - committedQty pid calls (runSerial fl calls db).1) := by
  induction calls with
  | nil =>
    intro db s hs _
    simp only [runSerial, committedQty]
    exact ⟨by omega, by simpa using hs⟩
  | cons c cs ih =>
    intro db s hs h0
    simp only [runSerial, committedQty]
    by_cases hc : (PlaceOrder fl c.env db c.userID c.body).1.status = StatusCreated
    · obtain ⟨h1, h2⟩ := created_stock_at fl c.env db c.userID c.body hc pid s hs h0
      obtain ⟨h3, h4⟩ := ih _ _ h1 h2
      simp only [hc, if_true]
      refine ⟨by omega, ?_⟩
      rw [h4]
      congr 1
      omega
    · have hsame := placeOrder_not_created fl c.env db c.userID c.body hc
      rw [hsame]
      obtain ⟨h3, h4⟩ := ih db s hs h0
      simp only [hc, if_false, zero_add]
      exact ⟨h3, h4⟩

/-! ## The stock invariant -/

/-- C4 (stock is never negative): if every product row of the store has a
stock of at least zero, then so has every product row of the store left by
`PlaceOrder` (whatever the request and whether it succeeds or fails), by
`CreateProduct` and by `UpdateProduct`.  Moreover `CreateProduct` answers
`400` and writes nothing when the supplied stock is a negative integer, and
`UpdateProduct` leaves the stock of every product as it was when the supplied
stock is negative or not an integer. -/
theorem stock_never_negative {F : Type} (fl : Float64Ops F) (db : Store F)
    (h : stockNonneg db) :
    (∀ (env : Env) (userID : String) (raw : List RawItem),
      stockNonneg (PlaceOrder fl env db userID raw).2) ∧
    (∀ (env : ProductEnv) (form : ProductForm),
      stockNonneg (CreateProduct fl env db form).2) ∧
    (∀ (env : ProductEnv) (form : ProductForm) (n : Int),
      atoi form.stock = some n → n < 0 →
        (CreateProduct fl env db form).1.status = StatusBadRequest ∧
        (CreateProduct fl env db form).2 = db) ∧
    (∀ (env : ProductEnv) (id : String) (form : ProductForm),
      stockNonneg (UpdateProduct fl env db id form).2) ∧
    (∀ (env : ProductEnv) (id : String) (form : ProductForm),
      (∀ n, atoi form.stock = some n → n < 0) →
        ∀ pid, stockOf (UpdateProduct fl env db id form).2 pid = stockOf db pid) := by
  refine ⟨?_, ?_, ?_, ?_, ?_⟩
  · intro env userID raw
    exact stockNonneg_placeOrder fl env db userID raw h
  · intro env form
    rcases createProduct_cases fl env db form with e | ⟨p, _, hp, e⟩
    · rw [e]
      exact h
    · rw [e]
      intro q hq
      rcases List.mem_append.mp hq with hq | hq
      · exact h q hq
      · have : q = p := by simpa using hq
        rw [this]
        exact hp
  · intro env form n hn hneg
    unfold CreateProduct
    split
    · exact ⟨rfl, rfl⟩
    · split
      · exact ⟨rfl, rfl⟩
      · split
        · exact ⟨rfl, rfl⟩
        · split
          · exact ⟨rfl, rfl⟩
          · rename_i stock hstock
            have hs : stock = n := by
              rw [hn] at hstock
              exact (Option.some.inj hstock).symm
            split
            · exact ⟨rfl, rfl⟩
            · rename_i hge
              exact absurd (hs ▸ hneg) hge
  · intro env id form
    rcases updateProduct_cases fl env db id form with e | ⟨pid, e⟩
    · rw [e]
      exact h
    · rw [e]
      intro q hq
      simp only [updateRows, List.mem_map] at hq
      obtain ⟨r, hr, e2⟩ := hq
      split at e2
      · subst e2
        simp only [Updates.apply]
        cases hst : (buildUpdates fl form env.upload.imageURL).stock with
        | none => exact h r hr
        | some n => exact buildUpdates_stock_nonneg fl form _ n hst
      · subst e2
        exact h r hr
  · intro env id form hbad pid0
    rcases updateProduct_cases fl env db id form with e | ⟨pid, e⟩
    · rw [e]
    · rw [e]
      have hnone : (buildUpdates fl form env.upload.imageURL).stock = none := by
        cases hst : (buildUpdates fl form env.upload.imageURL).stock with
        | none => rfl
        | some n =>
          have h0 := buildUpdates_stock_nonneg fl form _ n hst
          simp only [buildUpdates] at hst
          split at hst
          · split at hst
            · rename_i m hm
              split at hst
              · cases hst
                have := hbad n hm
                omega
              · cases hst
            · cases hst
          · cases hst
      unfold stockOf productOf
      simp only [find_updateRows]
      cases db.products.find? (fun r => r.id == pid0) with
      | none => rfl
      | some r =>
        simp only [Option.map_some', Option.some.injEq]
        split
        · simp [Updates.apply, hnone]
        · rfl

/-- On the store of `TestPlaceOrder_Success` (stock 5): an order, a product
created with stock `7`, a product refused with stock `-1` and an update that
asks for stock `-1` all leave stocks of at least zero, the last one leaving 5. -/
theorem stock_never_negative_witness :
    stockNonneg storeT ∧
    stockNonneg (PlaceOrder ratOps quietEnv storeT userU requestT).2 ∧
    stockNonneg (CreateProduct ratOps quietProductEnv storeT formSeven).2 ∧
    (CreateProduct ratOps quietProductEnv storeT formNegative).1.status = StatusBadRequest ∧
    stockOf (UpdateProduct ratOps quietProductEnv storeT idA formNegative).2 idA = some 5 := by
  have h0 : stockNonneg storeT := by
    intro p hp
    have : p = { id := idA, name := "Test Product", price := 100, stock := 5 } := by
      simpa [storeT] using hp
    rw [this]
    decide
  have hall := stock_never_negative ratOps storeT h0
  refine ⟨h0, hall.1 _ _ _, hall.2.1 _ _, ?_, ?_⟩
  · exact (hall.2.2.1 quietProductEnv formNegative (-1) (by decide) (by decide)).1
  · rw [hall.2.2.2.2 quietProductEnv idA formNegative
      (fun n hn => by
        have h1 : atoi formNegative.stock = some (-1) := by decide
        rw [h1] at hn
        have := Option.some.inj hn
        omega) idA]
    decide

/-- C5 (no oversell over a serial execution): for every finite sequence of
`PlaceOrder` calls executed one after another on a store in which product
`pid` has stock `s` with `0 ≤ s`, the quantities of `pid` summed over the
calls answered `201 Created` do not exceed `s`, and the stock of `pid` in the
final store is `s` minus that sum. -/
theorem serial_no_oversell {F : Type} (fl : Float64Ops F) (pid : String)
    (calls : List Call) (db : Store F) (s : Int)
    (hs : stockOf db pid = some s) (h0 : 0 ≤ s) :
    committedQty pid calls (runSerial fl calls db).1 ≤ s ∧
    stockOf (runSerial fl calls db).2 pid
      = some (s - committedQty pid calls (runSerial fl calls db).1) :=
  runSerial_stock fl pid calls db s hs h0

/-- Scenario A: stock 5 and two calls for quantity 3.  In either order the
first call commits, the second is refused for insufficient stock, three units
are committed and the stock ends at 2. -/
theorem serial_no_oversell_witness :
    ((runSerial ratOps [callA1, callA2] storeA).1.map
        (fun r => (r.status, r.message))
      = [(201, "order placed successfully"), (400, "insufficient stock")] ∧
     committedQty idA [callA1, callA2] (runSerial ratOps [callA1, callA2] storeA).1 ≤ 5 ∧
     stockOf (runSerial ratOps [callA1, callA2] storeA).2 idA = some 2) ∧
    ((runSerial ratOps [callA2, callA1] storeA).1.map
        (fun r => (r.status, r.message))
      = [(201, "order placed successfully"), (400, "insufficient stock")] ∧
     committedQty idA [callA2, callA1] (runSerial ratOps [callA2, callA1] storeA).1 ≤ 5 ∧
     stockOf (runSerial ratOps [callA2, callA1] storeA).2 idA = some 2) := by
  have h12 := serial_no_oversell ratOps idA [callA1, callA2] storeA 5 (by decide) (by decide)
  have h21 := serial_no_oversell ratOps idA [callA2, callA1] storeA 5 (by decide) (by decide)
  exact ⟨⟨by decide, h12.1, h12.2.trans (by decide)⟩,
    ⟨by decide, h21.1, h21.2.trans (by decide)⟩⟩

/-! ## Responses of order placement -/

/-- C6, as the claim states it, fails: a validation failure and an
insufficient stock are both answered `400`, and an order for a product the
store does not hold is answered `500`, the status of a failing statement. -/
theorem failure_status_counterexample :
    (PlaceOrder ratOps quietEnv storeT userU requestZero).1.status = 400 ∧
    (PlaceOrder ratOps quietEnv storeT userU requestZero).1.message = "validation error" ∧
    (PlaceOrder ratOps quietEnv storeT userU requestNine).1.status = 400 ∧
    (PlaceOrder ratOps quietEnv storeT userU requestNine).1.message = "insufficient stock" ∧
    (PlaceOrder ratOps quietEnv storeT userU requestUnknown).1.status = 500 ∧
    (PlaceOrder ratOps quietEnv storeT userU requestUnknown).1.errors
      = some "record not found" ∧
    (PlaceOrder ratOps faultyEnv storeT userU requestT).1.status = 500 := by
  decide

/-- C6, amended (failure reporting of order placement): a request the binder
rejects is answered `400` with message `validation error`; a unit of work that
fails for insufficient stock is answered `400` with message
`insufficient stock` and the error text as detail; a unit of work that fails
with the error of a store statement whose text does not contain
`insufficient stock` is answered `500` with message `failed to place order`. -/
theorem failure_status {F : Type} (fl : Float64Ops F) (env : Env) (db : Store F)
    (userID : String) (raw : List RawItem) :
    (∀ e, ShouldBindJSON env raw = .error e →
      (PlaceOrder fl env db userID raw).1
        = JSON StatusBadRequest false "validation error" none (some e)) ∧
    (∀ req name, ShouldBindJSON env raw = .ok req →
      (Transaction env db (placeOrderTx fl env (uuidParse userID) req)).1
        = some (insufficientStockError name) →
      (PlaceOrder fl env db userID raw).1
        = JSON StatusBadRequest false "insufficient stock" none
            (some (insufficientStockError name))) ∧
    (∀ req op e, ShouldBindJSON env raw = .ok req →
      env.fault op = some e →
      (Transaction env db (placeOrderTx fl env (uuidParse userID) req)).1 = some e →
      stringsContains e "insufficient stock" = false →
      (PlaceOrder fl env db userID raw).1
        = JSON StatusInternalServerError false "failed to place order" none (some e)) := by
  refine ⟨?_, ?_, ?_⟩
  · intro e he
    unfold PlaceOrder
    rw [he]
  · intro req name hb ht
    rw [placeOrder_of_bind_ok fl env db userID raw req hb]
    cases hT : Transaction env db (placeOrderTx fl env (uuidParse userID) req) with
    | mk err db1 =>
      rw [hT] at ht
      simp only at ht
      subst ht
      simp only [contains_insufficientStockError, if_true]
  · intro req op e hb _ ht hc
    rw [placeOrder_of_bind_ok fl env db userID raw req hb]
    cases hT : Transaction env db (placeOrderTx fl env (uuidParse userID) req) with
    | mk err db1 =>
      rw [hT] at ht
      simp only at ht
      subst ht
      simp only [hc, Bool.false_eq_true, if_false]

/-- The three kinds of failure on the store of `TestPlaceOrder_Success`:
quantity 0, nine units out of five, and a failing `tx.Save(&p)`. -/
theorem failure_status_witness :
    (PlaceOrder ratOps quietEnv storeT userU requestZero).1
      = JSON 400 false "validation error" none (some "binding failed") ∧
    (PlaceOrder ratOps quietEnv storeT userU requestNine).1
      = JSON 400 false "insufficient stock" none (some "insufficient stock for Test Product") ∧
    (PlaceOrder ratOps faultyEnv storeT userU requestT).1
      = JSON 500 false "failed to place order" none (some "connection reset") :=
  ⟨(failure_status ratOps quietEnv storeT userU requestZero).1 "binding failed" (by rfl),
   (failure_status ratOps quietEnv storeT userU requestNine).2.1
     (requestNine.map RawItem.decode) "Test Product" (by rfl) (by decide),
   (failure_status ratOps faultyEnv storeT userU requestT).2.2
     (requestT.map RawItem.decode) (Op.saveProduct 0) "connection reset" (by rfl)
     (by decide) (by decide) (by decide)⟩

/-- C7, as the claim states it, fails: the call of `TestPlaceOrder_Success`
commits its order and is answered `201`, and the body carries no object. -/
theorem success_response_counterexample :
    (PlaceOrder ratOps quietEnv storeT userU requestT).1.status = 201 ∧
    (PlaceOrder ratOps quietEnv storeT userU requestT).2.orders.length = 1 ∧
    (PlaceOrder ratOps quietEnv storeT userU requestT).1.object = none := by
  decide

/-- C7, amended (success response of order placement): when the unit of work
of a call commits, the response has status `201`, the success flag, the message
`order placed successfully`, no object and no error detail; the committed
order (identity, status `pending`, total price) is the last row of `orders` in
the store the call leaves, not part of the body. -/
theorem success_response {F : Type} (fl : Float64Ops F) (env : Env) (db : Store F)
    (userID : String) (raw : List RawItem) (req : List Item)
    (hb : ShouldBindJSON env raw = .ok req)
    (hc : (Transaction env db (placeOrderTx fl env (uuidParse userID) req)).1 = none) :
    (PlaceOrder fl env db userID raw).1
      = JSON StatusCreated true "order placed successfully" none none ∧
    ((PlaceOrder fl env db userID raw).2.orders.getLast?).map
        (fun o => (o.id, o.status, o.totalPrice))
      = some (env.orderID, "pending",
          orderTotal fl db (raw.map RawItem.decode) fl.zero) := by
  have hresp : (PlaceOrder fl env db userID raw).1
      = JSON StatusCreated true "order placed successfully" none none := by
    rw [placeOrder_of_bind_ok fl env db userID raw req hb]
    cases hT : Transaction env db (placeOrderTx fl env (uuidParse userID) req) with
    | mk err db1 =>
      rw [hT] at hc
      simp only at hc
      subst hc
      rfl
  refine ⟨hresp, ?_⟩
  rw [placeOrder_last_order fl env db userID raw (by rw [hresp]; rfl)]
  rfl

/-- The call of `TestPlaceOrder_Success`. -/
theorem success_response_witness :
    (PlaceOrder ratOps quietEnv storeT userU requestT).1
      = JSON StatusCreated true "order placed successfully" none none ∧
    ((PlaceOrder ratOps quietEnv storeT userU requestT).2.orders.getLast?).map
        (fun o => (o.id, o.status))
      = some (quietEnv.orderID, "pending") := by
  have h := success_response ratOps quietEnv storeT userU requestT
    (requestT.map RawItem.decode) (by rfl) (by decide)
  refine ⟨h.1, ?_⟩
  have h2 := congrArg (Option.map (fun (t : String × String × ℚ) => (t.1, t.2.1))) h.2
  simpa [Option.map_map, Function.comp_def] using h2

/-- C8 (validation fails fast): a request with an element whose quantity is
absent or less than 1, or whose product identifier is absent or not a UUID,
is answered `400` with message `validation error` and the store is left as it
was; the answer is the same whatever the store holds and whatever the driver
would answer, so no product is read or locked. -/
theorem validation_fails_fast {F : Type} (fl : Float64Ops F) (env : Env) (db : Store F)
    (userID : String) (raw : List RawItem) (h : ∃ r ∈ raw, r.malformed) :
    PlaceOrder fl env db userID raw
      = (JSON StatusBadRequest false "validation error" none (some env.bindError), db) ∧
    ∀ (env2 : Env) (db2 : Store F) (userID2 : String), env2.bindError = env.bindError →
      (PlaceOrder fl env2 db2 userID2 raw).1 = (PlaceOrder fl env db userID raw).1 := by
  have hall : (raw.map RawItem.decode).all Item.valid = false := by
    obtain ⟨r, hr, hm⟩ := h
    rw [List.all_eq_false]
    exact ⟨r.decode, List.mem_map_of_mem _ hr, by simp [malformed_not_valid r hm]⟩
  have hgen : ∀ (env1 : Env) (db1 : Store F) (u1 : String),
      PlaceOrder fl env1 db1 u1 raw
        = (JSON StatusBadRequest false "validation error" none (some env1.bindError), db1) := by
    intro env1 db1 u1
    unfold PlaceOrder ShouldBindJSON
    simp only [hall, Bool.false_eq_true, if_false]
  refine ⟨hgen env db userID, ?_⟩
  intro env2 db2 userID2 he
  rw [hgen env2 db2 userID2, hgen env db userID, he]

/-- The request of `TestPlaceOrder_ValidationFailure`: a single entry with
quantity 0. -/
theorem validation_fails_fast_witness :
    (∃ r ∈ requestZero, r.malformed) ∧
    PlaceOrder ratOps quietEnv storeT userU requestZero
      = (JSON StatusBadRequest false "validation error" none (some "binding failed"), storeT) :=
  have hm : ∃ r ∈ requestZero, r.malformed :=
    ⟨{ productId := some idA, quantity := some 0 }, by simp [requestZero],
      Or.inl (fun q hq => by
        have : (0 : Int) = q := Option.some.inj hq
        omega)⟩
  ⟨hm, (validation_fails_fast ratOps quietEnv storeT userU requestZero hm).1⟩

/-- C9 (insufficient stock is detected entry by entry against the remaining
stock): for a request that passes the binder, all of whose products are in the
store, and with no failing statement, `PlaceOrder` fails for insufficient
stock exactly when some entry asks for more than the stock its product had
before the call minus the quantities of the earlier entries for that product.
It then answers `400` with message `insufficient stock` and a detail that
names the product of the first such entry, and leaves the store as it was;
when there is no such entry it answers `201`. -/
theorem insufficient_stock_first_short {F : Type} (fl : Float64Ops F) (env : Env)
    (db : Store F) (userID : String) (raw : List RawItem) (hf : env.noFault)
    (hv : (raw.map RawItem.decode).all Item.valid = true)
    (hex : ∀ it ∈ raw.map RawItem.decode, productOf db it.productID ≠ none) :
    (∀ it, firstShort db [] (raw.map RawItem.decode) = some it →
      ∃ p, productOf db it.productID = some p ∧
        PlaceOrder fl env db userID raw
          = (JSON StatusBadRequest false "insufficient stock" none
              (some ("insufficient stock for " ++ p.name)), db)) ∧
    (firstShort db [] (raw.map RawItem.decode) = none →
      (PlaceOrder fl env db userID raw).1.status = StatusCreated) := by
  have hids : ∀ it ∈ raw.map RawItem.decode, uuidParse it.productID = it.productID := by
    intro it hit
    have hval := (List.all_eq_true.mp hv) it hit
    simp only [Item.valid, Bool.and_eq_true] at hval
    exact uuidParse_of_isUUID _ hval.1.2
  have hloop := processItems_firstShort fl env env.orderID db hf (raw.map RawItem.decode) [] 0
    { db with orders := db.orders ++ [newOrder fl env userID] } fl.zero
    (by
      intro pid
      show productOf db pid = _
      cases productOf db pid <;> simp [qtyFor_nil, withdraw_zero])
    hids hex
  have hplace := placeOrder_noFault fl env db userID raw hf hv
  refine ⟨?_, ?_⟩
  · intro it hit
    obtain ⟨p, hp, herr⟩ := hloop.1 it hit
    refine ⟨p, hp, ?_⟩
    rw [hplace, herr]
    simp only [contains_insufficientStockError, if_true]
    rfl
  · intro hnone
    obtain ⟨⟨tx, total⟩, hr⟩ := hloop.2 hnone
    rw [hplace, hr]
    rfl

/-- Scenario C: the same product twice, quantities 2 and 3, against stock 4.
The first short entry is the second one (it needs 3 where 2 remain); the
answer names the product and the store, with its stock of 4, is unchanged. -/
theorem insufficient_stock_first_short_witness :
    firstShort storeC [] (requestC.map RawItem.decode)
      = some { productID := idA, quantity := 3 } ∧
    PlaceOrder ratOps quietEnv storeC userU requestC
      = (JSON StatusBadRequest false "insufficient stock" none
          (some "insufficient stock for Widget"), storeC) ∧
    stockOf (PlaceOrder ratOps quietEnv storeC userU requestC).2 idA = some 4 := by
  have hfs : firstShort storeC [] (requestC.map RawItem.decode)
      = some { productID := idA, quantity := 3 } := by decide
  obtain ⟨p, hp, hres⟩ :=
    (insufficient_stock_first_short ratOps quietEnv storeC userU requestC (fun _ => rfl)
      (by decide) (by decide)).1 _ hfs
  have hpw : p = { id := idA, name := "Widget", price := 10, stock := 4 } := by
    have h2 : productOf storeC idA
        = some { id := idA, name := "Widget", price := 10, stock := 4 } := by decide
    rw [h2] at hp
    exact (Option.some.inj hp).symm
  subst hpw
  exact ⟨hfs, hres, by rw [hres]; decide⟩

/-! ## Rate limiting -/

/-- The middleware at a single instant, in terms of the reference count and
window start. -/
theorem rateLimit_instant (c : Cache) (limit window now : Int) (clientIP : String) :
    RateLimitMiddleware c limit window (Clock.instant now) clientIP
      = if refCount (c.Get now (cacheKey clientIP)) now window ≤ limit then
          (Outcome.next,
            c.Set now (cacheKey clientIP)
              { LastRequest := refWindowStart (c.Get now (cacheKey clientIP)) now window,
                Count := refCount (c.Get now (cacheKey clientIP)) now window }
              (window + 1 * Second))
        else
          (Outcome.abort StatusTooManyRequests "Too many requests. Please try again later.", c) := by
  unfold RateLimitMiddleware Clock.instant
  simp only
  cases hg : c.Get now (cacheKey clientIP) with
  | none =>
    simp only [refCount, refWindowStart, sub_self, zero_add]
    by_cases hw : (0 : Int) ≥ window
    · simp only [hw, if_true, gt_iff_lt, ← not_le, ite_not]
    · simp only [hw, if_false, gt_iff_lt, ← not_le, ite_not]
  | some e =>
    simp only [refCount, refWindowStart]
    by_cases hw : now - e.LastRequest ≥ window
    · simp only [hw, if_true, gt_iff_lt, ← not_le, ite_not]
    · simp only [hw, if_false, gt_iff_lt, ← not_le, ite_not]

theorem cacheSet_items_self (c : Cache) (now : Int) (k : String) (x : RateLimitEntry)
    (d : Int) :
    (c.Set now k x d).items k
      = some { Object := x,
               Expiration :=
                 if (if d = 0 then c.defaultExpiration else d) > 0 then
                   now + (if d = 0 then c.defaultExpiration else d)
                 else 0 } := by
  simp only [Cache.Set, if_true]

theorem wrap64_of_range (x : Int) (h1 : minInt64 ≤ x) (h2 : x ≤ maxInt64) : wrap64 x = x := by
  unfold minInt64 at h1
  unfold maxInt64 at h2
  unfold wrap64
  omega

theorem sat64_ge_iff (x window : Int) (h1 : minInt64 < window) (h2 : window ≤ maxInt64) :
    sat64 x ≥ window ↔ x ≥ window := by
  unfold sat64
  split
  · constructor
    · intro _
      omega
    · intro _
      exact h2
  · split
    · constructor
      · intro h
        omega
      · intro h
        omega
    · exact Iff.rfl

/-- The handler in 64-bit arithmetic is the handler in the integers wherever
no sum overflows. -/
theorem middleware64_eq (c : Cache) (limit window : Int) (clk : Clock) (clientIP : String)
    (hw : minInt64 < window ∧ window + Second ≤ maxInt64)
    (hc : ∀ e, c.Get clk.get (cacheKey clientIP) = some e →
      minInt64 ≤ e.Count ∧ e.Count < maxInt64) :
    RateLimitMiddleware64 c limit window clk clientIP
      = RateLimitMiddleware c limit window clk clientIP := by
  have hs : Second = 1000000000 := rfl
  have hmin : minInt64 = -9223372036854775808 := rfl
  have hmax : maxInt64 = 9223372036854775807 := rfl
  have hd : wrap64 (window + 1 * Second) = window + 1 * Second :=
    wrap64_of_range _ (by omega) (by omega)
  have hsat : ∀ x, (sat64 x ≥ window) = (x ≥ window) :=
    fun x => propext (sat64_ge_iff x window hw.1 (by omega))
  unfold RateLimitMiddleware64 RateLimitMiddleware
  simp only [hd, hsat]
  cases hg : c.Get clk.get (cacheKey clientIP) with
  | none =>
    have h1 : wrap64 ((0 : Int) + 1) = 0 + 1 := by decide
    simp only [h1]
  | some e =>
    obtain ⟨hc1, hc2⟩ := hc e hg
    have h1 : wrap64 (e.Count + 1) = e.Count + 1 := wrap64_of_range _ (by omega) (by omega)
    simp only [h1]

/-- The shape of the middleware: it computes an entry from the live entry of
the caller, then either aborts and leaves the store alone or stores the entry
under the caller's key. -/
theorem middleware_eq (c : Cache) (limit window : Int) (clk : Clock) (clientIP : String) :
    RateLimitMiddleware c limit window clk clientIP
      = if (computedEntry (c.Get clk.get (cacheKey clientIP)) window clk).Count > limit then
          (tooManyRequests, c)
        else
          (Outcome.next,
            c.Set clk.set (cacheKey clientIP)
              (computedEntry (c.Get clk.get (cacheKey clientIP)) window clk)
              (window + 1 * Second)) :=
  rfl

theorem middleware_shape (c : Cache) (limit window : Int) (clk : Clock) (clientIP : String) :
    ∃ entry : RateLimitEntry,
      RateLimitMiddleware c limit window clk clientIP
        = if entry.Count > limit then (tooManyRequests, c)
          else (Outcome.next,
            c.Set clk.set (cacheKey clientIP) entry (window + 1 * Second)) :=
  ⟨_, middleware_eq c limit window clk clientIP⟩

theorem middleware_not_next (c : Cache) (limit window : Int) (clk : Clock) (clientIP : String)
    (h : (RateLimitMiddleware c limit window clk clientIP).1 ≠ Outcome.next) :
    RateLimitMiddleware c limit window clk clientIP = (tooManyRequests, c) := by
  obtain ⟨entry, he⟩ := middleware_shape c limit window clk clientIP
  rw [he] at h ⊢
  by_cases hc : entry.Count > limit
  · simp only [hc, if_true]
  · simp only [hc, if_false] at h
    exact absurd rfl h

theorem runLimiter_all_throttled (limit window : Int) (reqs : List (Int × String)) :
    ∀ c : Cache, (∀ o ∈ (runLimiter limit window reqs c).1, o ≠ Outcome.next) →
      (runLimiter limit window reqs c).2 = c := by
  induction reqs with
  | nil => intro c _; rfl
  | cons r rest ih =>
    intro c h
    obtain ⟨t, a⟩ := r
    simp only [runLimiter] at h ⊢
    have h1 : (RateLimitMiddleware c limit window (Clock.instant t) a).1 ≠ Outcome.next :=
      h _ (List.mem_cons_self _ _)
    have h2 := middleware_not_next c limit window (Clock.instant t) a h1
    rw [h2] at h ⊢
    exact ih c (fun o ho => h o (List.mem_cons_of_mem _ ho))

/-- C11 (a throttled request is a pure read): whenever the middleware does not
let a request through, whatever the clock readings, it answers `429` and the
expiring store it leaves is the store it found, so that the caller's stored
count, window start and expiry are untouched; and a run of requests none of
which is let through ends in the store it started from, the one left by the
last accepted request. -/
theorem throttled_is_pure_read (c : Cache) (limit window : Int) :
    (∀ (clk : Clock) (clientIP : String),
      (RateLimitMiddleware c limit window clk clientIP).1 ≠ Outcome.next →
        RateLimitMiddleware c limit window clk clientIP = (tooManyRequests, c)) ∧
    (∀ reqs : List (Int × String),
      (∀ o ∈ (runLimiter limit window reqs c).1, o ≠ Outcome.next) →
        (runLimiter limit window reqs c).2 = c) :=
  ⟨fun clk clientIP h => middleware_not_next c limit window clk clientIP h,
   fun reqs h => runLimiter_all_throttled limit window reqs c h⟩

/-- After five accepted requests in the first five seconds, a sixth request at
5 s is answered `429` and leaves the store as it was. -/
theorem throttled_is_pure_read_witness :
    (RateLimitMiddleware fullCache routerLimit routerWindow (Clock.instant (5 * Second))
        clientA).1 ≠ Outcome.next ∧
    RateLimitMiddleware fullCache routerLimit routerWindow (Clock.instant (5 * Second)) clientA
      = (tooManyRequests, fullCache) ∧
    fullCache.items (cacheKey clientA)
      = some { Object := { LastRequest := 0, Count := 5 }, Expiration := 15 * Second } :=
  ⟨by decide,
   (throttled_is_pure_read fullCache routerLimit routerWindow).1 (Clock.instant (5 * Second))
     clientA (by decide),
   by decide⟩

theorem cacheKey_injective (a b : String) (h : cacheKey a = cacheKey b) : a = b := by
  unfold cacheKey at h
  have hd := congrArg String.data h
  simp only [String.data_append] at hd
  have := List.append_cancel_left hd
  exact String.ext this

theorem cacheSet_items_other (c : Cache) (now : Int) (k j : String) (x : RateLimitEntry)
    (d : Int) (h : j ≠ k) : (c.Set now k x d).items j = c.items j := by
  simp only [Cache.Set, h, if_false]

theorem middleware_items_other (c : Cache) (limit window : Int) (clk : Clock)
    (clientIP : String) (k : String) (h : k ≠ cacheKey clientIP) :
    (RateLimitMiddleware c limit window clk clientIP).2.items k = c.items k := by
  obtain ⟨entry, he⟩ := middleware_shape c limit window clk clientIP
  rw [he]
  by_cases hc : entry.Count > limit
  · simp only [hc, if_true]
  · simp only [hc, if_false]
    exact cacheSet_items_other c clk.set _ k entry _ h

theorem cacheGet_congr (c1 c2 : Cache) (now : Int) (k : String)
    (h : c1.items k = c2.items k) : c1.Get now k = c2.Get now k := by
  simp only [Cache.Get, h]

/-- C19 (caller keys are isolated): the decision on a request of a client
depends on the store only through the item stored under that client's key;
so does the item stored under that key afterwards, given the default expiration
of the store; the item under every other key is left as it was; and two
different client addresses have two different keys. -/
theorem caller_keys_isolated (limit window : Int) (clk : Clock) (clientIP : String) :
    (∀ c1 c2 : Cache, c1.items (cacheKey clientIP) = c2.items (cacheKey clientIP) →
      (RateLimitMiddleware c1 limit window clk clientIP).1
        = (RateLimitMiddleware c2 limit window clk clientIP).1 ∧
      (c1.defaultExpiration = c2.defaultExpiration →
        (RateLimitMiddleware c1 limit window clk clientIP).2.items (cacheKey clientIP)
          = (RateLimitMiddleware c2 limit window clk clientIP).2.items (cacheKey clientIP))) ∧
    (∀ (c : Cache) (k : String), k ≠ cacheKey clientIP →
      (RateLimitMiddleware c limit window clk clientIP).2.items k = c.items k) ∧
    (∀ other : String, other ≠ clientIP → cacheKey other ≠ cacheKey clientIP) := by
  refine ⟨?_, ?_, ?_⟩
  · intro c1 c2 h
    have hg := cacheGet_congr c1 c2 clk.get (cacheKey clientIP) h
    rw [middleware_eq c1, middleware_eq c2, hg]
    by_cases hc : (computedEntry (c2.Get clk.get (cacheKey clientIP)) window clk).Count > limit
    · rw [if_pos hc, if_pos hc]
      exact ⟨rfl, fun _ => h⟩
    · rw [if_neg hc, if_neg hc]
      refine ⟨rfl, ?_⟩
      intro hd
      simp only [Cache.Set, if_true, hd]
  · intro c k hk
    exact middleware_items_other c limit window clk clientIP k hk
  · intro other hne heq
    exact hne (cacheKey_injective other clientIP heq)

/-- On the store left by five requests of `clientA`: a first request of
`clientB` is let through although `clientA` is at its limit, and it leaves the
entry of `clientA` as it was. -/
theorem caller_keys_isolated_witness :
    cacheKey clientB ≠ cacheKey clientA ∧
    (RateLimitMiddleware fullCache routerLimit routerWindow (Clock.instant (5 * Second))
        clientB).1 = Outcome.next ∧
    (RateLimitMiddleware fullCache routerLimit routerWindow (Clock.instant (5 * Second))
        clientB).2.items (cacheKey clientA)
      = some { Object := { LastRequest := 0, Count := 5 }, Expiration := 15 * Second } := by
  have h := caller_keys_isolated routerLimit routerWindow (Clock.instant (5 * Second)) clientB
  have hne : cacheKey clientA ≠ cacheKey clientB := h.2.2 clientA (by decide)
  refine ⟨fun e => hne e.symm, ?_, ?_⟩
  · have h1 := (h.1 fullCache routerCache (by decide)).1
    rw [h1]
    decide
  · rw [h.2.1 fullCache (cacheKey clientA) hne]
    decide

/-! ## Rate limiting: runs of requests -/

theorem cacheGet_some (c : Cache) (t : Int) (k : String) (e : RateLimitEntry)
    (h : c.Get t k = some e) :
    ∃ item, c.items k = some item ∧ item.Object = e ∧
      ¬ (item.Expiration > 0 ∧ t > item.Expiration) := by
  unfold Cache.Get at h
  cases hi : c.items k with
  | none => simp [hi] at h
  | some item =>
    simp only [hi] at h
    by_cases hx : item.Expiration > 0 ∧ t > item.Expiration
    · simp [hx] at h
    · simp only [hx, if_false, Option.some.injEq] at h
      exact ⟨item, rfl, h, hx⟩

theorem cacheGet_live (c : Cache) (t : Int) (k : String) (item : CacheItem)
    (h : c.items k = some item) (hx : t ≤ item.Expiration) :
    c.Get t k = some item.Object := by
  unfold Cache.Get
  have : ¬ (item.Expiration > 0 ∧ t > item.Expiration) := by omega
  simp only [h, this, if_false]

/-- The middleware at one instant, split by what it does. -/
theorem middleware_instant_cases (c : Cache) (limit window t : Int) (ip : String) :
    (RateLimitMiddleware c limit window (Clock.instant t) ip = (tooManyRequests, c) ∧
      limit < refCount (c.Get t (cacheKey ip)) t window) ∨
    (RateLimitMiddleware c limit window (Clock.instant t) ip
        = (Outcome.next,
            c.Set t (cacheKey ip)
              { LastRequest := refWindowStart (c.Get t (cacheKey ip)) t window,
                Count := refCount (c.Get t (cacheKey ip)) t window }
              (window + 1 * Second)) ∧
      refCount (c.Get t (cacheKey ip)) t window ≤ limit) := by
  rw [rateLimit_instant]
  by_cases h : refCount (c.Get t (cacheKey ip)) t window ≤ limit
  · right
    exact ⟨by rw [if_pos h], h⟩
  · left
    exact ⟨by rw [if_neg h]; rfl, not_le.mp h⟩

theorem cacheSet_expiry (c : Cache) (t : Int) (k : String) (x : RateLimitEntry)
    (window : Int) :
    ∃ exp, (c.Set t k x (window + 1 * Second)).items k = some { Object := x, Expiration := exp } ∧
      (0 < window + Second → exp = t + (window + Second)) := by
  refine ⟨_, cacheSet_items_self c t k x _, ?_⟩
  intro hpos
  have h1 : ¬ window + 1 * Second = 0 := by omega
  have h2 : window + 1 * Second > 0 := by omega
  simp only [h1, h2, if_true, if_false]
  omega

/-- One request keeps the entry of `ip` in step. -/
theorem entryInStep_step (c : Cache) (limit window : Int) (ip : String) (la : Option Int)
    (t : Int) (a : String) (hin : entryInStep c limit window ip la)
    (hla : ∀ ta, la = some ta → ta ≤ t) :
    entryInStep (RateLimitMiddleware c limit window (Clock.instant t) a).2 limit window ip
      (if a = ip ∧ (RateLimitMiddleware c limit window (Clock.instant t) a).1 = Outcome.next
        then some t else la) := by
  by_cases ha : a = ip
  · subst ha
    rcases middleware_instant_cases c limit window t a with ⟨h, _⟩ | ⟨h, hle⟩
    · rw [h]
      have : ¬ (a = a ∧ tooManyRequests = Outcome.next) := by
        intro hh
        exact absurd hh.2 (by decide)
      simp only [this, if_false]
      exact hin
    · rw [h]
      simp only [true_and, if_true]
      obtain ⟨exp, hitem, hexp⟩ := cacheSet_expiry c t (cacheKey a)
        { LastRequest := refWindowStart (c.Get t (cacheKey a)) t window,
          Count := refCount (c.Get t (cacheKey a)) t window } window
      unfold entryInStep
      rw [hitem]
      refine ⟨t, rfl, ?_, ?_, hle, hexp⟩
      · show refWindowStart (c.Get t (cacheKey a)) t window ≤ t
        cases hg : c.Get t (cacheKey a) with
        | none => simp [refWindowStart]
        | some e =>
          simp only [refWindowStart]
          split
          · exact le_refl t
          · obtain ⟨item, hi, he, _⟩ := cacheGet_some c t _ e hg
            unfold entryInStep at hin
            rw [hi] at hin
            obtain ⟨ta, hta, h1, _⟩ := hin
            have := hla ta hta
            rw [← he]
            omega
      · show 1 ≤ refCount (c.Get t (cacheKey a)) t window
        cases hg : c.Get t (cacheKey a) with
        | none => simp [refCount]
        | some e =>
          simp only [refCount]
          split
          · exact le_refl 1
          · obtain ⟨item, hi, he, _⟩ := cacheGet_some c t _ e hg
            unfold entryInStep at hin
            rw [hi] at hin
            obtain ⟨ta, _, _, h2, _⟩ := hin
            rw [← he]
            omega
  · have hk : cacheKey ip ≠ cacheKey a := fun e => ha (cacheKey_injective ip a e).symm
    have hitems := middleware_items_other c limit window (Clock.instant t) a (cacheKey ip) hk
    have : ¬ (a = ip ∧ (RateLimitMiddleware c limit window (Clock.instant t) a).1
        = Outcome.next) := fun hh => ha hh.1
    simp only [this, if_false]
    unfold entryInStep at hin ⊢
    rw [hitems]
    exact hin

/-- A run in the order of time keeps the entry of `ip` in step. -/
theorem runLimiter_inStep (limit window : Int) (ip : String) (reqs : List (Int × String)) :
    ∀ (c : Cache) (la : Option Int), timeOrdered reqs →
      (∀ ta, la = some ta → ∀ r ∈ reqs, ta ≤ r.1) →
      entryInStep c limit window ip la →
      entryInStep (runLimiter limit window reqs c).2 limit window ip
        (lastAccepted ip la reqs (runLimiter limit window reqs c).1) := by
  induction reqs with
  | nil => intro c la _ _ h; exact h
  | cons r rest ih =>
    intro c la hord hla hin
    obtain ⟨t, a⟩ := r
    simp only [runLimiter, lastAccepted]
    have hord2 : timeOrdered rest := by
      unfold timeOrdered at hord ⊢
      simp only [List.map_cons, List.pairwise_cons] at hord
      exact hord.2
    have hhead : ∀ r ∈ rest, t ≤ r.1 := by
      unfold timeOrdered at hord
      simp only [List.map_cons, List.pairwise_cons] at hord
      intro r hr
      exact hord.1 r.1 (List.mem_map_of_mem _ hr)
    apply ih _ _ hord2
    · intro ta hta r hr
      split at hta
      · have : t = ta := Option.some.inj hta
        rw [← this]
        exact hhead r hr
      · exact hla ta hta r (List.mem_cons_of_mem _ hr)
    · exact entryInStep_step c limit window ip la t a hin
        (fun ta hta => hla ta hta (t, a) (List.mem_cons_self _ _))

theorem entryInStep_new (d limit window : Int) (ip : String) :
    entryInStep (Cache.New d) limit window ip none := by
  simp [entryInStep, Cache.New]

/-- A request at least a window after the last accepted request of the caller
opens a new window, in any store whose entry is in step. -/
theorem inStep_idle_opens (c : Cache) (limit window : Int) (ip : String) (la : Option Int)
    (t : Int) (hin : entryInStep c limit window ip la) (hl : 1 ≤ limit)
    (hidle : ∀ ta, la = some ta → ta + window ≤ t) :
    RateLimitMiddleware c limit window (Clock.instant t) ip
      = (Outcome.next,
          c.Set t (cacheKey ip) { LastRequest := t, Count := 1 } (window + 1 * Second)) := by
  have hrc : refCount (c.Get t (cacheKey ip)) t window = 1 ∧
      refWindowStart (c.Get t (cacheKey ip)) t window = t := by
    cases hg : c.Get t (cacheKey ip) with
    | none => simp [refCount, refWindowStart]
    | some e =>
      obtain ⟨item, hi, he, _⟩ := cacheGet_some c t _ e hg
      unfold entryInStep at hin
      rw [hi] at hin
      obtain ⟨ta, hta, h1, _⟩ := hin
      have h2 := hidle ta hta
      have h3 : t - e.LastRequest ≥ window := by
        rw [← he]
        omega
      simp [refCount, refWindowStart, h3]
  rcases middleware_instant_cases c limit window t ip with ⟨_, h⟩ | ⟨h, _⟩
  · rw [hrc.1] at h
    omega
  · rw [h, hrc.1, hrc.2]

/-- C13 (a new window opens after the caller has been idle): in every store
reached from the empty one by a run of requests in the order of time, with a
limit of at least 1, a request of a client that comes at least a window after
the last accepted request of that client (or when none was accepted) is let
through, and the entry stored for the client afterwards has count 1 and the
instant of that request as window start; this holds whether the old item is
still live or has expired. -/
theorem new_window_after_idle (d limit window : Int) (reqs : List (Int × String))
    (ip : String) (t : Int) (hl : 1 ≤ limit) (hord : timeOrdered reqs)
    (hidle : ∀ ta,
      lastAccepted ip none reqs (runLimiter limit window reqs (Cache.New d)).1 = some ta →
        ta + window ≤ t) :
    (RateLimitMiddleware (runLimiter limit window reqs (Cache.New d)).2 limit window
        (Clock.instant t) ip).1 = Outcome.next ∧
    ∃ expiry,
      (RateLimitMiddleware (runLimiter limit window reqs (Cache.New d)).2 limit window
          (Clock.instant t) ip).2.items (cacheKey ip)
        = some { Object := { LastRequest := t, Count := 1 }, Expiration := expiry } := by
  have hin := runLimiter_inStep limit window ip reqs (Cache.New d) none hord
    (fun ta hta => by cases hta) (entryInStep_new d limit window ip)
  rw [inStep_idle_opens _ limit window ip _ t hin hl hidle]
  exact ⟨rfl, _, cacheSet_items_self _ _ _ _ _⟩

/-- After five accepted requests of `clientA`, the last at 4 s: a request at
14 s, when the item written at 4 s is still live (it expires at 15 s), and a
request at 16 s, when it has expired, both open a new window. -/
theorem new_window_after_idle_witness :
    lastAccepted clientA none fiveHits (runLimiter routerLimit routerWindow fiveHits routerCache).1
      = some (4 * Second) ∧
    ((RateLimitMiddleware fullCache routerLimit routerWindow (Clock.instant (14 * Second))
        clientA).1 = Outcome.next ∧
      (RateLimitMiddleware fullCache routerLimit routerWindow (Clock.instant (14 * Second))
          clientA).2.items (cacheKey clientA)
        = some { Object := { LastRequest := 14 * Second, Count := 1 },
                 Expiration := 25 * Second }) ∧
    ((RateLimitMiddleware fullCache routerLimit routerWindow (Clock.instant (16 * Second))
        clientA).1 = Outcome.next ∧
      (RateLimitMiddleware fullCache routerLimit routerWindow (Clock.instant (16 * Second))
          clientA).2.items (cacheKey clientA)
        = some { Object := { LastRequest := 16 * Second, Count := 1 },
                 Expiration := 27 * Second }) := by
  have hla : lastAccepted clientA none fiveHits
      (runLimiter routerLimit routerWindow fiveHits routerCache).1 = some (4 * Second) := by
    decide
  have hord : timeOrdered fiveHits := by
    unfold timeOrdered
    decide
  have h14 := new_window_after_idle (10 * Second) routerLimit routerWindow fiveHits clientA
    (14 * Second) (by decide) hord
    (fun ta hta => by
      have e : routerCache = Cache.New (10 * Second) := rfl
      rw [← e, hla] at hta
      have := Option.some.inj hta
      rw [← this]
      decide)
  have h16 := new_window_after_idle (10 * Second) routerLimit routerWindow fiveHits clientA
    (16 * Second) (by decide) hord
    (fun ta hta => by
      have e : routerCache = Cache.New (10 * Second) := rfl
      rw [← e, hla] at hta
      have := Option.some.inj hta
      rw [← this]
      decide)
  exact ⟨hla, ⟨h14.1, by decide⟩, ⟨h16.1, by decide⟩⟩

/-- C14, as the claim states it, fails: with the limit of 5 and the window of
10 s, after requests accepted at 0, 1, 2, 3 and 4 s the stored timestamp is 0,
not 4 s; the request at 5 s is throttled; and a request at 10 s, only six
seconds after the last accepted request, is let through. -/
theorem readmission_counterexample :
    (runLimiter routerLimit routerWindow (fiveHits ++ [(5 * Second, clientA)]) routerCache).1
      = [Outcome.next, Outcome.next, Outcome.next, Outcome.next, Outcome.next,
         tooManyRequests] ∧
    lastAccepted clientA none (fiveHits ++ [(5 * Second, clientA)])
        (runLimiter routerLimit routerWindow (fiveHits ++ [(5 * Second, clientA)])
          routerCache).1 = some (4 * Second) ∧
    ((runLimiter routerLimit routerWindow (fiveHits ++ [(5 * Second, clientA)])
        routerCache).2.items (cacheKey clientA)).map (fun item => item.Object.LastRequest)
      = some 0 ∧
    10 * Second < 4 * Second + routerWindow ∧
    (RateLimitMiddleware
        (runLimiter routerLimit routerWindow (fiveHits ++ [(5 * Second, clientA)])
          routerCache).2
        routerLimit routerWindow (Clock.instant (10 * Second)) clientA).1 = Outcome.next := by
  decide

/-- In a store whose entry is in step, a throttled request finds a live entry
at the limit. -/
theorem inStep_throttled (c : Cache) (limit window : Int) (ip : String) (la : Option Int)
    (t1 : Int) (hin : entryInStep c limit window ip la) (hl : 1 ≤ limit) (hw : 0 < window)
    (hthr : (RateLimitMiddleware c limit window (Clock.instant t1) ip).1 ≠ Outcome.next) :
    ∃ item ta, c.items (cacheKey ip) = some item ∧ la = some ta ∧
      item.Object.LastRequest ≤ ta ∧ item.Object.Count = limit ∧
      item.Expiration = ta + (window + Second) := by
  rcases middleware_instant_cases c limit window t1 ip with ⟨_, h⟩ | ⟨h, _⟩
  · cases hg : c.Get t1 (cacheKey ip) with
    | none =>
      rw [hg] at h
      simp only [refCount] at h
      omega
    | some e =>
      rw [hg] at h
      obtain ⟨item, hi, he, _⟩ := cacheGet_some c t1 _ e hg
      have hin2 := hin
      unfold entryInStep at hin2
      rw [hi] at hin2
      obtain ⟨ta, hta, h1, h2, h3, h4⟩ := hin2
      have hs : (0 : Int) < Second := by decide
      refine ⟨item, ta, hi, hta, h1, ?_, h4 (by omega)⟩
      simp only [refCount] at h
      split at h
      · omega
      · rw [← he] at h
        omega
  · rw [h] at hthr
    exact absurd rfl hthr

theorem inStep_at_limit_decision (c : Cache) (limit window : Int) (ip : String)
    (item : CacheItem) (ta t : Int) (hl : 1 ≤ limit)
    (hi : c.items (cacheKey ip) = some item) (h1 : item.Object.LastRequest ≤ ta)
    (h2 : item.Object.Count = limit) (h3 : item.Expiration = ta + (window + Second)) :
    (RateLimitMiddleware c limit window (Clock.instant t) ip).1 = Outcome.next ↔
      item.Object.LastRequest + window ≤ t := by
  have hs : (0 : Int) < Second := by decide
  by_cases ht : item.Object.LastRequest + window ≤ t
  · have hrc : refCount (c.Get t (cacheKey ip)) t window = 1 := by
      cases hg : c.Get t (cacheKey ip) with
      | none => simp [refCount]
      | some e =>
        obtain ⟨item2, hi2, he, _⟩ := cacheGet_some c t _ e hg
        rw [hi] at hi2
        have : item = item2 := Option.some.inj hi2
        subst this
        have h5 : t - e.LastRequest ≥ window := by
          rw [← he]
          omega
        simp [refCount, h5]
    rcases middleware_instant_cases c limit window t ip with ⟨_, h⟩ | ⟨h, _⟩
    · rw [hrc] at h
      omega
    · rw [h]
      exact ⟨fun _ => ht, fun _ => rfl⟩
  · have hg : c.Get t (cacheKey ip) = some item.Object :=
      cacheGet_live c t _ item hi (by omega)
    have hrc : refCount (c.Get t (cacheKey ip)) t window = limit + 1 := by
      rw [hg]
      have h5 : ¬ t - item.Object.LastRequest ≥ window := by omega
      simp [refCount, h5, h2]
    rcases middleware_instant_cases c limit window t ip with ⟨h, _⟩ | ⟨_, h⟩
    · rw [h]
      constructor
      · intro hh
        have hne : tooManyRequests ≠ Outcome.next := by decide
        exact absurd hh hne
      · intro hh
        exact absurd hh ht
    · rw [hrc] at h
      omega

/-- C14, amended (re-admission time after throttling): in a store reached from
the empty one by a run of requests in the order of time, with a window longer
than zero and a limit of at least 1, once a request of a client is throttled
the client has a stored entry whose timestamp is the start of its current
window, not later than its last accepted request; and from then on a request
of the client is let through exactly when it comes at or after that window
start plus the window, whatever the time of its last accepted request or of
its last attempt. -/
theorem readmission_at_window_end (d limit window : Int) (reqs : List (Int × String))
    (ip : String) (t1 : Int) (hw : 0 < window) (hl : 1 ≤ limit) (hord : timeOrdered reqs)
    (hthr : (RateLimitMiddleware (runLimiter limit window reqs (Cache.New d)).2 limit window
        (Clock.instant t1) ip).1 ≠ Outcome.next) :
    ∃ item ta,
      (runLimiter limit window reqs (Cache.New d)).2.items (cacheKey ip) = some item ∧
      lastAccepted ip none reqs (runLimiter limit window reqs (Cache.New d)).1 = some ta ∧
      item.Object.LastRequest ≤ ta ∧
      ∀ t,
        ((RateLimitMiddleware (runLimiter limit window reqs (Cache.New d)).2 limit window
            (Clock.instant t) ip).1 = Outcome.next ↔
          item.Object.LastRequest + window ≤ t) := by
  have hin := runLimiter_inStep limit window ip reqs (Cache.New d) none hord
    (fun ta hta => by cases hta) (entryInStep_new d limit window ip)
  obtain ⟨item, ta, hi, hta, h1, h2, h3⟩ :=
    inStep_throttled _ limit window ip _ t1 hin hl hw hthr
  exact ⟨item, ta, hi, hta, h1,
    fun t => inStep_at_limit_decision _ limit window ip item ta t hl hi h1 h2 h3⟩

/-- After requests accepted at 0, 1, 2, 3 and 4 s, a request at 5 s is
throttled; the stored window start is 0, and the client is let through again
from 10 s on: not at 9 s, at 10 s yes. -/
theorem readmission_at_window_end_witness :
    (RateLimitMiddleware fullCache routerLimit routerWindow (Clock.instant (5 * Second))
        clientA).1 ≠ Outcome.next ∧
    (fullCache.items (cacheKey clientA)).map (fun item => item.Object.LastRequest) = some 0 ∧
    (RateLimitMiddleware fullCache routerLimit routerWindow (Clock.instant (9 * Second))
        clientA).1 ≠ Outcome.next ∧
    (RateLimitMiddleware fullCache routerLimit routerWindow (Clock.instant (10 * Second))
        clientA).1 = Outcome.next := by
  have hord : timeOrdered fiveHits := by
    unfold timeOrdered
    decide
  obtain ⟨item, ta, hi, _, _, hiff⟩ :=
    readmission_at_window_end (10 * Second) routerLimit routerWindow fiveHits clientA
      (5 * Second) (by decide) (by decide) hord (by decide)
  have hitem : fullCache.items (cacheKey clientA)
      = some { Object := { LastRequest := 0, Count := 5 }, Expiration := 15 * Second } := by
    decide
  have e : (runLimiter routerLimit routerWindow fiveHits (Cache.New (10 * Second))).2
      = fullCache := rfl
  rw [e] at hi hiff
  rw [hitem] at hi
  have hitem2 := Option.some.inj hi
  subst hitem2
  refine ⟨by decide, by rw [hitem]; rfl, ?_, ?_⟩
  · intro h
    have := (hiff (9 * Second)).1 h
    exact absurd this (by decide)
  · exact (hiff (10 * Second)).2 (by decide)

/-! ## Rate limiting: one window -/

/-- Inside the window of a live entry, request number `k` of the window (from
0) is let through exactly when `k` is below the limit. -/
theorem window_outcomes (limit window : Int) (ip : String) (w0 : Int) (ts : List Int) :
    ∀ (c : Cache) (item : CacheItem) (k : Nat),
      c.items (cacheKey ip) = some item → item.Object.LastRequest = w0 →
      ((k : Int) ≤ limit → item.Object.Count = k) →
      (limit ≤ (k : Int) → item.Object.Count = limit) →
      0 < window → w0 + window + Second ≤ item.Expiration →
      (∀ t ∈ ts, w0 ≤ t ∧ t < w0 + window) →
      (runLimiter limit window (ts.map (fun t => (t, ip))) c).1
        = (List.range' k ts.length).map
            (fun (i : Nat) => if (i : Int) < limit then Outcome.next else tooManyRequests) := by
  induction ts with
  | nil => intro c item k _ _ _ _ _ _ _; rfl
  | cons t ts ih =>
    intro c item k hi hw0 hk1 hk2 hw hexp hts
    have hs : (0 : Int) < Second := by decide
    obtain ⟨ht1, ht2⟩ := hts t (List.mem_cons_self _ _)
    have hg : c.Get t (cacheKey ip) = some item.Object :=
      cacheGet_live c t _ item hi (by omega)
    have hnr : ¬ t - item.Object.LastRequest ≥ window := by omega
    have hrc : refCount (c.Get t (cacheKey ip)) t window = item.Object.Count + 1 := by
      rw [hg]
      simp only [refCount]
      rw [if_neg hnr]
    have hrw : refWindowStart (c.Get t (cacheKey ip)) t window = w0 := by
      rw [hg]
      simp only [refWindowStart]
      rw [if_neg hnr]
      exact hw0
    simp only [List.map_cons, runLimiter, List.length_cons, List.range'_succ]
    rcases middleware_instant_cases c limit window t ip with ⟨h, hlt⟩ | ⟨h, hle⟩
    · rw [hrc] at hlt
      have hkl : limit ≤ (k : Int) := by
        by_contra hcon
        have := hk1 (by omega)
        omega
      have hnot : ¬ (k : Int) < limit := by omega
      rw [h]
      simp only [hnot, if_false, List.cons.injEq, true_and]
      refine ih c item (k + 1) hi hw0 ?_ ?_ hw hexp
        (fun u hu => hts u (List.mem_cons_of_mem _ hu))
      · intro hle2
        push_cast at hle2
        omega
      · intro _
        exact hk2 hkl
    · rw [hrc] at hle
      have hkl : (k : Int) < limit := by
        by_contra hcon
        have := hk2 (by omega)
        omega
      have hcnt : item.Object.Count = k := hk1 (by omega)
      rw [h, hrc, hrw]
      simp only [hkl, if_true, List.cons.injEq, true_and]
      obtain ⟨exp, hitem, hexp2⟩ := cacheSet_expiry c t (cacheKey ip)
        { LastRequest := w0, Count := item.Object.Count + 1 } window
      have hexp3 := hexp2 (by omega)
      refine ih _ _ (k + 1) hitem rfl ?_ ?_ hw (by simp only; omega)
        (fun u hu => hts u (List.mem_cons_of_mem _ hu))
      · intro _
        simp only
        push_cast
        omega
      · intro hle2
        simp only
        push_cast at hle2
        omega

/-- C12 (fixed-window admission): for every limit of at least 1 and every
window longer than zero, starting from a store with no entry for the caller,
when the caller makes requests at non-decreasing instants that are all less
than a window after the first, request number `i` (from 0) is let through when
`i` is below the limit and is answered `429` otherwise: the first `limit`
requests are allowed and every further one is throttled. -/
theorem fixed_window_admission (c : Cache) (limit window : Int) (ip : String) (t0 : Int)
    (ts : List Int) (hl : 1 ≤ limit) (hw : 0 < window)
    (hnone : c.items (cacheKey ip) = none)
    (hord : (t0 :: ts).Pairwise (fun s t => s ≤ t))
    (hin : ∀ t ∈ ts, t < t0 + window) :
    (runLimiter limit window ((t0 :: ts).map (fun t => (t, ip))) c).1
      = (List.range (ts.length + 1)).map
          (fun (i : Nat) => if (i : Int) < limit then Outcome.next else tooManyRequests) := by
  have hs : (0 : Int) < Second := by decide
  have hg : c.Get t0 (cacheKey ip) = none := by
    simp [Cache.Get, hnone]
  have hrc : refCount (c.Get t0 (cacheKey ip)) t0 window = 1 := by
    rw [hg]
    rfl
  have hrw : refWindowStart (c.Get t0 (cacheKey ip)) t0 window = t0 := by
    rw [hg]
    rfl
  simp only [List.map_cons, runLimiter, List.range_eq_range', List.range'_succ]
  rcases middleware_instant_cases c limit window t0 ip with ⟨_, hlt⟩ | ⟨h, _⟩
  · rw [hrc] at hlt
    omega
  · rw [h, hrc, hrw]
    have h0 : ((0 : Nat) : Int) < limit := by
      push_cast
      omega
    simp only [h0, if_true, List.cons.injEq, true_and, zero_add]
    obtain ⟨exp, hitem, hexp2⟩ := cacheSet_expiry c t0 (cacheKey ip)
      { LastRequest := t0, Count := 1 } window
    have hexp3 := hexp2 (by omega)
    have hge : ∀ t ∈ ts, t0 ≤ t := (List.pairwise_cons.mp hord).1
    exact window_outcomes limit window ip t0 ts _ _ 1 hitem rfl
      (fun _ => by simp) (fun h1 => by simp only; push_cast at h1; omega) hw
      (by simp only; omega) (fun t ht => ⟨hge t ht, hin t ht⟩)

/-- The configuration of `SetupRouter` (limit 5, window 10 s): of eight
requests within ten seconds of the first, the first five are let through and
the last three are throttled. -/
theorem fixed_window_admission_witness :
    (runLimiter routerLimit routerWindow ((0 :: eightTimes).map (fun t => (t, clientA)))
        routerCache).1
      = [Outcome.next, Outcome.next, Outcome.next, Outcome.next, Outcome.next,
         tooManyRequests, tooManyRequests, tooManyRequests] :=
  (fixed_window_admission routerCache routerLimit routerWindow clientA 0 eightTimes
    (by decide) (by decide) rfl (by decide) (by decide)).trans (by decide)

/-! ## Rate limiting: the accepted requests of a window -/

theorem timeOrdered_cons (t : Int) (a : String) (rest : List (Int × String))
    (h : timeOrdered ((t, a) :: rest)) : (∀ r ∈ rest, t ≤ r.1) ∧ timeOrdered rest := by
  unfold timeOrdered at h ⊢
  simp only [List.map_cons, List.pairwise_cons] at h
  exact ⟨fun r hr => h.1 r.1 (List.mem_map_of_mem _ hr), h.2⟩

theorem runLimiter_cons_eq (limit window t : Int) (a : String) (rest : List (Int × String))
    (c c1 : Cache) (o : Outcome)
    (h : RateLimitMiddleware c limit window (Clock.instant t) a = (o, c1)) :
    runLimiter limit window ((t, a) :: rest) c
      = (o :: (runLimiter limit window rest c1).1, (runLimiter limit window rest c1).2) := by
  simp only [runLimiter, h]

theorem windowStarts_cons_eq (limit window t : Int) (ip a : String)
    (rest : List (Int × String)) (c c1 : Cache) (o : Outcome)
    (h : RateLimitMiddleware c limit window (Clock.instant t) a = (o, c1)) :
    windowStarts limit window ip ((t, a) :: rest) c
      = (if a = ip ∧ o = Outcome.next then
          match c1.items (cacheKey ip) with
          | some item => [item.Object.LastRequest]
          | none => []
         else []) ++ windowStarts limit window ip rest c1 := by
  simp only [windowStarts, h]

theorem allowedIn_cons (ip : String) (lo hi t : Int) (a : String)
    (rest : List (Int × String)) (o : Outcome) (os : List Outcome) :
    allowedIn ip lo hi ((t, a) :: rest) (o :: os)
      = (if a = ip ∧ o = Outcome.next ∧ lo ≤ t ∧ t < hi then 1 else 0)
          + allowedIn ip lo hi rest os := rfl

theorem allowedIn_zero (ip : String) (lo hi : Int) (reqs : List (Int × String)) :
    ∀ outs : List Outcome, (∀ r ∈ reqs, hi ≤ r.1) → allowedIn ip lo hi reqs outs = 0 := by
  induction reqs with
  | nil => intro outs _; cases outs <;> rfl
  | cons r rest ih =>
    intro outs h
    obtain ⟨t, a⟩ := r
    cases outs with
    | nil => rfl
    | cons o os =>
      rw [allowedIn_cons, ih os (fun r hr => h r (List.mem_cons_of_mem _ hr))]
      have : ¬ (a = ip ∧ o = Outcome.next ∧ lo ≤ t ∧ t < hi) := by
        intro hh
        have := h (t, a) (List.mem_cons_self _ _)
        simp only at this
        omega
      simp only [this, if_false]

/-- A request of the caller that finds an item of its key in the store: it is
throttled inside the window, or accepted inside the window, or opens a new
window. -/
theorem live_step (c : Cache) (limit window : Int) (ip : String) (item : CacheItem) (t : Int)
    (hw : 0 < window) (hi : c.items (cacheKey ip) = some item)
    (hc1 : 1 ≤ item.Object.Count) (hc2 : item.Object.Count ≤ limit)
    (hexp : item.Object.LastRequest + window + Second ≤ item.Expiration) :
    (t < item.Object.LastRequest + window ∧
      RateLimitMiddleware c limit window (Clock.instant t) ip = (tooManyRequests, c)) ∨
    (t < item.Object.LastRequest + window ∧ item.Object.Count + 1 ≤ limit ∧
      ∃ c1, RateLimitMiddleware c limit window (Clock.instant t) ip = (Outcome.next, c1) ∧
        c1.items (cacheKey ip)
          = some { Object := { LastRequest := item.Object.LastRequest,
                               Count := item.Object.Count + 1 },
                   Expiration := t + (window + Second) }) ∨
    (item.Object.LastRequest + window ≤ t ∧
      ∃ c1, RateLimitMiddleware c limit window (Clock.instant t) ip = (Outcome.next, c1) ∧
        c1.items (cacheKey ip)
          = some { Object := { LastRequest := t, Count := 1 },
                   Expiration := t + (window + Second) }) := by
  have hs : (0 : Int) < Second := by decide
  by_cases ht : t < item.Object.LastRequest + window
  · have hg : c.Get t (cacheKey ip) = some item.Object :=
      cacheGet_live c t _ item hi (by omega)
    have hnr : ¬ t - item.Object.LastRequest ≥ window := by omega
    have hrc : refCount (c.Get t (cacheKey ip)) t window = item.Object.Count + 1 := by
      rw [hg]
      simp only [refCount]
      rw [if_neg hnr]
    have hrw : refWindowStart (c.Get t (cacheKey ip)) t window = item.Object.LastRequest := by
      rw [hg]
      simp only [refWindowStart]
      rw [if_neg hnr]
    rcases middleware_instant_cases c limit window t ip with ⟨h, _⟩ | ⟨h, hle⟩
    · exact Or.inl ⟨ht, h⟩
    · rw [hrc] at hle
      rw [hrc, hrw] at h
      obtain ⟨exp, hitem, hexp2⟩ := cacheSet_expiry c t (cacheKey ip)
        { LastRequest := item.Object.LastRequest, Count := item.Object.Count + 1 } window
      have hexp3 := hexp2 (by omega)
      subst hexp3
      exact Or.inr (Or.inl ⟨ht, hle, _, h, hitem⟩)
  · have hge : item.Object.LastRequest + window ≤ t := not_lt.mp ht
    have hrc : refCount (c.Get t (cacheKey ip)) t window = 1 ∧
        refWindowStart (c.Get t (cacheKey ip)) t window = t := by
      cases hg : c.Get t (cacheKey ip) with
      | none => simp [refCount, refWindowStart]
      | some e =>
        obtain ⟨item2, hi2, he, _⟩ := cacheGet_some c t _ e hg
        rw [hi] at hi2
        have : item = item2 := Option.some.inj hi2
        subst this
        have h5 : t - e.LastRequest ≥ window := by
          rw [← he]
          omega
        simp [refCount, refWindowStart, h5]
    rcases middleware_instant_cases c limit window t ip with ⟨_, hlt⟩ | ⟨h, _⟩
    · rw [hrc.1] at hlt
      omega
    · rw [hrc.1, hrc.2] at h
      obtain ⟨exp, hitem, hexp2⟩ := cacheSet_expiry c t (cacheKey ip)
        { LastRequest := t, Count := 1 } window
      have hexp3 := hexp2 (by omega)
      subst hexp3
      exact Or.inr (Or.inr ⟨hge, _, h, hitem⟩)

/-- A request of the caller that finds no item of its key in the store. -/
theorem none_step (c : Cache) (limit window : Int) (ip : String) (t : Int)
    (hw : 0 < window) (hi : c.items (cacheKey ip) = none) :
    (limit < 1 ∧
      RateLimitMiddleware c limit window (Clock.instant t) ip = (tooManyRequests, c)) ∨
    (1 ≤ limit ∧
      ∃ c1, RateLimitMiddleware c limit window (Clock.instant t) ip = (Outcome.next, c1) ∧
        c1.items (cacheKey ip)
          = some { Object := { LastRequest := t, Count := 1 },
                   Expiration := t + (window + Second) }) := by
  have hs : (0 : Int) < Second := by decide
  have hg : c.Get t (cacheKey ip) = none := by
    simp [Cache.Get, hi]
  have hrc : refCount (c.Get t (cacheKey ip)) t window = 1 := by
    rw [hg]
    rfl
  have hrw : refWindowStart (c.Get t (cacheKey ip)) t window = t := by
    rw [hg]
    rfl
  rcases middleware_instant_cases c limit window t ip with ⟨h, hlt⟩ | ⟨h, hle⟩
  · rw [hrc] at hlt
    exact Or.inl ⟨by omega, h⟩
  · rw [hrc] at hle
    rw [hrc, hrw] at h
    obtain ⟨exp, hitem, hexp2⟩ := cacheSet_expiry c t (cacheKey ip)
      { LastRequest := t, Count := 1 } window
    have hexp3 := hexp2 (by omega)
    subst hexp3
    exact Or.inr ⟨hle, _, h, hitem⟩

/-- A request of another client leaves the item of the caller's key alone. -/
theorem other_step (c : Cache) (limit window : Int) (ip a : String) (t : Int) (ha : a ≠ ip) :
    ∃ o c1, RateLimitMiddleware c limit window (Clock.instant t) a = (o, c1) ∧
      c1.items (cacheKey ip) = c.items (cacheKey ip) := by
  have hk : cacheKey ip ≠ cacheKey a := fun e => ha (cacheKey_injective ip a e).symm
  exact ⟨_, _, rfl, middleware_items_other c limit window (Clock.instant t) a (cacheKey ip) hk⟩

theorem runLimiter_cons_fst (limit window t : Int) (a : String) (rest : List (Int × String))
    (c c1 : Cache) (o : Outcome)
    (h : RateLimitMiddleware c limit window (Clock.instant t) a = (o, c1)) :
    (runLimiter limit window ((t, a) :: rest) c).1 = o :: (runLimiter limit window rest c1).1 := by
  rw [runLimiter_cons_eq _ _ _ _ _ _ _ _ h]

theorem allowedIn_cons_skip (ip : String) (lo hi t : Int) (a : String)
    (rest : List (Int × String)) (o : Outcome) (os : List Outcome)
    (h : ¬ (a = ip ∧ o = Outcome.next ∧ lo ≤ t ∧ t < hi)) :
    allowedIn ip lo hi ((t, a) :: rest) (o :: os) = allowedIn ip lo hi rest os := by
  rw [allowedIn_cons, if_neg h, zero_add]

theorem allowedIn_cons_le (ip : String) (lo hi t : Int) (a : String)
    (rest : List (Int × String)) (o : Outcome) (os : List Outcome) :
    allowedIn ip lo hi ((t, a) :: rest) (o :: os) ≤ 1 + allowedIn ip lo hi rest os := by
  rw [allowedIn_cons]
  split <;> omega

theorem windowStarts_cons_skip (limit window t : Int) (ip a : String)
    (rest : List (Int × String)) (c c1 : Cache) (o : Outcome)
    (h : RateLimitMiddleware c limit window (Clock.instant t) a = (o, c1))
    (hno : ¬ (a = ip ∧ o = Outcome.next)) :
    windowStarts limit window ip ((t, a) :: rest) c = windowStarts limit window ip rest c1 := by
  rw [windowStarts_cons_eq _ _ _ _ _ _ _ _ _ h, if_neg hno, List.nil_append]

theorem windowStarts_cons_hit (limit window t : Int) (ip : String)
    (rest : List (Int × String)) (c c1 : Cache) (item : CacheItem)
    (h : RateLimitMiddleware c limit window (Clock.instant t) ip = (Outcome.next, c1))
    (hitem : c1.items (cacheKey ip) = some item) :
    windowStarts limit window ip ((t, ip) :: rest) c
      = item.Object.LastRequest :: windowStarts limit window ip rest c1 := by
  rw [windowStarts_cons_eq _ _ _ _ _ _ _ _ _ h, if_pos ⟨rfl, rfl⟩, hitem]
  rfl

/-- From a store that holds the entry of the window started at `w0`, the
requests of the caller still let through inside that window are at most the
limit minus the stored count. -/
theorem forward_bound (limit window : Int) (ip : String) (w0 : Int) (hw : 0 < window)
    (reqs : List (Int × String)) :
    ∀ (c : Cache) (item : CacheItem), c.items (cacheKey ip) = some item →
      item.Object.LastRequest = w0 → 1 ≤ item.Object.Count → item.Object.Count ≤ limit →
      w0 + window + Second ≤ item.Expiration → timeOrdered reqs →
      (∀ r ∈ reqs, w0 ≤ r.1) →
      ((allowedIn ip w0 (w0 + window) reqs (runLimiter limit window reqs c).1 : Nat) : Int)
        ≤ limit - item.Object.Count := by
  induction reqs with
  | nil =>
    intro c item _ _ _ h _ _ _
    simp only [runLimiter, allowedIn]
    push_cast
    omega
  | cons r rest ih =>
    intro c item hi hw0 hc1 hc2 hexp hord hge
    obtain ⟨t, a⟩ := r
    obtain ⟨hhead, hord2⟩ := timeOrdered_cons t a rest hord
    have hge2 : ∀ r ∈ rest, w0 ≤ r.1 := fun r hr => hge r (List.mem_cons_of_mem _ hr)
    have hw0t : w0 ≤ t := hge (t, a) (List.mem_cons_self _ _)
    by_cases ha : a = ip
    · subst ha
      subst hw0
      rcases live_step c limit window a item t hw hi hc1 hc2 hexp with
        ⟨_, h⟩ | ⟨ht, hle, c1, h, hitem⟩ | ⟨ht, c1, h, _⟩
      · rw [runLimiter_cons_fst _ _ _ _ _ _ _ _ h,
          allowedIn_cons_skip _ _ _ _ _ _ _ _ (fun hh => absurd hh.2.1 (by decide))]
        exact ih c item hi rfl hc1 hc2 hexp hord2 hge2
      · rw [runLimiter_cons_fst _ _ _ _ _ _ _ _ h]
        have hrec := ih c1
          { Object := { LastRequest := item.Object.LastRequest,
                        Count := item.Object.Count + 1 },
            Expiration := t + (window + Second) }
          hitem rfl (by show 1 ≤ item.Object.Count + 1; omega)
          (by show item.Object.Count + 1 ≤ limit; exact hle)
          (by show item.Object.LastRequest + window + Second ≤ t + (window + Second); omega)
          hord2 hge2
        have hrec2 : ((allowedIn a item.Object.LastRequest (item.Object.LastRequest + window)
            rest (runLimiter limit window rest c1).1 : Nat) : Int)
              ≤ limit - (item.Object.Count + 1) := hrec
        have hle1 := allowedIn_cons_le a item.Object.LastRequest
          (item.Object.LastRequest + window) t a rest Outcome.next
          (runLimiter limit window rest c1).1
        omega
      · have hall : ∀ r ∈ (t, a) :: rest, item.Object.LastRequest + window ≤ r.1 := by
          intro r hr
          rcases List.mem_cons.mp hr with e | hr
          · rw [e]
            exact ht
          · have := hhead r hr
            omega
        rw [allowedIn_zero a _ _ _ _ hall]
        push_cast
        omega
    · obtain ⟨o, c1, h, hsame⟩ := other_step c limit window ip a t ha
      rw [runLimiter_cons_fst _ _ _ _ _ _ _ _ h,
        allowedIn_cons_skip _ _ _ _ _ _ _ _ (fun hh => ha hh.1)]
      exact ih c1 item (hsame.trans hi) hw0 hc1 hc2 hexp hord2 hge2

/-- The window opened by a request of the caller at `t` lets through at most
`limit` of its requests, that one included. -/
theorem opened_window_bound (limit window : Int) (ip : String) (hw : 0 < window) (t : Int)
    (rest : List (Int × String)) (c c1 : Cache) (hl : 1 ≤ limit)
    (h : RateLimitMiddleware c limit window (Clock.instant t) ip = (Outcome.next, c1))
    (hitem : c1.items (cacheKey ip)
      = some { Object := { LastRequest := t, Count := 1 },
               Expiration := t + (window + Second) })
    (hord2 : timeOrdered rest) (hhead : ∀ r ∈ rest, t ≤ r.1) :
    ((allowedIn ip t (t + window) ((t, ip) :: rest)
        (runLimiter limit window ((t, ip) :: rest) c).1 : Nat) : Int) ≤ limit := by
  rw [runLimiter_cons_fst _ _ _ _ _ _ _ _ h]
  have hfb := forward_bound limit window ip t hw rest c1
    { Object := { LastRequest := t, Count := 1 }, Expiration := t + (window + Second) }
    hitem rfl (le_refl 1) hl (by show t + window + Second ≤ t + (window + Second); omega)
    hord2 hhead
  have hfb2 : ((allowedIn ip t (t + window) rest (runLimiter limit window rest c1).1 : Nat)
      : Int) ≤ limit - 1 := hfb
  have hle1 := allowedIn_cons_le ip t (t + window) t ip rest Outcome.next
    (runLimiter limit window rest c1).1
  omega

/-- From a store that holds a live entry at instant `t0`, every window start
stored later is either the start of that entry or an instant after `t0` whose
window lets through at most `limit` requests of the caller. -/
theorem starts_live (limit window : Int) (ip : String) (hw : 0 < window)
    (reqs : List (Int × String)) :
    ∀ (c : Cache) (item : CacheItem) (t0 : Int), c.items (cacheKey ip) = some item →
      item.Object.LastRequest ≤ t0 → t0 < item.Object.LastRequest + window →
      1 ≤ item.Object.Count → item.Object.Count ≤ limit →
      item.Object.LastRequest + window + Second ≤ item.Expiration → timeOrdered reqs →
      (∀ r ∈ reqs, t0 ≤ r.1) →
      ∀ ws ∈ windowStarts limit window ip reqs c,
        ws = item.Object.LastRequest ∨
        (t0 < ws ∧
          ((allowedIn ip ws (ws + window) reqs (runLimiter limit window reqs c).1 : Nat) : Int)
            ≤ limit) := by
  induction reqs with
  | nil =>
    intro c item t0 _ _ _ _ _ _ _ _ ws hws
    simp [windowStarts] at hws
  | cons r rest ih =>
    intro c item t0 hi hlo ht0 hc1 hc2 hexp hord hge ws hws
    obtain ⟨t, a⟩ := r
    obtain ⟨hhead, hord2⟩ := timeOrdered_cons t a rest hord
    have hge2 : ∀ r ∈ rest, t0 ≤ r.1 := fun r hr => hge r (List.mem_cons_of_mem _ hr)
    have ht0t : t0 ≤ t := hge (t, a) (List.mem_cons_self _ _)
    by_cases ha : a = ip
    · subst ha
      rcases live_step c limit window a item t hw hi hc1 hc2 hexp with
        ⟨_, h⟩ | ⟨ht, hle, c1, h, hitem⟩ | ⟨ht, c1, h, hitem⟩
      · rw [windowStarts_cons_skip _ _ _ _ _ _ _ _ _ h
          (fun hh => absurd hh.2 (by decide))] at hws
        rw [runLimiter_cons_fst _ _ _ _ _ _ _ _ h,
          allowedIn_cons_skip _ _ _ _ _ _ _ _ (fun hh => absurd hh.2.1 (by decide))]
        exact ih c item t0 hi hlo ht0 hc1 hc2 hexp hord2 hge2 ws hws
      · rw [windowStarts_cons_hit _ _ _ _ _ _ _ _ h hitem] at hws
        rcases List.mem_cons.mp hws with e | hws
        · exact Or.inl e
        · have hrec := ih c1
            { Object := { LastRequest := item.Object.LastRequest,
                          Count := item.Object.Count + 1 },
              Expiration := t + (window + Second) }
            t hitem (by show item.Object.LastRequest ≤ t; omega)
            (by show t < item.Object.LastRequest + window; exact ht)
            (by show 1 ≤ item.Object.Count + 1; omega)
            (by show item.Object.Count + 1 ≤ limit; exact hle)
            (by show item.Object.LastRequest + window + Second ≤ t + (window + Second); omega)
            hord2 hhead ws hws
          rcases hrec with e | ⟨hlt, hcount⟩
          · exact Or.inl e
          · refine Or.inr ⟨by omega, ?_⟩
            rw [runLimiter_cons_fst _ _ _ _ _ _ _ _ h,
              allowedIn_cons_skip _ _ _ _ _ _ _ _ (fun hh => by omega)]
            exact hcount
      · have hl : 1 ≤ limit := by omega
        have hopen := opened_window_bound limit window a hw t rest c c1 hl h hitem hord2 hhead
        rw [windowStarts_cons_hit _ _ _ _ _ _ _ _ h hitem] at hws
        rcases List.mem_cons.mp hws with e | hws
        · have e2 : ws = t := e
          subst e2
          exact Or.inr ⟨by omega, hopen⟩
        · have hrec := ih c1
            { Object := { LastRequest := t, Count := 1 },
              Expiration := t + (window + Second) }
            t hitem (le_refl t) (by show t < t + window; omega) (le_refl 1) hl
            (by show t + window + Second ≤ t + (window + Second); omega)
            hord2 hhead ws hws
          rcases hrec with e | ⟨hlt, hcount⟩
          · have e2 : ws = t := e
            subst e2
            exact Or.inr ⟨by omega, hopen⟩
          · refine Or.inr ⟨by omega, ?_⟩
            rw [runLimiter_cons_fst _ _ _ _ _ _ _ _ h,
              allowedIn_cons_skip _ _ _ _ _ _ _ _ (fun hh => by omega)]
            exact hcount
    · obtain ⟨o, c1, h, hsame⟩ := other_step c limit window ip a t ha
      rw [windowStarts_cons_skip _ _ _ _ _ _ _ _ _ h (fun hh => ha hh.1)] at hws
      rw [runLimiter_cons_fst _ _ _ _ _ _ _ _ h,
        allowedIn_cons_skip _ _ _ _ _ _ _ _ (fun hh => ha hh.1)]
      exact ih c1 item t0 (hsame.trans hi) hlo ht0 hc1 hc2 hexp hord2 hge2 ws hws

/-- From a store with no item for the caller, every window start stored later
has a window that lets through at most `limit` requests of the caller. -/
theorem starts_none (limit window : Int) (ip : String) (hw : 0 < window)
    (reqs : List (Int × String)) :
    ∀ (c : Cache), c.items (cacheKey ip) = none → timeOrdered reqs →
      ∀ ws ∈ windowStarts limit window ip reqs c,
        ((allowedIn ip ws (ws + window) reqs (runLimiter limit window reqs c).1 : Nat) : Int)
          ≤ limit := by
  induction reqs with
  | nil =>
    intro c _ _ ws hws
    simp [windowStarts] at hws
  | cons r rest ih =>
    intro c hi hord ws hws
    obtain ⟨t, a⟩ := r
    obtain ⟨hhead, hord2⟩ := timeOrdered_cons t a rest hord
    by_cases ha : a = ip
    · subst ha
      rcases none_step c limit window a t hw hi with ⟨_, h⟩ | ⟨hl, c1, h, hitem⟩
      · rw [windowStarts_cons_skip _ _ _ _ _ _ _ _ _ h
          (fun hh => absurd hh.2 (by decide))] at hws
        rw [runLimiter_cons_fst _ _ _ _ _ _ _ _ h,
          allowedIn_cons_skip _ _ _ _ _ _ _ _ (fun hh => absurd hh.2.1 (by decide))]
        exact ih c hi hord2 ws hws
      · have hopen := opened_window_bound limit window a hw t rest c c1 hl h hitem hord2 hhead
        rw [windowStarts_cons_hit _ _ _ _ _ _ _ _ h hitem] at hws
        rcases List.mem_cons.mp hws with e | hws
        · have e2 : ws = t := e
          subst e2
          exact hopen
        · have hrec := starts_live limit window a hw rest c1
            { Object := { LastRequest := t, Count := 1 },
              Expiration := t + (window + Second) }
            t hitem (le_refl t) (by show t < t + window; omega) (le_refl 1) hl
            (by show t + window + Second ≤ t + (window + Second); omega)
            hord2 hhead ws hws
          rcases hrec with e | ⟨hlt, hcount⟩
          · have e2 : ws = t := e
            subst e2
            exact hopen
          · rw [runLimiter_cons_fst _ _ _ _ _ _ _ _ h,
              allowedIn_cons_skip _ _ _ _ _ _ _ _ (fun hh => by omega)]
            exact hcount
    · obtain ⟨o, c1, h, hsame⟩ := other_step c limit window ip a t ha
      rw [windowStarts_cons_skip _ _ _ _ _ _ _ _ _ h (fun hh => ha hh.1)] at hws
      rw [runLimiter_cons_fst _ _ _ _ _ _ _ _ h,
        allowedIn_cons_skip _ _ _ _ _ _ _ _ (fun hh => ha hh.1)]
      exact ih c1 (hsame.trans hi) hord2 ws hws

theorem allowedIn_empty (ip : String) (lo hi : Int) (hle : hi ≤ lo)
    (reqs : List (Int × String)) :
    ∀ outs : List Outcome, allowedIn ip lo hi reqs outs = 0 := by
  induction reqs with
  | nil => intro outs; cases outs <;> rfl
  | cons r rest ih =>
    intro outs
    obtain ⟨t, a⟩ := r
    cases outs with
    | nil => rfl
    | cons o os =>
      rw [allowedIn_cons_skip _ _ _ _ _ _ _ _ (fun hh => by omega)]
      exact ih os

theorem accepted_limit_pos (c : Cache) (limit window : Int) (ip : String) (la : Option Int)
    (t : Int) (hin : entryInStep c limit window ip la)
    (h : (RateLimitMiddleware c limit window (Clock.instant t) ip).1 = Outcome.next) :
    1 ≤ limit := by
  rcases middleware_instant_cases c limit window t ip with ⟨h2, _⟩ | ⟨_, hle⟩
  · rw [h2] at h
    have hne : tooManyRequests ≠ Outcome.next := by decide
    exact absurd h hne
  · have h1 : 1 ≤ refCount (c.Get t (cacheKey ip)) t window := by
      cases hg : c.Get t (cacheKey ip) with
      | none => simp [refCount]
      | some e =>
        simp only [refCount]
        split
        · exact le_refl 1
        · obtain ⟨item, hi, he, _⟩ := cacheGet_some c t _ e hg
          unfold entryInStep at hin
          rw [hi] at hin
          obtain ⟨ta, _, _, h2, _⟩ := hin
          rw [← he]
          omega
    omega

theorem windowStarts_limit_pos (limit window : Int) (ip : String)
    (reqs : List (Int × String)) :
    ∀ (c : Cache) (la : Option Int), timeOrdered reqs →
      (∀ ta, la = some ta → ∀ r ∈ reqs, ta ≤ r.1) →
      entryInStep c limit window ip la →
      ∀ ws ∈ windowStarts limit window ip reqs c, 1 ≤ limit := by
  induction reqs with
  | nil =>
    intro c la _ _ _ ws hws
    simp [windowStarts] at hws
  | cons r rest ih =>
    intro c la hord hla hin ws hws
    obtain ⟨t, a⟩ := r
    obtain ⟨hhead, hord2⟩ := timeOrdered_cons t a rest hord
    by_cases hacc : a = ip ∧
        (RateLimitMiddleware c limit window (Clock.instant t) a).1 = Outcome.next
    · obtain ⟨ha, hnext⟩ := hacc
      subst ha
      exact accepted_limit_pos c limit window a la t hin hnext
    · rw [windowStarts_cons_skip limit window t ip a rest c
        (RateLimitMiddleware c limit window (Clock.instant t) a).2
        (RateLimitMiddleware c limit window (Clock.instant t) a).1 rfl hacc] at hws
      have hstep := entryInStep_step c limit window ip la t a hin
        (fun ta hta => hla ta hta (t, a) (List.mem_cons_self _ _))
      rw [if_neg hacc] at hstep
      exact ih _ la hord2 (fun ta hta r hr => hla ta hta r (List.mem_cons_of_mem _ hr))
        hstep ws hws

/-- C15 (`limit` bounds the accepted requests per window): for every run of
requests in the order of time from the empty store, every client and every
window start stored for that client during the run, at most `limit` of the
client's requests made at an instant `t` with
`windowStart ≤ t < windowStart + window` are let through. -/
theorem limit_bounds_window (d limit window : Int) (reqs : List (Int × String))
    (ip : String) (hord : timeOrdered reqs) :
    ∀ ws ∈ windowStarts limit window ip reqs (Cache.New d),
      ((allowedIn ip ws (ws + window) reqs
          (runLimiter limit window reqs (Cache.New d)).1 : Nat) : Int) ≤ limit := by
  intro ws hws
  by_cases hw : 0 < window
  · exact starts_none limit window ip hw reqs (Cache.New d) rfl hord ws hws
  · have hl := windowStarts_limit_pos limit window ip reqs (Cache.New d) none hord
      (fun ta hta => by cases hta) (entryInStep_new d limit window ip) ws hws
    rw [allowedIn_empty ip ws (ws + window) (by omega)]
    push_cast
    omega

/-- Nine requests of one client at 0, 1, 2, 3, 4, 5, 9, 10 and 11 s with the
limit of 5 and the window of 10 s: the window starts stored are 0 and 10 s,
and exactly five requests are let through in the window started at 0. -/
theorem limit_bounds_window_witness :
    windowStarts routerLimit routerWindow clientA nineHits routerCache
      = [0, 0, 0, 0, 0, 10 * Second, 10 * Second] ∧
    allowedIn clientA 0 (0 + routerWindow) nineHits
        (runLimiter routerLimit routerWindow nineHits routerCache).1 = 5 ∧
    ((allowedIn clientA 0 (0 + routerWindow) nineHits
        (runLimiter routerLimit routerWindow nineHits routerCache).1 : Nat) : Int)
      ≤ routerLimit := by
  have hord : timeOrdered nineHits := by
    unfold timeOrdered
    decide
  have hws : windowStarts routerLimit routerWindow clientA nineHits routerCache
      = [0, 0, 0, 0, 0, 10 * Second, 10 * Second] := by decide
  refine ⟨hws, by decide, ?_⟩
  exact limit_bounds_window (10 * Second) routerLimit routerWindow nineHits clientA hord 0
    (by
      have e : Cache.New (10 * Second) = routerCache := rfl
      rw [e, hws]
      decide)

/-! ## Passwords and registration -/

theorem matchClass_iff (cls : Char → Bool) (p : String) :
    matchClass cls p = true ↔ ∃ c ∈ p.data, cls c = true := by
  simp [matchClass, List.any_eq_true]

/-- C17 (password strength rule): `IsStrongPassword p` holds exactly when `p`
is at least 8 bytes long and has a character in `A`..`Z`, one in `a`..`z`, one
in `0`..`9` and one among `! @ # $ % ^ & *`.  A registration whose password is
not strong is answered `400` and creates no user; when the request passes the
binder (so that the password has at least 8 characters), the message is
`weak password`. -/
theorem password_strength_rule {F : Type} :
    (∀ p : String, IsStrongPassword p = true ↔
      (8 ≤ p.utf8ByteSize ∧
        (∃ c ∈ p.data, 'A' ≤ c ∧ c ≤ 'Z') ∧
        (∃ c ∈ p.data, 'a' ≤ c ∧ c ≤ 'z') ∧
        (∃ c ∈ p.data, '0' ≤ c ∧ c ≤ '9') ∧
        (∃ c ∈ p.data, c ∈ ['!', '@', '#', '$', '%', '^', '&', '*']))) ∧
    (∀ (env : AuthEnv) (users : List User) (input : RegisterInput),
      IsStrongPassword input.password = false →
        ((Register env users input : BaseResponse F × List User).1.status = StatusBadRequest ∧
          (Register env users input : BaseResponse F × List User).2 = users)) ∧
    (∀ (env : AuthEnv) (users : List User) (input : RegisterInput),
      input.valid env = true → IsStrongPassword input.password = false →
        (Register env users input : BaseResponse F × List User)
          = (JSON StatusBadRequest false "weak password" none
              (some "password must include uppercase, lowercase, number, and special character"),
             users)) := by
  refine ⟨?_, ?_, ?_⟩
  · intro p
    simp only [IsStrongPassword, Bool.and_eq_true, decide_eq_true_eq, matchClass_iff, upper,
      lower, digit, special, Bool.or_eq_true, beq_iff_eq, List.mem_cons, List.mem_singleton,
      List.mem_nil_iff, or_false, ge_iff_le]
    constructor
    · rintro ⟨⟨⟨⟨h1, h2⟩, h3⟩, h4⟩, c, hc, h5⟩
      refine ⟨h1, h2, h3, h4, c, hc, ?_⟩
      tauto
    · rintro ⟨h1, h2, h3, h4, c, hc, h5⟩
      refine ⟨⟨⟨⟨h1, h2⟩, h3⟩, h4⟩, c, hc, ?_⟩
      tauto
  · intro env users input hweak
    cases hv : input.valid env <;> simp [Register, hv, hweak, JSON]
  · intro env users input hvalid hweak
    unfold Register
    simp only [hvalid, hweak, Bool.not_true, Bool.not_false, Bool.false_eq_true, if_false,
      if_true]

/-- A registration with the password `weakpassword`, which passes the binder
and has no upper-case letter, digit or special character, is answered
`400 weak password` and creates no user; `Strong@123` is a strong password. -/
theorem password_strength_rule_witness :
    IsStrongPassword "Strong@123" = true ∧
    IsStrongPassword "weakpassword" = false ∧
    (Register quietAuthEnv [] weakInput : BaseResponse ℚ × List User)
      = (JSON StatusBadRequest false "weak password" none
          (some "password must include uppercase, lowercase, number, and special character"),
         []) :=
  ⟨by decide, by decide,
   (@password_strength_rule ℚ).2.2 quietAuthEnv [] weakInput (by decide) (by decide)⟩

/-! ## Order placement: the persisted graph and the success condition -/

theorem productOf_after_save {F : Type} (tx : Store F) (p : Product F) (q : Int)
    (pid0 pid : String) (orders : List (Order F)) (items : List (OrderItem F))
    (hp : productOf tx pid0 = some p) :
    productOf ({ products := saveProductRows tx.products (withdraw q p),
                 orders := orders, orderItems := items } : Store F) pid
      = if pid0 = pid then some (withdraw q p) else productOf tx pid := by
  have hw : (withdraw q p).id = pid0 := productOf_id tx _ p hp
  have hfind := find_saveProductRows tx.products (withdraw q p) p pid (by rw [hw]; exact hp)
  rw [hw] at hfind
  exact hfind

theorem processItems_orderItems {F : Type} (fl : Float64Ops F) (env : Env) (oid : String)
    (db : Store F) (items : List Item) :
    ∀ (i : Nat) (tx : Store F) (total : F) (r : Store F × F),
      (∀ it ∈ items, uuidParse it.productID = it.productID) →
      (∀ pid, (productOf tx pid).map (fun p => p.price)
        = (productOf db pid).map (fun p => p.price)) →
      processItems fl env oid i items tx total = .ok r →
      r.1.orderItems = tx.orderItems ++ expectedItems fl env oid db i items ∧
      ∀ it ∈ items, productOf db it.productID ≠ none := by
  induction items with
  | nil =>
    intro i tx total r _ _ h
    simp only [processItems] at h
    cases h
    simp [expectedItems]
  | cons item rest ih =>
    intro i tx total r hids hprice h
    obtain ⟨p, hp, _, hrest⟩ := processItems_cons_ok fl env oid i item rest tx total r h
    have hid : uuidParse item.productID = item.productID := hids item (List.mem_cons_self _ _)
    rw [hid] at hp hrest
    have hstep : ∀ pid,
        (productOf
          ({ products := saveProductRows tx.products (withdraw item.quantity p),
             orders := tx.orders,
             orderItems := tx.orderItems ++
               [{ id := env.itemID i, orderID := oid, productID := item.productID,
                  quantity := item.quantity, unitPrice := p.price }] } : Store F) pid).map
          (fun p => p.price) = (productOf db pid).map (fun p => p.price) := by
      intro pid
      rw [← hprice pid, productOf_after_save tx p item.quantity item.productID pid _ _ hp]
      by_cases hc : item.productID = pid
      · subst hc
        simp [hp, withdraw]
      · simp [hc]
    obtain ⟨hitems, hexists⟩ :=
      ih (i + 1) _ _ r (fun it hit => hids it (List.mem_cons_of_mem _ hit)) hstep hrest
    have hdb : ∃ p0, productOf db item.productID = some p0 ∧ p0.price = p.price := by
      have := hprice item.productID
      rw [hp] at this
      cases hd : productOf db item.productID with
      | none => simp [hd] at this
      | some p0 => exact ⟨p0, rfl, by simpa [hd] using this.symm⟩
    obtain ⟨p0, hp0, hpp⟩ := hdb
    constructor
    · rw [hitems]
      simp only [expectedItems, hp0, hpp, List.append_assoc, List.singleton_append]
    · intro it hit
      rcases List.mem_cons.mp hit with e | hit
      · rw [e, hp0]
        simp
      · exact hexists it hit

theorem saveOrderRows_fresh {F : Type} (rows : List (Order F)) (o o1 : Order F)
    (h : o1.id = o.id) (hfresh : ∀ r ∈ rows, r.id ≠ o.id) :
    saveOrderRows (rows ++ [o]) o1 = rows ++ [o1] := by
  have hany : (rows ++ [o]).any (fun r => r.id == o1.id) = true := by
    simp [List.any_append, h]
  have hmap : rows.map (fun r => if r.id == o1.id then o1 else r) = rows := by
    have : ∀ r ∈ rows, (if r.id == o1.id then o1 else r) = r := by
      intro r hr
      have := hfresh r hr
      rw [← h] at this
      simp [this]
    calc rows.map (fun r => if r.id == o1.id then o1 else r)
        = rows.map id := List.map_congr_left this
      _ = rows := List.map_id rows
  unfold saveOrderRows
  rw [if_pos hany, List.map_append, hmap]
  simp [h]

/-- C18 (persisted order graph on success): a call answered `201 Created`, for
a caller identity that is a UUID and an order identity not yet in the table,
adds exactly one row to `orders`: the order of the drawn identity, owned by
the caller, with status `pending`; and it adds to `orderItems` exactly one row
per request entry, in request order, each with the identity of that order, the
product and the quantity of its entry and, as unit price, the price the store
holds for that product; every entry references a product of the store. -/
theorem persisted_order_graph {F : Type} (fl : Float64Ops F) (env : Env) (db : Store F)
    (userID : String) (raw : List RawItem)
    (h : (PlaceOrder fl env db userID raw).1.status = StatusCreated)
    (hu : isUUID userID = true) (hfresh : ∀ o ∈ db.orders, o.id ≠ env.orderID) :
    (PlaceOrder fl env db userID raw).2.orders
      = db.orders ++
          [{ id := env.orderID, userID := userID,
             totalPrice := orderTotal fl db (raw.map RawItem.decode) fl.zero,
             status := "pending" }] ∧
    (PlaceOrder fl env db userID raw).2.orderItems
      = db.orderItems ++ expectedItems fl env env.orderID db 0 (raw.map RawItem.decode) ∧
    (expectedItems fl env env.orderID db 0 (raw.map RawItem.decode)).length = raw.length ∧
    ∀ it ∈ raw.map RawItem.decode, productOf db it.productID ≠ none := by
  obtain ⟨hv, tx, total, hproc, hres⟩ := placeOrder_created fl env db userID raw h
  have hids : ∀ it ∈ raw.map RawItem.decode, uuidParse it.productID = it.productID := by
    intro it hit
    have hval := (List.all_eq_true.mp hv) it hit
    simp only [Item.valid, Bool.and_eq_true] at hval
    exact uuidParse_of_isUUID _ hval.1.2
  have htot := processItems_total fl env env.orderID db _ 0
    { db with orders := db.orders ++ [newOrder fl env userID] } fl.zero (tx, total) hids
    (fun _ => rfl) hproc
  have hord := processItems_orders fl env env.orderID _ 0 _ fl.zero (tx, total) hproc
  obtain ⟨hitems, hexists⟩ := processItems_orderItems fl env env.orderID db _ 0
    { db with orders := db.orders ++ [newOrder fl env userID] } fl.zero (tx, total) hids
    (fun _ => rfl) hproc
  simp only at htot hord hitems
  have hlen : ∀ (items : List Item) (i : Nat),
      (expectedItems fl env env.orderID db i items).length = items.length := by
    intro items
    induction items with
    | nil => intro i; rfl
    | cons it rest ih => intro i; simp [expectedItems, ih]
  refine ⟨?_, ?_, ?_, hexists⟩
  · rw [hres]
    simp only [hord, htot]
    have hs := saveOrderRows_fresh db.orders (newOrder fl env userID)
      { id := (newOrder fl env userID).id, userID := (newOrder fl env userID).userID,
        totalPrice := orderTotal fl db (raw.map RawItem.decode) fl.zero,
        status := (newOrder fl env userID).status } rfl hfresh
    rw [hs]
    simp only [newOrder, uuidParse_of_isUUID userID hu]
  · rw [hres]
    exact hitems
  · rw [hlen, List.length_map]

/-- The call of `TestPlaceOrder_Success`: one order and one order item are
added, the item at the price 100 of the store. -/
theorem persisted_order_graph_witness :
    (PlaceOrder ratOps quietEnv storeT userU requestT).2.orders
      = [{ id := quietEnv.orderID, userID := userU, totalPrice := 200, status := "pending" }] ∧
    (PlaceOrder ratOps quietEnv storeT userU requestT).2.orderItems
      = [{ id := "item-0", orderID := quietEnv.orderID, productID := idA, quantity := 2,
           unitPrice := 100 }] := by
  obtain ⟨h1, h2, _, _⟩ := persisted_order_graph ratOps quietEnv storeT userU requestT
    (by decide) (by decide) (by decide)
  have hT : orderTotal ratOps storeT (requestT.map RawItem.decode) ratOps.zero = 200 := by
    simp [orderTotal, productOf, storeT, requestT, RawItem.decode, ratOps, idA]
    norm_num
  refine ⟨?_, ?_⟩
  · rw [h1, hT]
    rfl
  · rw [h2]
    decide

theorem qtyFor_nonneg (pid : String) (items : List Item)
    (h : ∀ it ∈ items, 0 ≤ it.quantity) : 0 ≤ qtyFor pid items := by
  induction items with
  | nil => simp [qtyFor]
  | cons x xs ih =>
    rw [qtyFor_cons]
    have h1 := h x (List.mem_cons_self _ _)
    have h2 := ih (fun it hit => h it (List.mem_cons_of_mem _ hit))
    split <;> omega

theorem qtyFor_unreferenced (pid : String) (items : List Item)
    (h : ∀ it ∈ items, it.productID ≠ pid) : qtyFor pid items = 0 := by
  induction items with
  | nil => rfl
  | cons x xs ih =>
    rw [qtyFor_cons, ih (fun it hit => h it (List.mem_cons_of_mem _ hit)),
      if_neg (h x (List.mem_cons_self _ _))]
    rfl

/-- A pass that succeeds found every referenced product and, for each, had
enough stock for all the entries that reference it. -/
theorem processItems_ok_imp {F : Type} (fl : Float64Ops F) (env : Env) (oid : String)
    (items : List Item) :
    ∀ (i : Nat) (tx : Store F) (total : F) (r : Store F × F),
      (∀ it ∈ items, uuidParse it.productID = it.productID) →
      processItems fl env oid i items tx total = .ok r →
      ∀ it ∈ items, ∃ p, productOf tx it.productID = some p ∧
        qtyFor it.productID items ≤ p.stock := by
  induction items with
  | nil =>
    intro i tx total r _ _ it hit
    simp at hit
  | cons x xs ih =>
    intro i tx total r hids h it hit
    obtain ⟨p, hp, hq, hrest⟩ := processItems_cons_ok fl env oid i x xs tx total r h
    have hid : uuidParse x.productID = x.productID := hids x (List.mem_cons_self _ _)
    rw [hid] at hp hrest
    have hrec := ih (i + 1) _ _ r (fun it hit => hids it (List.mem_cons_of_mem _ hit)) hrest
    have hsame : ∀ y ∈ xs, y.productID = x.productID → qtyFor x.productID xs ≤ p.stock - x.quantity := by
      intro y hy hyx
      obtain ⟨p1, hp1, hq1⟩ := hrec y hy
      rw [productOf_after_save tx p x.quantity x.productID y.productID _ _ hp,
        if_pos hyx.symm] at hp1
      have e := Option.some.inj hp1
      rw [← e, hyx] at hq1
      exact hq1
    rcases List.mem_cons.mp hit with e | hit
    · subst e
      refine ⟨p, hp, ?_⟩
      rw [qtyFor_cons, if_pos rfl]
      by_cases hex : ∃ y ∈ xs, y.productID = it.productID
      · obtain ⟨y, hy, hyx⟩ := hex
        have := hsame y hy hyx
        omega
      · have hz : qtyFor it.productID xs = 0 :=
          qtyFor_unreferenced _ _ (fun y hy hyx => hex ⟨y, hy, hyx⟩)
        omega
    · obtain ⟨p1, hp1, hq1⟩ := hrec it hit
      rw [productOf_after_save tx p x.quantity x.productID it.productID _ _ hp] at hp1
      by_cases hc : x.productID = it.productID
      · rw [if_pos hc] at hp1
        have e := Option.some.inj hp1
        refine ⟨p, by rw [← hc]; exact hp, ?_⟩
        rw [qtyFor_cons, if_pos hc]
        rw [← e] at hq1
        simp only [withdraw] at hq1
        omega
      · rw [if_neg hc] at hp1
        refine ⟨p1, hp1, ?_⟩
        rw [qtyFor_cons, if_neg hc]
        omega

/-- With no failing statement, a pass succeeds when every referenced product
is there with enough stock for all the entries that reference it. -/
theorem processItems_ok_of {F : Type} (fl : Float64Ops F) (env : Env) (oid : String)
    (hf : env.noFault) (items : List Item) :
    ∀ (i : Nat) (tx : Store F) (total : F),
      (∀ it ∈ items, uuidParse it.productID = it.productID) →
      (∀ it ∈ items, 0 ≤ it.quantity) →
      (∀ it ∈ items, ∃ p, productOf tx it.productID = some p ∧
        qtyFor it.productID items ≤ p.stock) →
      ∃ r, processItems fl env oid i items tx total = .ok r := by
  induction items with
  | nil =>
    intro i tx total _ _ _
    exact ⟨(tx, total), rfl⟩
  | cons x xs ih =>
    intro i tx total hids hpos hcond
    have hid : uuidParse x.productID = x.productID := hids x (List.mem_cons_self _ _)
    obtain ⟨p, hp, hq⟩ := hcond x (List.mem_cons_self _ _)
    rw [qtyFor_cons, if_pos rfl] at hq
    have hnn := qtyFor_nonneg x.productID xs
      (fun it hit => hpos it (List.mem_cons_of_mem _ hit))
    have hp2 : productOf tx (uuidParse x.productID) = some p := by
      rw [hid]
      exact hp
    rw [processItems_cons_noFault fl env oid i x xs tx total p hf hp2,
      if_neg (by omega : ¬ p.stock < x.quantity)]
    apply ih (i + 1) _ _ (fun it hit => hids it (List.mem_cons_of_mem _ hit))
      (fun it hit => hpos it (List.mem_cons_of_mem _ hit))
    intro it hit
    obtain ⟨p0, hp0, hq0⟩ := hcond it (List.mem_cons_of_mem _ hit)
    rw [qtyFor_cons] at hq0
    rw [productOf_after_save tx p x.quantity x.productID it.productID _ _ hp]
    by_cases hc : x.productID = it.productID
    · rw [if_pos hc]
      rw [if_pos hc] at hq0
      rw [← hc, hp] at hp0
      have e := Option.some.inj hp0
      refine ⟨_, rfl, ?_⟩
      simp only [withdraw]
      rw [← e] at hq0
      omega
    · rw [if_neg hc]
      rw [if_neg hc] at hq0
      exact ⟨p0, hp0, by omega⟩

/-- C20 (exact success condition of `PlaceOrder` with repeated products): for
every store and every request that passes the binder, when no statement of the
store fails, `PlaceOrder` answers `201 Created` if and only if every entry
references a product of the store and, for that product, the quantities of all
the entries that reference it sum to at most its stock before the call. -/
theorem success_condition {F : Type} (fl : Float64Ops F) (env : Env) (db : Store F)
    (userID : String) (raw : List RawItem) (hf : env.noFault)
    (hv : (raw.map RawItem.decode).all Item.valid = true) :
    (PlaceOrder fl env db userID raw).1.status = StatusCreated ↔
      ∀ it ∈ raw.map RawItem.decode, ∃ p, productOf db it.productID = some p ∧
        qtyFor it.productID (raw.map RawItem.decode) ≤ p.stock := by
  have hids : ∀ it ∈ raw.map RawItem.decode, uuidParse it.productID = it.productID := by
    intro it hit
    have hval := (List.all_eq_true.mp hv) it hit
    simp only [Item.valid, Bool.and_eq_true] at hval
    exact uuidParse_of_isUUID _ hval.1.2
  have hpos : ∀ it ∈ raw.map RawItem.decode, 0 ≤ it.quantity := by
    intro it hit
    have hval := (List.all_eq_true.mp hv) it hit
    simp only [Item.valid, Bool.and_eq_true, decide_eq_true_eq] at hval
    omega
  constructor
  · intro h
    obtain ⟨_, tx, total, hproc, _⟩ := placeOrder_created fl env db userID raw h
    exact processItems_ok_imp fl env env.orderID _ 0
      { db with orders := db.orders ++ [newOrder fl env userID] } fl.zero (tx, total) hids hproc
  · intro hcond
    obtain ⟨⟨tx, total⟩, hr⟩ := processItems_ok_of fl env env.orderID hf _ 0
      { db with orders := db.orders ++ [newOrder fl env userID] } fl.zero hids hpos hcond
    rw [placeOrder_noFault fl env db userID raw hf hv, hr]
    rfl

/-- Against a stock of 4: the product listed twice with two units each is
accepted (the quantities sum to 4), and listed with 2 and 3 units it is not
(they sum to 5). -/
theorem success_condition_witness :
    ((PlaceOrder ratOps quietEnv storeC userU requestTwoTwo).1.status = StatusCreated ∧
      qtyFor idA (requestTwoTwo.map RawItem.decode) = 4) ∧
    (¬ (PlaceOrder ratOps quietEnv storeC userU requestC).1.status = StatusCreated ∧
      qtyFor idA (requestC.map RawItem.decode) = 5) := by
  refine ⟨⟨?_, by decide⟩, ⟨?_, by decide⟩⟩
  · exact (success_condition ratOps quietEnv storeC userU requestTwoTwo (fun _ => rfl)
      (by decide)).2 (by decide)
  · intro h
    have hc := (success_condition ratOps quietEnv storeC userU requestC (fun _ => rfl)
      (by decide)).1 h
    obtain ⟨p, hp, hq⟩ := hc { productID := idA, quantity := 2 } (by decide)
    have h2 : productOf storeC idA
        = some { id := idA, name := "Widget", price := 10, stock := 4 } := by decide
    have hp2 : productOf storeC idA = some p := hp
    rw [h2] at hp2
    have e := Option.some.inj hp2
    have hq2 : qtyFor idA (requestC.map RawItem.decode) ≤ p.stock := hq
    rw [← e] at hq2
    have h5 : qtyFor idA (requestC.map RawItem.decode) = 5 := by decide
    rw [h5] at hq2
    exact absurd hq2 (by decide)

/-! ## Order placement: the order of the entries and the empty request -/

theorem qtyFor_perm (pid : String) (xs ys : List Item) (h : xs.Perm ys) :
    qtyFor pid xs = qtyFor pid ys := by
  unfold qtyFor
  exact ((h.filter _).map _).sum_eq

theorem valid_ids (items : List Item) (hv : items.all Item.valid = true) :
    (∀ it ∈ items, uuidParse it.productID = it.productID) ∧ (∀ it ∈ items, 0 ≤ it.quantity) := by
  constructor
  · intro it hit
    have hval := (List.all_eq_true.mp hv) it hit
    simp only [Item.valid, Bool.and_eq_true] at hval
    exact uuidParse_of_isUUID _ hval.1.2
  · intro it hit
    have hval := (List.all_eq_true.mp hv) it hit
    simp only [Item.valid, Bool.and_eq_true, decide_eq_true_eq] at hval
    omega

theorem valid_perm (xs ys : List Item) (h : xs.Perm ys) (hv : xs.all Item.valid = true) :
    ys.all Item.valid = true := by
  rw [List.all_eq_true] at hv ⊢
  intro it hit
  exact hv it (h.mem_iff.mpr hit)

/-- A turn of the loop that succeeds met no failing statement. -/
theorem processItems_cons_faults {F : Type} (fl : Float64Ops F) (env : Env) (oid : String)
    (i : Nat) (item : Item) (rest : List Item) (tx : Store F) (total : F)
    (r : Store F × F)
    (h : processItems fl env oid i (item :: rest) tx total = .ok r) :
    env.fault (.lockProduct i) = none ∧ env.fault (.saveProduct i) = none ∧
      env.fault (.createItem i) = none := by
  simp only [processItems, lockFirst, saveProduct, createItem] at h
  split at h
  · cases h
  · rename_i p hp
    split at hp
    · cases hp
    · rename_i hlock
      split at h
      · cases h
      · split at h
        · cases h
        · rename_i tx1 h1
          split at h1
          · cases h1
          · rename_i hsave
            split at h
            · cases h
            · rename_i tx2 h2
              split at h2
              · cases h2
              · rename_i hcreate
                exact ⟨hlock, hsave, hcreate⟩

/-- A pass that succeeds met no failing statement at any of its entries. -/
theorem processItems_ok_faults {F : Type} (fl : Float64Ops F) (env : Env) (oid : String)
    (items : List Item) :
    ∀ (i : Nat) (tx : Store F) (total : F) (r : Store F × F),
      processItems fl env oid i items tx total = .ok r →
      ∀ j, i ≤ j → j < i + items.length →
        env.fault (.lockProduct j) = none ∧ env.fault (.saveProduct j) = none ∧
          env.fault (.createItem j) = none := by
  induction items with
  | nil =>
    intro i tx total r _ j h1 h2
    simp only [List.length_nil, Nat.add_zero] at h2
    omega
  | cons x xs ih =>
    intro i tx total r h j h1 h2
    by_cases hj : j = i
    · rw [hj]
      exact processItems_cons_faults fl env oid i x xs tx total r h
    · obtain ⟨p, _, _, hrest⟩ := processItems_cons_ok fl env oid i x xs tx total r h
      simp only [List.length_cons] at h2
      exact ih (i + 1) _ _ r hrest j (by omega) (by omega)

/-- A pass none of whose statements fails runs as it does with a driver that
executes every statement. -/
theorem processItems_quiet {F : Type} (fl : Float64Ops F) (env : Env) (oid : String)
    (items : List Item) :
    ∀ (i : Nat) (tx : Store F) (total : F),
      (∀ j, i ≤ j → j < i + items.length →
        env.fault (.lockProduct j) = none ∧ env.fault (.saveProduct j) = none ∧
          env.fault (.createItem j) = none) →
      processItems fl env oid i items tx total
        = processItems fl env.quiet oid i items tx total := by
  induction items with
  | nil => intro i tx total _; rfl
  | cons x xs ih =>
    intro i tx total hq
    obtain ⟨h1, h2, h3⟩ := hq i (le_refl i) (by simp)
    have hrec : ∀ (tx1 : Store F) (total1 : F),
        processItems fl env oid (i + 1) xs tx1 total1
          = processItems fl env.quiet oid (i + 1) xs tx1 total1 := by
      intro tx1 total1
      exact ih (i + 1) tx1 total1 (fun j hj1 hj2 => hq j (by omega) (by simp; omega))
    simp only [processItems, lockFirst, saveProduct, createItem, h1, h2, h3, Env.quiet, hrec]

/-- A call answered `201` met no failing statement around its loop. -/
theorem placeOrder_created_frame {F : Type} (fl : Float64Ops F) (env : Env) (db : Store F)
    (userID : String) (raw : List RawItem)
    (h : (PlaceOrder fl env db userID raw).1.status = StatusCreated) :
    env.fault .begin = none ∧ env.fault .createOrder = none ∧ env.fault .saveOrder = none ∧
      env.fault .commit = none := by
  unfold PlaceOrder at h
  unfold ShouldBindJSON at h
  by_cases hv : (raw.map RawItem.decode).all Item.valid = true
  · simp only [hv, if_true] at h
    unfold Transaction at h
    cases hb : env.fault .begin with
    | some e =>
      simp only [hb] at h
      split at h <;> simp [JSON, StatusBadRequest, StatusInternalServerError, StatusCreated] at h
    | none =>
      simp only [hb] at h
      cases hf : placeOrderTx fl env (uuidParse userID) (raw.map RawItem.decode) db with
      | error e =>
        simp only [hf] at h
        split at h <;> simp [JSON, StatusBadRequest, StatusInternalServerError, StatusCreated] at h
      | ok tx3 =>
        simp only [hf] at h
        cases hc : env.fault .commit with
        | some e =>
          simp only [hc] at h
          split at h <;>
            simp [JSON, StatusBadRequest, StatusInternalServerError, StatusCreated] at h
        | none =>
          simp only [placeOrderTx, createOrder, saveOrder] at hf
          cases hco : env.fault .createOrder with
          | some e => simp [hco] at hf
          | none =>
            simp only [hco] at hf
            cases hp : processItems fl env env.orderID 0 (raw.map RawItem.decode)
                { db with orders := db.orders ++ [newOrder fl env userID] } fl.zero with
            | error e =>
              simp only [newOrder] at hp
              simp [hp] at hf
            | ok r =>
              obtain ⟨tx, total⟩ := r
              simp only [newOrder] at hp
              simp only [hp] at hf
              cases hso : env.fault .saveOrder with
              | some e => simp [hso] at hf
              | none => exact ⟨rfl, rfl, rfl, rfl⟩
  · simp only [hv] at h
    simp [JSON, StatusBadRequest, StatusCreated] at h

/-- When the statements around the loop execute, what the handler answers to
a request that passes the binder, by the outcome of the loop. -/
theorem placeOrder_frame {F : Type} (fl : Float64Ops F) (env : Env) (db : Store F)
    (userID : String) (raw : List RawItem)
    (hf : env.fault .begin = none ∧ env.fault .createOrder = none ∧
      env.fault .saveOrder = none ∧ env.fault .commit = none)
    (hv : (raw.map RawItem.decode).all Item.valid = true) :
    PlaceOrder fl env db userID raw =
      match processItems fl env env.orderID 0 (raw.map RawItem.decode)
          { db with orders := db.orders ++ [newOrder fl env userID] } fl.zero with
      | .error e =>
        if stringsContains e "insufficient stock" then
          (JSON StatusBadRequest false "insufficient stock" none (some e), db)
        else
          (JSON StatusInternalServerError false "failed to place order" none (some e), db)
      | .ok (tx, total) =>
        (JSON StatusCreated true "order placed successfully" none none,
          { tx with orders :=
              saveOrderRows tx.orders { newOrder fl env userID with totalPrice := total } }) := by
  unfold PlaceOrder ShouldBindJSON
  simp only [hv, if_true]
  unfold Transaction placeOrderTx createOrder saveOrder
  simp only [hf.1, hf.2.1, hf.2.2.1, hf.2.2.2, newOrder]
  cases processItems fl env env.orderID 0 (raw.map RawItem.decode)
      { products := db.products,
        orders := db.orders ++
          [{ id := env.orderID, userID := uuidParse userID, totalPrice := fl.zero,
             status := "pending" }],
        orderItems := db.orderItems } fl.zero with
  | error e => rfl
  | ok r => rfl

/-- A call answered `201` is answered `201` as well with the entries of its
request in another order, the driver answering each statement as before. -/
theorem created_transfer {F : Type} (fl : Float64Ops F) (env1 env2 : Env) (db : Store F)
    (userID : String) (raw raw2 : List RawItem)
    (hfault : ∀ op, env1.fault op = env2.fault op)
    (hv : (raw.map RawItem.decode).all Item.valid = true) (hperm : raw.Perm raw2)
    (h : (PlaceOrder fl env1 db userID raw).1.status = StatusCreated) :
    (PlaceOrder fl env2 db userID raw2).1.status = StatusCreated := by
  have hp : (raw.map RawItem.decode).Perm (raw2.map RawItem.decode) := hperm.map _
  have hv2 := valid_perm _ _ hp hv
  obtain ⟨hids, _⟩ := valid_ids _ hv
  obtain ⟨hids2, hpos2⟩ := valid_ids _ hv2
  obtain ⟨_, tx, total, hproc, _⟩ := placeOrder_created fl env1 db userID raw h
  obtain ⟨hb, hco, hso, hcm⟩ := placeOrder_created_frame fl env1 db userID raw h
  have hcond := processItems_ok_imp fl env1 env1.orderID _ 0
    { db with orders := db.orders ++ [newOrder fl env1 userID] } fl.zero (tx, total) hids hproc
  have hfr := processItems_ok_faults fl env1 env1.orderID _ 0 _ fl.zero (tx, total) hproc
  have hcond2 : ∀ it ∈ raw2.map RawItem.decode, ∃ p,
      productOf ({ db with orders := db.orders ++ [newOrder fl env2 userID] } : Store F)
        it.productID = some p ∧
      qtyFor it.productID (raw2.map RawItem.decode) ≤ p.stock := by
    intro it hit
    obtain ⟨p, hp1, hq⟩ := hcond it (hp.mem_iff.mpr hit)
    exact ⟨p, hp1, by rw [← qtyFor_perm _ _ _ hp]; exact hq⟩
  have hfr2 : ∀ j, 0 ≤ j → j < 0 + (raw2.map RawItem.decode).length →
      env2.fault (.lockProduct j) = none ∧ env2.fault (.saveProduct j) = none ∧
        env2.fault (.createItem j) = none := by
    intro j h1 h2
    rw [← hp.length_eq] at h2
    have := hfr j h1 h2
    rw [← hfault, ← hfault, ← hfault]
    exact this
  obtain ⟨⟨tx2, total2⟩, hr⟩ := processItems_ok_of fl env2.quiet env2.orderID (fun _ => rfl)
    (raw2.map RawItem.decode) 0
    { db with orders := db.orders ++ [newOrder fl env2 userID] } fl.zero hids2 hpos2 hcond2
  rw [placeOrder_frame fl env2 db userID raw2
      ⟨by rw [← hfault]; exact hb, by rw [← hfault]; exact hco, by rw [← hfault]; exact hso,
        by rw [← hfault]; exact hcm⟩ hv2,
    processItems_quiet fl env2 env2.orderID _ 0 _ fl.zero hfr2, hr]
  rfl

/-- After a call answered `201`, every product row is the row before the call
with the quantities of the entries that reference it withdrawn. -/
theorem created_rows {F : Type} (fl : Float64Ops F) (env : Env) (db : Store F)
    (userID : String) (raw : List RawItem)
    (h : (PlaceOrder fl env db userID raw).1.status = StatusCreated) (pid : String) :
    productOf (PlaceOrder fl env db userID raw).2 pid
      = (productOf db pid).map (withdraw (qtyFor pid (raw.map RawItem.decode))) := by
  obtain ⟨hv, tx, total, hproc, hres⟩ := placeOrder_created fl env db userID raw h
  obtain ⟨hids, _⟩ := valid_ids _ hv
  have hprod := processItems_products fl env env.orderID _ 0 _ fl.zero (tx, total) hids hproc
  rw [hres]
  exact hprod pid

/-- C21 (the order of the entries affects only which failure is reported): for
every store, every request that passes the binder and every permutation of its
entries, the call on the request and the call on the permuted request, the
driver answering each statement the same way in both (in particular when no
statement fails), are answered `201 Created` either both or neither; whenever
both are answered `201 Created`, whatever the environments, they leave the same
row, hence the same stock, for every product; and a call that is not answered
`201 Created` leaves the store as it was. -/
theorem entry_order_invariance {F : Type} (fl : Float64Ops F) (env1 env2 : Env) (db : Store F)
    (userID : String) (raw raw2 : List RawItem)
    (hv : (raw.map RawItem.decode).all Item.valid = true) (hperm : raw.Perm raw2) :
    (raw2.map RawItem.decode).all Item.valid = true ∧
    ((∀ op, env1.fault op = env2.fault op) →
      ((PlaceOrder fl env1 db userID raw).1.status = StatusCreated ↔
        (PlaceOrder fl env2 db userID raw2).1.status = StatusCreated)) ∧
    ((PlaceOrder fl env1 db userID raw).1.status = StatusCreated →
      (PlaceOrder fl env2 db userID raw2).1.status = StatusCreated →
      ∀ pid,
        productOf (PlaceOrder fl env1 db userID raw).2 pid
          = productOf (PlaceOrder fl env2 db userID raw2).2 pid ∧
        stockOf (PlaceOrder fl env1 db userID raw).2 pid
          = stockOf (PlaceOrder fl env2 db userID raw2).2 pid) ∧
    ((PlaceOrder fl env1 db userID raw).1.status ≠ StatusCreated →
      (PlaceOrder fl env1 db userID raw).2 = db) ∧
    ((PlaceOrder fl env2 db userID raw2).1.status ≠ StatusCreated →
      (PlaceOrder fl env2 db userID raw2).2 = db) := by
  have hp : (raw.map RawItem.decode).Perm (raw2.map RawItem.decode) := hperm.map _
  have hv2 := valid_perm _ _ hp hv
  refine ⟨hv2, ?_, ?_, placeOrder_not_created fl env1 db userID raw,
    placeOrder_not_created fl env2 db userID raw2⟩
  · intro hfault
    exact ⟨created_transfer fl env1 env2 db userID raw raw2 hfault hv hperm,
      created_transfer fl env2 env1 db userID raw2 raw (fun op => (hfault op).symm) hv2
        hperm.symm⟩
  · intro h1 h2 pid
    have e : productOf (PlaceOrder fl env1 db userID raw).2 pid
        = productOf (PlaceOrder fl env2 db userID raw2).2 pid := by
      rw [created_rows fl env1 db userID raw h1 pid, created_rows fl env2 db userID raw2 h2 pid,
        qtyFor_perm _ _ _ hp]
    refine ⟨e, ?_⟩
    unfold stockOf
    rw [e]

/-- Scenario B in both orders of its entries: both calls are answered `201`
and leave stocks 6 and 2.  Against the store of one product with stock 5, nine
units of it and a unit of an unknown product: the call is refused in both
orders, with `400 insufficient stock` when the short entry comes first and with
`500` when the unknown product comes first, and the store is left as it was. -/
theorem entry_order_invariance_witness :
    ((PlaceOrder ratOps quietEnv storeB userU requestB).1.status = StatusCreated ∧
      (PlaceOrder ratOps quietEnv2 storeB userU requestBSwapped).1.status = StatusCreated ∧
      stockOf (PlaceOrder ratOps quietEnv storeB userU requestB).2 idA = some 6 ∧
      stockOf (PlaceOrder ratOps quietEnv2 storeB userU requestBSwapped).2 idA = some 6 ∧
      stockOf (PlaceOrder ratOps quietEnv2 storeB userU requestBSwapped).2 idB = some 2) ∧
    ((PlaceOrder ratOps quietEnv storeT userU requestNineThenUnknown).1.status
        = StatusBadRequest ∧
      (PlaceOrder ratOps quietEnv storeT userU requestUnknownThenNine).1.status
        = StatusInternalServerError ∧
      (PlaceOrder ratOps quietEnv storeT userU requestUnknownThenNine).2 = storeT) := by
  have hB := entry_order_invariance ratOps quietEnv quietEnv2 storeB userU requestB
    requestBSwapped (by decide) (List.Perm.swap _ _ [])
  have hT := entry_order_invariance ratOps quietEnv quietEnv storeT userU
    requestNineThenUnknown requestUnknownThenNine (by decide) (List.Perm.swap _ _ [])
  have h1 : (PlaceOrder ratOps quietEnv storeB userU requestB).1.status = StatusCreated := by
    decide
  have h2 := (hB.2.1 (fun _ => rfl)).1 h1
  have hA := (hB.2.2.1 h1 h2 idA).2
  have hB2 := (hB.2.2.1 h1 h2 idB).2
  have e6 : stockOf (PlaceOrder ratOps quietEnv storeB userU requestB).2 idA = some 6 := by
    decide
  have e2 : stockOf (PlaceOrder ratOps quietEnv storeB userU requestB).2 idB = some 2 := by
    decide
  refine ⟨⟨h1, h2, e6, ?_, ?_⟩, by decide, by decide, ?_⟩
  · rw [← hA]
    exact e6
  · rw [← hB2]
    exact e2
  · exact hT.2.2.2.2 (by decide)

/-- C22 (an empty item list is accepted): for every store, the request with no
entry passes the binder and, when the four statements of its unit of work
execute (begin, the creation of the order, its update and commit), is answered
`201 Created` with the success message; the call leaves every product row and
the order items as they were, and, the identity drawn for the order being
new to the table, adds to `orders` exactly one row, of status `pending` and
total price zero. -/
theorem empty_request_accepted {F : Type} (fl : Float64Ops F) (env : Env) (db : Store F)
    (userID : String)
    (hf : env.fault .begin = none ∧ env.fault .createOrder = none ∧
      env.fault .saveOrder = none ∧ env.fault .commit = none) :
    ShouldBindJSON env [] = Except.ok [] ∧
    (PlaceOrder fl env db userID []).1
      = JSON StatusCreated true "order placed successfully" none none ∧
    (PlaceOrder fl env db userID []).1.status = 201 ∧
    (PlaceOrder fl env db userID []).2.products = db.products ∧
    (PlaceOrder fl env db userID []).2.orderItems = db.orderItems ∧
    ((∀ o ∈ db.orders, o.id ≠ env.orderID) →
      (PlaceOrder fl env db userID []).2.orders
        = db.orders ++
            [{ id := env.orderID, userID := uuidParse userID, totalPrice := fl.zero,
               status := "pending" }]) := by
  have hres := placeOrder_frame fl env db userID [] hf rfl
  simp only [List.map_nil, processItems] at hres
  rw [hres]
  refine ⟨rfl, rfl, rfl, rfl, rfl, ?_⟩
  intro hfresh
  exact saveOrderRows_fresh db.orders (newOrder fl env userID)
    { newOrder fl env userID with totalPrice := fl.zero } rfl hfresh

/-- The empty request against the store of one product with stock 5: it is
answered `201`, the store gains the pending order of total 0 and nothing else
changes. -/
theorem empty_request_accepted_witness :
    (PlaceOrder ratOps quietEnv storeT userU []).1.status = 201 ∧
    (PlaceOrder ratOps quietEnv storeT userU []).2
      = { products := storeT.products,
          orders := [{ id := quietEnv.orderID, userID := userU, totalPrice := 0,
                       status := "pending" }],
          orderItems := [] } :=
  ⟨(empty_request_accepted ratOps quietEnv storeT userU ⟨rfl, rfl, rfl, rfl⟩).2.2.1, by decide⟩

/-! ## Rate limiting: the stored entries -/

theorem runLimiter_items_foreign (limit window : Int) (k : String)
    (hk : ∀ ip, k ≠ cacheKey ip) (reqs : List (Int × String)) :
    ∀ c : Cache, (runLimiter limit window reqs c).2.items k = c.items k := by
  induction reqs with
  | nil => intro c; rfl
  | cons r rest ih =>
    intro c
    obtain ⟨t, a⟩ := r
    simp only [runLimiter]
    rw [ih]
    exact middleware_items_other c limit window (Clock.instant t) a k (hk a)

theorem timeOrdered_take (reqs : List (Int × String)) (n : Nat) (h : timeOrdered reqs) :
    timeOrdered (reqs.take n) := by
  unfold timeOrdered at h ⊢
  rw [List.map_take]
  exact h.sublist (List.take_sublist n _)

/-- C23 (invariant of the stored rate-limit entries): after any number `n` of
the requests of a run in the order of time from the empty store, every item
the store holds is the entry of a client, under that client's key; its count
is at least 1 and at most the limit; that client had a request let through, and
the window start of the entry is not later than the instant of the last such
request, which is the instant the item was last written: it expires
`window + 1 s` after it. -/
theorem stored_entry_invariant (d limit window : Int) (reqs : List (Int × String))
    (hord : timeOrdered reqs) (n : Nat) (k : String) (item : CacheItem)
    (h : (runLimiter limit window (reqs.take n) (Cache.New d)).2.items k = some item) :
    1 ≤ item.Object.Count ∧ item.Object.Count ≤ limit ∧
    ∃ ip ta, k = cacheKey ip ∧
      lastAccepted ip none (reqs.take n)
        (runLimiter limit window (reqs.take n) (Cache.New d)).1 = some ta ∧
      item.Object.LastRequest ≤ ta ∧
      (0 < window + Second → item.Expiration = ta + (window + Second)) := by
  by_cases hk : ∃ ip, k = cacheKey ip
  · obtain ⟨ip, hk⟩ := hk
    subst hk
    have hin := runLimiter_inStep limit window ip (reqs.take n) (Cache.New d) none
      (timeOrdered_take reqs n hord) (fun ta hta => by cases hta) (entryInStep_new d limit window ip)
    unfold entryInStep at hin
    rw [h] at hin
    obtain ⟨ta, hta, h1, h2, h3, h4⟩ := hin
    exact ⟨h2, h3, ip, ta, rfl, hta, h1, h4⟩
  · have hk2 : ∀ ip, k ≠ cacheKey ip := fun ip e => hk ⟨ip, e⟩
    rw [runLimiter_items_foreign limit window k hk2] at h
    cases h

/-- After the first six of nine requests of one client, limit 5 and window
10 s, five let through in the first five seconds and one throttled at 5 s: the
item stored is the window started at 0 with count 5, written by the last
accepted request, at 4 s, and expiring at 15 s. -/
theorem stored_entry_invariant_witness :
    (runLimiter routerLimit routerWindow (nineHits.take 6) routerCache).2.items
        (cacheKey clientA)
      = some { Object := { LastRequest := 0, Count := 5 }, Expiration := 15 * Second } ∧
    lastAccepted clientA none (nineHits.take 6)
        (runLimiter routerLimit routerWindow (nineHits.take 6) routerCache).1
      = some (4 * Second) ∧
    ((1 : Int) ≤ 5 ∧ (5 : Int) ≤ routerLimit) := by
  have hord : timeOrdered nineHits := by
    unfold timeOrdered
    decide
  have hitem : (runLimiter routerLimit routerWindow (nineHits.take 6)
      (Cache.New (10 * Second))).2.items (cacheKey clientA)
      = some { Object := { LastRequest := 0, Count := 5 }, Expiration := 15 * Second } := by
    decide
  have h := stored_entry_invariant (10 * Second) routerLimit routerWindow nineHits hord 6
    (cacheKey clientA) _ hitem
  exact ⟨hitem, by decide, h.1, h.2.1⟩

/-! ## Rate limiting: the store that never expires entries -/

theorem admitNoExpiry_eq (s : String → Option RateLimitEntry) (limit window now : Int)
    (clientIP : String) :
    admitNoExpiry s limit window now clientIP
      = if (computedEntry (s (cacheKey clientIP)) window (Clock.instant now)).Count > limit then
          (tooManyRequests, s)
        else
          (Outcome.next,
            fun j => if j = cacheKey clientIP then
              some (computedEntry (s (cacheKey clientIP)) window (Clock.instant now))
            else s j) :=
  rfl

/-- An expired item and the entry it holds lead to the same computed entry:
both open a new window. -/
theorem computedEntry_expiry (c : Cache) (window t : Int) (k : String) (hw : 0 < window)
    (hexp : ∀ item, c.items k = some item →
      item.Object.LastRequest + window + Second ≤ item.Expiration) :
    computedEntry (c.Get t k) window (Clock.instant t)
      = computedEntry ((c.items k).map CacheItem.Object) window (Clock.instant t) := by
  have hs : (0 : Int) < Second := by decide
  cases hi : c.items k with
  | none => simp [Cache.Get, hi]
  | some item =>
    have hx := hexp item hi
    by_cases hx2 : item.Expiration > 0 ∧ t > item.Expiration
    · have hg : c.Get t k = none := by
        simp only [Cache.Get, hi]
        rw [if_pos hx2]
      rw [hg]
      have h1 : ¬ t - t ≥ window := by omega
      have h2 : t - item.Object.LastRequest ≥ window := by omega
      simp only [computedEntry, Clock.instant, Option.map_some']
      rw [if_neg h1, if_pos h2]
      rfl
    · have hg : c.Get t k = some item.Object := by
        simp only [Cache.Get, hi]
        rw [if_neg hx2]
      rw [hg]
      rfl

theorem computedEntry_start_le (stored : Option RateLimitEntry) (window t : Int)
    (h : ∀ e, stored = some e → e.LastRequest ≤ t) :
    (computedEntry stored window (Clock.instant t)).LastRequest ≤ t := by
  cases stored with
  | none =>
    simp only [computedEntry, Clock.instant]
    split <;> exact le_refl t
  | some e =>
    have := h e rfl
    simp only [computedEntry, Clock.instant]
    split
    · exact le_refl t
    · exact this

/-- One request on an expiring store and on a map that hold the same entries:
the same decision, and the same entries afterwards. -/
theorem noExpiry_step (c : Cache) (s : String → Option RateLimitEntry)
    (limit window t : Int) (a : String) (hw : 0 < window)
    (hsame : ∀ k, (c.items k).map CacheItem.Object = s k)
    (hexp : ∀ k item, c.items k = some item →
      item.Object.LastRequest + window + Second ≤ item.Expiration ∧
        item.Object.LastRequest ≤ t) :
    (RateLimitMiddleware c limit window (Clock.instant t) a).1
      = (admitNoExpiry s limit window t a).1 ∧
    (∀ k, ((RateLimitMiddleware c limit window (Clock.instant t) a).2.items k).map
        CacheItem.Object = (admitNoExpiry s limit window t a).2 k) ∧
    (∀ k item, (RateLimitMiddleware c limit window (Clock.instant t) a).2.items k = some item →
      item.Object.LastRequest + window + Second ≤ item.Expiration ∧
        item.Object.LastRequest ≤ t) := by
  have hs : (0 : Int) < Second := by decide
  have hce : computedEntry (c.Get t (cacheKey a)) window (Clock.instant t)
      = computedEntry (s (cacheKey a)) window (Clock.instant t) := by
    rw [computedEntry_expiry c window t (cacheKey a) hw
      (fun item hi => (hexp _ item hi).1), hsame]
  have hle : (computedEntry (s (cacheKey a)) window (Clock.instant t)).LastRequest ≤ t := by
    apply computedEntry_start_le
    intro e he
    rw [← hsame] at he
    cases hi : c.items (cacheKey a) with
    | none => simp [hi] at he
    | some item =>
      simp only [hi, Option.map_some', Option.some.injEq] at he
      rw [← he]
      exact (hexp _ item hi).2
  rw [middleware_eq, admitNoExpiry_eq]
  have hget : (Clock.instant t).get = t := rfl
  have hset : (Clock.instant t).set = t := rfl
  rw [hget, hset, hce]
  by_cases hc : (computedEntry (s (cacheKey a)) window (Clock.instant t)).Count > limit
  · rw [if_pos hc, if_pos hc]
    exact ⟨rfl, hsame, hexp⟩
  · rw [if_neg hc, if_neg hc]
    obtain ⟨exp, hitem, hexp2⟩ := cacheSet_expiry c t (cacheKey a)
      (computedEntry (s (cacheKey a)) window (Clock.instant t)) window
    have hexp3 := hexp2 (by omega)
    refine ⟨rfl, ?_, ?_⟩
    · intro k
      by_cases hk : k = cacheKey a
      · subst hk
        show (Option.map CacheItem.Object ((c.Set t (cacheKey a) _ (window + 1 * Second)).items
          (cacheKey a))) = _
        rw [hitem]
        simp
      · show (Option.map CacheItem.Object ((c.Set t (cacheKey a) _ (window + 1 * Second)).items
          k)) = _
        rw [cacheSet_items_other c t (cacheKey a) k _ _ hk, hsame]
        simp [hk]
    · intro k item hi
      by_cases hk : k = cacheKey a
      · subst hk
        have hi2 : (c.Set t (cacheKey a)
            (computedEntry (s (cacheKey a)) window (Clock.instant t))
            (window + 1 * Second)).items (cacheKey a) = some item := hi
        rw [hitem] at hi2
        have e := Option.some.inj hi2
        rw [← e]
        simp only
        omega
      · have hi2 : (c.Set t (cacheKey a)
            (computedEntry (s (cacheKey a)) window (Clock.instant t))
            (window + 1 * Second)).items k = some item := hi
        rw [cacheSet_items_other c t (cacheKey a) k _ _ hk] at hi2
        exact hexp k item hi2

theorem runNoExpiry_agrees (limit window : Int) (hw : 0 < window)
    (reqs : List (Int × String)) :
    ∀ (c : Cache) (s : String → Option RateLimitEntry), timeOrdered reqs →
      (∀ k, (c.items k).map CacheItem.Object = s k) →
      (∀ k item, c.items k = some item →
        item.Object.LastRequest + window + Second ≤ item.Expiration ∧
          ∀ r ∈ reqs, item.Object.LastRequest ≤ r.1) →
      (runLimiter limit window reqs c).1 = (runNoExpiry limit window reqs s).1 ∧
      ∀ k, ((runLimiter limit window reqs c).2.items k).map CacheItem.Object
        = (runNoExpiry limit window reqs s).2 k := by
  induction reqs with
  | nil =>
    intro c s _ hsame _
    exact ⟨rfl, hsame⟩
  | cons r rest ih =>
    intro c s hord hsame hexp
    obtain ⟨t, a⟩ := r
    obtain ⟨hhead, hord2⟩ := timeOrdered_cons t a rest hord
    obtain ⟨h1, h2, h3⟩ := noExpiry_step c s limit window t a hw hsame
      (fun k item hi => ⟨(hexp k item hi).1, (hexp k item hi).2 (t, a) (List.mem_cons_self _ _)⟩)
    obtain ⟨h4, h5⟩ := ih _ _ hord2 h2
      (fun k item hi => ⟨(h3 k item hi).1, fun r hr => by
        have := (h3 k item hi).2
        have := hhead r hr
        omega⟩)
    simp only [runLimiter, runNoExpiry]
    exact ⟨by rw [h1, h4], h5⟩

theorem cacheSet_get (c : Cache) (t : Int) (k : String) (x : RateLimitEntry) (d : Int) :
    (c.Set t k x d).Get t k = some x ∧
    ((c.Set t k x d).items k).map CacheItem.Object = some x := by
  have hi := cacheSet_items_self c t k x d
  refine ⟨?_, by rw [hi]; rfl⟩
  unfold Cache.Get
  rw [hi]
  simp only
  have hx : ¬ ((if (if d = 0 then c.defaultExpiration else d) > 0 then
      t + (if d = 0 then c.defaultExpiration else d) else 0) > 0 ∧
      t > (if (if d = 0 then c.defaultExpiration else d) > 0 then
        t + (if d = 0 then c.defaultExpiration else d) else 0)) := by
    split <;> omega
  rw [if_neg hx]

/-- Right after a request that was let through, the store returns the entry
it holds for the caller. -/
theorem accepted_entry_live (limit window : Int) (reqs : List (Int × String)) :
    ∀ (c : Cache) (n : Nat) (t : Int) (a : String), reqs[n]? = some (t, a) →
      (runLimiter limit window reqs c).1[n]? = some Outcome.next →
      ∃ e, (runLimiter limit window (reqs.take (n + 1)) c).2.Get t (cacheKey a) = some e ∧
        ((runLimiter limit window (reqs.take (n + 1)) c).2.items (cacheKey a)).map
          CacheItem.Object = some e := by
  induction reqs with
  | nil =>
    intro c n t a h _
    simp at h
  | cons r rest ih =>
    intro c n t a h hout
    obtain ⟨t0, a0⟩ := r
    cases n with
    | zero =>
      rw [List.getElem?_cons_zero] at h
      have e := Option.some.inj h
      have e1 : t0 = t := congrArg Prod.fst e
      have e2 : a0 = a := congrArg Prod.snd e
      subst e1
      subst e2
      rcases middleware_instant_cases c limit window t0 a0 with ⟨hm, _⟩ | ⟨hm, _⟩
      · rw [runLimiter_cons_fst _ _ _ _ _ _ _ _ hm, List.getElem?_cons_zero] at hout
        have hne : tooManyRequests ≠ Outcome.next := by decide
        exact absurd (Option.some.inj hout) hne
      · have hrun : (runLimiter limit window (((t0, a0) :: rest).take (0 + 1)) c).2
            = (RateLimitMiddleware c limit window (Clock.instant t0) a0).2 := rfl
        rw [hrun, hm]
        exact ⟨_, (cacheSet_get c t0 (cacheKey a0) _ _).1, (cacheSet_get c t0 (cacheKey a0) _ _).2⟩
    | succ m =>
      rw [List.getElem?_cons_succ] at h
      have hout2 : (runLimiter limit window rest
          (RateLimitMiddleware c limit window (Clock.instant t0) a0).2).1[m]?
          = some Outcome.next := by
        rw [runLimiter_cons_fst limit window t0 a0 rest c _ _ rfl, List.getElem?_cons_succ]
          at hout
        exact hout
      exact ih _ m t a h hout2

/-- C24 (the time-to-live never changes a decision): for a window longer than
zero and every run of requests in the order of time from the empty store, the
middleware over its expiring store, which drops an item `window + 1 s` after
it was last written, and the governor over a map that never expires entries
give the same outcome to every request; right after every request that is let
through, the entry the expiring store returns for the caller, window start and
count, is the entry the map holds for it; and after any number `n` of the
requests the two stores hold the same entry under every key, the expiring
store possibly as an expired item that `Get` no longer returns. -/
theorem ttl_never_changes_decision (d limit window : Int) (reqs : List (Int × String))
    (hw : 0 < window) (hord : timeOrdered reqs) :
    (runLimiter limit window reqs (Cache.New d)).1
      = (runNoExpiry limit window reqs (fun _ => none)).1 ∧
    (∀ (n : Nat) (t : Int) (a : String), reqs[n]? = some (t, a) →
      (runLimiter limit window reqs (Cache.New d)).1[n]? = some Outcome.next →
      ∃ e,
        (runLimiter limit window (reqs.take (n + 1)) (Cache.New d)).2.Get t (cacheKey a)
          = some e ∧
        (runNoExpiry limit window (reqs.take (n + 1)) (fun _ => none)).2 (cacheKey a)
          = some e) ∧
    ∀ (n : Nat) (k : String),
      ((runLimiter limit window (reqs.take n) (Cache.New d)).2.items k).map CacheItem.Object
        = (runNoExpiry limit window (reqs.take n) (fun _ => none)).2 k := by
  have hnew : ∀ k item, (Cache.New d).items k = some item →
      item.Object.LastRequest + window + Second ≤ item.Expiration ∧
        ∀ r ∈ reqs, item.Object.LastRequest ≤ r.1 := by
    intro k item hi
    cases hi
  have hraw : ∀ (n : Nat) (k : String),
      ((runLimiter limit window (reqs.take n) (Cache.New d)).2.items k).map CacheItem.Object
        = (runNoExpiry limit window (reqs.take n) (fun _ => none)).2 k := by
    intro n k
    exact (runNoExpiry_agrees limit window hw (reqs.take n) (Cache.New d) (fun _ => none)
      (timeOrdered_take reqs n hord) (fun _ => rfl) (fun k item hi => by cases hi)).2 k
  refine ⟨(runNoExpiry_agrees limit window hw reqs (Cache.New d) (fun _ => none) hord
    (fun _ => rfl) hnew).1, ?_, hraw⟩
  intro n t a h hout
  obtain ⟨e, h1, h2⟩ := accepted_entry_live limit window reqs (Cache.New d) n t a h hout
  exact ⟨e, h1, by rw [← hraw (n + 1) (cacheKey a)]; exact h2⟩

/-- Five requests in five seconds, a throttled one at 5 s, then requests at
16 s and 17 s, after the item written at 4 s has expired at 15 s: over the
expiring store and over the map that keeps every entry the outcomes are the
same, and both end with the window started at 16 s and count 2. -/
theorem ttl_never_changes_decision_witness :
    (runLimiter routerLimit routerWindow fiveHits routerCache).2.Get (16 * Second)
        (cacheKey clientA) = none ∧
    (runLimiter routerLimit routerWindow idleHits routerCache).1
      = (runNoExpiry routerLimit routerWindow idleHits (fun _ => none)).1 ∧
    (runLimiter routerLimit routerWindow idleHits routerCache).1
      = [Outcome.next, Outcome.next, Outcome.next, Outcome.next, Outcome.next,
         tooManyRequests, Outcome.next, Outcome.next] ∧
    (runNoExpiry routerLimit routerWindow (idleHits.take 8) (fun _ => none)).2 (cacheKey clientA)
      = some { LastRequest := 16 * Second, Count := 2 } := by
  have hord : timeOrdered idleHits := by
    unfold timeOrdered
    decide
  have h := ttl_never_changes_decision (10 * Second) routerLimit routerWindow idleHits
    (by decide) hord
  refine ⟨by decide, h.1, by decide, ?_⟩
  rw [← h.2.2 8 (cacheKey clientA)]
  decide

/-! ## Rate limiting: any interval of the length of a window -/

/-- From a store that holds the entry of a window of the caller, the requests
of the caller let through in the interval from `a` to `a + window`: at most
what the window has left when the interval starts no later than the window; at
most that and one window more when it starts inside the window; at most two
windows in any case. -/
theorem sliding_live (limit window : Int) (ip : String) (a : Int) (hw : 0 < window)
    (reqs : List (Int × String)) :
    ∀ (c : Cache) (item : CacheItem), c.items (cacheKey ip) = some item →
      1 ≤ item.Object.Count → item.Object.Count ≤ limit →
      item.Object.LastRequest + window + Second ≤ item.Expiration → timeOrdered reqs →
      (∀ r ∈ reqs, item.Object.LastRequest ≤ r.1) →
      (a ≤ item.Object.LastRequest →
        ((allowedIn ip a (a + window) reqs (runLimiter limit window reqs c).1 : Nat) : Int)
          ≤ limit - item.Object.Count) ∧
      (a < item.Object.LastRequest + window →
        ((allowedIn ip a (a + window) reqs (runLimiter limit window reqs c).1 : Nat) : Int)
          ≤ 2 * limit - item.Object.Count) ∧
      ((allowedIn ip a (a + window) reqs (runLimiter limit window reqs c).1 : Nat) : Int)
        ≤ 2 * limit := by
  induction reqs with
  | nil =>
    intro c item _ h1 h2 _ _ _
    simp only [runLimiter, allowedIn]
    push_cast
    exact ⟨fun _ => by omega, fun _ => by omega, by omega⟩
  | cons r rest ih =>
    intro c item hi hc1 hc2 hexp hord hge
    obtain ⟨t, b⟩ := r
    obtain ⟨hhead, hord2⟩ := timeOrdered_cons t b rest hord
    have hge2 : ∀ r ∈ rest, item.Object.LastRequest ≤ r.1 :=
      fun r hr => hge r (List.mem_cons_of_mem _ hr)
    have hw0t : item.Object.LastRequest ≤ t := hge (t, b) (List.mem_cons_self _ _)
    by_cases hb : b = ip
    · subst hb
      rcases live_step c limit window b item t hw hi hc1 hc2 hexp with
        ⟨_, h⟩ | ⟨ht, hle, c1, h, hitem⟩ | ⟨ht, c1, h, hitem⟩
      · rw [runLimiter_cons_fst _ _ _ _ _ _ _ _ h,
          allowedIn_cons_skip _ _ _ _ _ _ _ _ (fun hh => absurd hh.2.1 (by decide))]
        exact ih c item hi hc1 hc2 hexp hord2 hge2
      · obtain ⟨item1, hitem1, hLR, hCnt, hExp⟩ : ∃ item1, c1.items (cacheKey b) = some item1 ∧
            item1.Object.LastRequest = item.Object.LastRequest ∧
            item1.Object.Count = item.Object.Count + 1 ∧
            item1.Expiration = t + (window + Second) := ⟨_, hitem, rfl, rfl, rfl⟩
        obtain ⟨r1, r2, r3⟩ := ih c1 item1 hitem1 (by omega) (by omega) (by omega) hord2
          (fun r hr => by
            have := hge2 r hr
            omega)
        have hle1 := allowedIn_cons_le b a (a + window) t b rest Outcome.next
          (runLimiter limit window rest c1).1
        rw [runLimiter_cons_fst _ _ _ _ _ _ _ _ h]
        refine ⟨fun ha => ?_, fun ha => ?_, ?_⟩
        · have := r1 (by omega)
          omega
        · have := r2 (by omega)
          omega
        · by_cases ha : a < item.Object.LastRequest + window
          · have := r2 (by omega)
            omega
          · rw [allowedIn_cons_skip _ _ _ _ _ _ _ _ (fun hh => by omega)]
            exact r3
      · obtain ⟨item1, hitem1, hLR, hCnt, hExp⟩ : ∃ item1, c1.items (cacheKey b) = some item1 ∧
            item1.Object.LastRequest = t ∧ item1.Object.Count = 1 ∧
            item1.Expiration = t + (window + Second) := ⟨_, hitem, rfl, rfl, rfl⟩
        obtain ⟨r1, r2, r3⟩ := ih c1 item1 hitem1 (by omega) (by omega) (by omega) hord2
          (fun r hr => by
            have := hhead r hr
            omega)
        have hle1 := allowedIn_cons_le b a (a + window) t b rest Outcome.next
          (runLimiter limit window rest c1).1
        refine ⟨fun ha => ?_, fun ha => ?_, ?_⟩
        · have hall : ∀ r ∈ (t, b) :: rest, a + window ≤ r.1 := by
            intro r hr
            rcases List.mem_cons.mp hr with e | hr
            · rw [e]
              show a + window ≤ t
              omega
            · have := hhead r hr
              omega
          rw [allowedIn_zero b _ _ _ _ hall]
          push_cast
          omega
        · rw [runLimiter_cons_fst _ _ _ _ _ _ _ _ h]
          have := r1 (by omega)
          omega
        · rw [runLimiter_cons_fst _ _ _ _ _ _ _ _ h]
          by_cases ha : a ≤ t
          · have := r1 (by omega)
            omega
          · rw [allowedIn_cons_skip _ _ _ _ _ _ _ _ (fun hh => by omega)]
            exact r3
    · obtain ⟨o, c1, h, hsame⟩ := other_step c limit window ip b t hb
      rw [runLimiter_cons_fst _ _ _ _ _ _ _ _ h,
        allowedIn_cons_skip _ _ _ _ _ _ _ _ (fun hh => hb hh.1)]
      exact ih c1 item (hsame.trans hi) hc1 hc2 hexp hord2 hge2

/-- From a store with no item for the caller: with a limit below 1 no request
of the caller is let through, and otherwise at most twice the limit in any
interval of the length of a window. -/
theorem sliding_none (limit window : Int) (ip : String) (a : Int) (hw : 0 < window)
    (reqs : List (Int × String)) :
    ∀ (c : Cache), c.items (cacheKey ip) = none → timeOrdered reqs →
      (limit < 1 →
        allowedIn ip a (a + window) reqs (runLimiter limit window reqs c).1 = 0) ∧
      (1 ≤ limit →
        ((allowedIn ip a (a + window) reqs (runLimiter limit window reqs c).1 : Nat) : Int)
          ≤ 2 * limit) := by
  induction reqs with
  | nil =>
    intro c _ _
    refine ⟨fun _ => rfl, fun hl => ?_⟩
    show ((0 : Nat) : Int) ≤ 2 * limit
    omega
  | cons r rest ih =>
    intro c hi hord
    obtain ⟨t, b⟩ := r
    obtain ⟨hhead, hord2⟩ := timeOrdered_cons t b rest hord
    by_cases hb : b = ip
    · subst hb
      rcases none_step c limit window b t hw hi with ⟨_, h⟩ | ⟨hl, c1, h, hitem⟩
      · rw [runLimiter_cons_fst _ _ _ _ _ _ _ _ h,
          allowedIn_cons_skip _ _ _ _ _ _ _ _ (fun hh => absurd hh.2.1 (by decide))]
        exact ih c hi hord2
      · obtain ⟨item1, hitem1, hLR, hCnt, hExp⟩ : ∃ item1, c1.items (cacheKey b) = some item1 ∧
            item1.Object.LastRequest = t ∧ item1.Object.Count = 1 ∧
            item1.Expiration = t + (window + Second) := ⟨_, hitem, rfl, rfl, rfl⟩
        obtain ⟨r1, _, r3⟩ := sliding_live limit window b a hw rest c1 item1 hitem1
          (by omega) (by omega) (by omega) hord2
          (fun r hr => by
            have := hhead r hr
            omega)
        have hle1 := allowedIn_cons_le b a (a + window) t b rest Outcome.next
          (runLimiter limit window rest c1).1
        rw [runLimiter_cons_fst _ _ _ _ _ _ _ _ h]
        refine ⟨fun h0 => by omega, fun _ => ?_⟩
        by_cases ha : a ≤ t
        · have := r1 (by omega)
          omega
        · rw [allowedIn_cons_skip _ _ _ _ _ _ _ _ (fun hh => by omega)]
          exact r3
    · obtain ⟨o, c1, h, hsame⟩ := other_step c limit window ip b t hb
      rw [runLimiter_cons_fst _ _ _ _ _ _ _ _ h,
        allowedIn_cons_skip _ _ _ _ _ _ _ _ (fun hh => hb hh.1)]
      exact ih c1 (hsame.trans hi) hord2

/-- Every window start stored during a run is the start of the entry the run
found, or the instant of a request of the caller that was let through. -/
theorem starts_accepted (limit window : Int) (ip : String) (reqs : List (Int × String)) :
    ∀ (c : Cache), ∀ ws ∈ windowStarts limit window ip reqs c,
      (∃ item, c.items (cacheKey ip) = some item ∧ ws = item.Object.LastRequest) ∨
      ∃ i : Nat, reqs[i]? = some (ws, ip) ∧
        (runLimiter limit window reqs c).1[i]? = some Outcome.next := by
  induction reqs with
  | nil =>
    intro c ws hws
    simp [windowStarts] at hws
  | cons r rest ih =>
    intro c ws hws
    obtain ⟨t, b⟩ := r
    have lift : ∀ (c1 : Cache) (o : Outcome),
        RateLimitMiddleware c limit window (Clock.instant t) b = (o, c1) →
        (∃ i : Nat, rest[i]? = some (ws, ip) ∧
          (runLimiter limit window rest c1).1[i]? = some Outcome.next) →
        ∃ i : Nat, ((t, b) :: rest)[i]? = some (ws, ip) ∧
          (runLimiter limit window ((t, b) :: rest) c).1[i]? = some Outcome.next := by
      intro c1 o h hex
      obtain ⟨i, h1, h2⟩ := hex
      refine ⟨i + 1, ?_, ?_⟩
      · rw [List.getElem?_cons_succ]
        exact h1
      · rw [runLimiter_cons_fst _ _ _ _ _ _ _ _ h, List.getElem?_cons_succ]
        exact h2
    by_cases hb : b = ip
    · subst hb
      rcases middleware_instant_cases c limit window t b with ⟨h, _⟩ | ⟨h, _⟩
      · rw [windowStarts_cons_skip _ _ _ _ _ _ _ _ _ h
          (fun hh => absurd hh.2 (by decide))] at hws
        rcases ih c ws hws with h1 | h1
        · exact Or.inl h1
        · exact Or.inr (lift _ _ h h1)
      · obtain ⟨exp, hitem, _⟩ := cacheSet_expiry c t (cacheKey b)
          { LastRequest := refWindowStart (c.Get t (cacheKey b)) t window,
            Count := refCount (c.Get t (cacheKey b)) t window } window
        rw [windowStarts_cons_hit _ _ _ _ _ _ _ _ h hitem] at hws
        have hhead : ws = refWindowStart (c.Get t (cacheKey b)) t window →
            (∃ item, c.items (cacheKey b) = some item ∧ ws = item.Object.LastRequest) ∨
            ∃ i : Nat, ((t, b) :: rest)[i]? = some (ws, b) ∧
              (runLimiter limit window ((t, b) :: rest) c).1[i]? = some Outcome.next := by
          intro e
          have hzero : ws = t →
              ∃ i : Nat, ((t, b) :: rest)[i]? = some (ws, b) ∧
                (runLimiter limit window ((t, b) :: rest) c).1[i]? = some Outcome.next := by
            intro e2
            refine ⟨0, ?_, ?_⟩
            · rw [e2, List.getElem?_cons_zero]
            · rw [runLimiter_cons_fst _ _ _ _ _ _ _ _ h, List.getElem?_cons_zero]
          cases hg : c.Get t (cacheKey b) with
          | none =>
            rw [hg] at e
            exact Or.inr (hzero e)
          | some en =>
            rw [hg] at e
            simp only [refWindowStart] at e
            split at e
            · exact Or.inr (hzero e)
            · obtain ⟨item, hi, he, _⟩ := cacheGet_some c t _ en hg
              exact Or.inl ⟨item, hi, by rw [e, he]⟩
        rcases List.mem_cons.mp hws with e | hws
        · exact hhead e
        · rcases ih _ ws hws with ⟨item, hi, e⟩ | h1
          · rw [hitem] at hi
            have e2 := Option.some.inj hi
            rw [← e2] at e
            exact hhead e
          · exact Or.inr (lift _ _ h h1)
    · obtain ⟨o, c1, h, hsame⟩ := other_step c limit window ip b t hb
      rw [windowStarts_cons_skip _ _ _ _ _ _ _ _ _ h (fun hh => hb hh.1)] at hws
      rcases ih c1 ws hws with ⟨item, hi, e⟩ | h1
      · exact Or.inl ⟨item, hsame ▸ hi, e⟩
      · exact Or.inr (lift _ _ h h1)

/-- From a store that holds the entry of a window of the caller, the window
starts stored later follow one another, from that window on, either equal or
at least a window apart. -/
theorem starts_apart_live (limit window : Int) (ip : String) (hw : 0 < window)
    (reqs : List (Int × String)) :
    ∀ (c : Cache) (item : CacheItem), c.items (cacheKey ip) = some item →
      1 ≤ item.Object.Count → item.Object.Count ≤ limit →
      item.Object.LastRequest + window + Second ≤ item.Expiration → timeOrdered reqs →
      (∀ r ∈ reqs, item.Object.LastRequest ≤ r.1) →
      List.Chain (windowApart window) item.Object.LastRequest
        (windowStarts limit window ip reqs c) := by
  induction reqs with
  | nil =>
    intro c item _ _ _ _ _ _
    exact List.Chain.nil
  | cons r rest ih =>
    intro c item hi hc1 hc2 hexp hord hge
    obtain ⟨t, b⟩ := r
    obtain ⟨hhead, hord2⟩ := timeOrdered_cons t b rest hord
    have hge2 : ∀ r ∈ rest, item.Object.LastRequest ≤ r.1 :=
      fun r hr => hge r (List.mem_cons_of_mem _ hr)
    have hw0t : item.Object.LastRequest ≤ t := hge (t, b) (List.mem_cons_self _ _)
    by_cases hb : b = ip
    · subst hb
      rcases live_step c limit window b item t hw hi hc1 hc2 hexp with
        ⟨_, h⟩ | ⟨ht, hle, c1, h, hitem⟩ | ⟨ht, c1, h, hitem⟩
      · rw [windowStarts_cons_skip _ _ _ _ _ _ _ _ _ h (fun hh => absurd hh.2 (by decide))]
        exact ih c item hi hc1 hc2 hexp hord2 hge2
      · obtain ⟨item1, hitem1, hLR, hCnt, hExp⟩ : ∃ item1, c1.items (cacheKey b) = some item1 ∧
            item1.Object.LastRequest = item.Object.LastRequest ∧
            item1.Object.Count = item.Object.Count + 1 ∧
            item1.Expiration = t + (window + Second) := ⟨_, hitem, rfl, rfl, rfl⟩
        have hrec := ih c1 item1 hitem1 (by omega) (by omega) (by omega) hord2
          (fun r hr => by
            have := hge2 r hr
            omega)
        rw [windowStarts_cons_hit _ _ _ _ _ _ _ _ h hitem1]
        exact List.Chain.cons (Or.inl hLR) hrec
      · obtain ⟨item1, hitem1, hLR, hCnt, hExp⟩ : ∃ item1, c1.items (cacheKey b) = some item1 ∧
            item1.Object.LastRequest = t ∧ item1.Object.Count = 1 ∧
            item1.Expiration = t + (window + Second) := ⟨_, hitem, rfl, rfl, rfl⟩
        have hrec := ih c1 item1 hitem1 (by omega) (by omega) (by omega) hord2
          (fun r hr => by
            have := hhead r hr
            omega)
        rw [windowStarts_cons_hit _ _ _ _ _ _ _ _ h hitem1]
        exact List.Chain.cons (Or.inr (by omega)) hrec
    · obtain ⟨o, c1, h, hsame⟩ := other_step c limit window ip b t hb
      rw [windowStarts_cons_skip _ _ _ _ _ _ _ _ _ h (fun hh => hb hh.1)]
      exact ih c1 item (hsame.trans hi) hc1 hc2 hexp hord2 hge2

theorem starts_apart_none (limit window : Int) (ip : String) (hw : 0 < window)
    (reqs : List (Int × String)) :
    ∀ (c : Cache), c.items (cacheKey ip) = none → timeOrdered reqs →
      List.Chain' (windowApart window) (windowStarts limit window ip reqs c) := by
  induction reqs with
  | nil =>
    intro c _ _
    exact List.chain'_nil
  | cons r rest ih =>
    intro c hi hord
    obtain ⟨t, b⟩ := r
    obtain ⟨hhead, hord2⟩ := timeOrdered_cons t b rest hord
    by_cases hb : b = ip
    · subst hb
      rcases none_step c limit window b t hw hi with ⟨_, h⟩ | ⟨hl, c1, h, hitem⟩
      · rw [windowStarts_cons_skip _ _ _ _ _ _ _ _ _ h (fun hh => absurd hh.2 (by decide))]
        exact ih c hi hord2
      · obtain ⟨item1, hitem1, hLR, hCnt, hExp⟩ : ∃ item1, c1.items (cacheKey b) = some item1 ∧
            item1.Object.LastRequest = t ∧ item1.Object.Count = 1 ∧
            item1.Expiration = t + (window + Second) := ⟨_, hitem, rfl, rfl, rfl⟩
        have hrec := starts_apart_live limit window b hw rest c1 item1 hitem1
          (by omega) (by omega) (by omega) hord2
          (fun r hr => by
            have := hhead r hr
            omega)
        rw [windowStarts_cons_hit _ _ _ _ _ _ _ _ h hitem1]
        exact hrec
    · obtain ⟨o, c1, h, hsame⟩ := other_step c limit window ip b t hb
      rw [windowStarts_cons_skip _ _ _ _ _ _ _ _ _ h (fun hh => hb hh.1)]
      exact ih c1 (hsame.trans hi) hord2

/-- C25 (bound over any sliding interval): for a window longer than zero,
every run of requests in the order of time from the empty store, every client
and every instant `a`, at most `2 * limit` of the client's requests made at an
instant `t` with `a ≤ t < a + window` are let through, for a limit that is a
count (at least zero; with a limit below 1 none is let through at all).  The
reason: every window start stored for the client is the instant of one of its
requests that was let through, and the window starts stored one after another
are equal or at least a window apart. -/
theorem sliding_interval_bound (d limit window : Int) (reqs : List (Int × String))
    (ip : String) (hw : 0 < window) (hord : timeOrdered reqs) :
    (∀ a : Int,
      (0 ≤ limit →
        ((allowedIn ip a (a + window) reqs
            (runLimiter limit window reqs (Cache.New d)).1 : Nat) : Int) ≤ 2 * limit) ∧
      (limit < 1 →
        allowedIn ip a (a + window) reqs (runLimiter limit window reqs (Cache.New d)).1 = 0)) ∧
    (∀ ws ∈ windowStarts limit window ip reqs (Cache.New d),
      ∃ i : Nat, reqs[i]? = some (ws, ip) ∧
        (runLimiter limit window reqs (Cache.New d)).1[i]? = some Outcome.next) ∧
    List.Chain' (windowApart window) (windowStarts limit window ip reqs (Cache.New d)) := by
  refine ⟨fun a => ?_, ?_, starts_apart_none limit window ip hw reqs (Cache.New d) rfl hord⟩
  · obtain ⟨h0, h1⟩ := sliding_none limit window ip a hw reqs (Cache.New d) rfl hord
    refine ⟨fun hl => ?_, h0⟩
    by_cases hl1 : 1 ≤ limit
    · exact h1 hl1
    · rw [h0 (by omega)]
      push_cast
      omega
  · intro ws hws
    rcases starts_accepted limit window ip reqs (Cache.New d) ws hws with ⟨item, hi, _⟩ | h
    · cases hi
    · exact h

/-- Ten requests of one client with the limit of 5 and the window of 10 s, one
at 0, four from 6 s to 9 s and five from 10 s to 14 s: all are let through,
the window starts stored are 0 and 10 s, and nine of the requests, more than
the limit and at most twice the limit, fall in the ten seconds from 6 s. -/
theorem sliding_interval_bound_witness :
    allowedIn clientA (6 * Second) (6 * Second + routerWindow) burstHits
        (runLimiter routerLimit routerWindow burstHits routerCache).1 = 9 ∧
    ((allowedIn clientA (6 * Second) (6 * Second + routerWindow) burstHits
        (runLimiter routerLimit routerWindow burstHits routerCache).1 : Nat) : Int)
      ≤ 2 * routerLimit ∧
    windowStarts routerLimit routerWindow clientA burstHits routerCache
      = [0, 0, 0, 0, 0, 10 * Second, 10 * Second, 10 * Second, 10 * Second, 10 * Second] := by
  have hord : timeOrdered burstHits := by
    unfold timeOrdered
    decide
  have h := sliding_interval_bound (10 * Second) routerLimit routerWindow burstHits clientA
    (by decide) hord
  exact ⟨by decide, (h.1 (6 * Second)).1 (by decide), by decide⟩

/-! ## Rate limiting: the 64-bit handler on runs of requests -/

/-- One request keeps every stored count between the least `int` and the
limit. -/
theorem middleware_counts (c : Cache) (limit window : Int) (clk : Clock) (a : String)
    (h : ∀ k item, c.items k = some item →
      minInt64 ≤ item.Object.Count ∧ item.Object.Count ≤ limit) :
    ∀ k item, (RateLimitMiddleware c limit window clk a).2.items k = some item →
      minInt64 ≤ item.Object.Count ∧ item.Object.Count ≤ limit := by
  have hmin : minInt64 = -9223372036854775808 := rfl
  intro k item hi
  rw [middleware_eq] at hi
  by_cases hc : (computedEntry (c.Get clk.get (cacheKey a)) window clk).Count > limit
  · rw [if_pos hc] at hi
    exact h k item hi
  · rw [if_neg hc] at hi
    by_cases hk : k = cacheKey a
    · subst hk
      have hi2 : (c.Set clk.set (cacheKey a)
          (computedEntry (c.Get clk.get (cacheKey a)) window clk)
          (window + 1 * Second)).items (cacheKey a) = some item := hi
      rw [cacheSet_items_self] at hi2
      have e := Option.some.inj hi2
      rw [← e]
      refine ⟨?_, not_lt.mp hc⟩
      show minInt64 ≤ (computedEntry (c.Get clk.get (cacheKey a)) window clk).Count
      cases hg : c.Get clk.get (cacheKey a) with
      | none =>
        simp only [computedEntry]
        split
        · show minInt64 ≤ 1
          omega
        · show minInt64 ≤ 0 + 1
          omega
      | some en =>
        obtain ⟨item0, hi0, he, _⟩ := cacheGet_some c clk.get _ en hg
        have hb := (h _ item0 hi0).1
        rw [he] at hb
        simp only [computedEntry]
        split
        · show minInt64 ≤ 1
          omega
        · show minInt64 ≤ en.Count + 1
          omega
    · have hi2 : (c.Set clk.set (cacheKey a)
          (computedEntry (c.Get clk.get (cacheKey a)) window clk)
          (window + 1 * Second)).items k = some item := hi
      rw [cacheSet_items_other c clk.set (cacheKey a) k _ _ hk] at hi2
      exact h k item hi2

/-- On a store whose counts are between the least `int` and a limit below the
largest `int`, for a window above the least duration whose sum with one second
does not overflow, a run of the handler in 64-bit arithmetic is the run of the
handler in the integers. -/
theorem runLimiter64_eq (limit window : Int)
    (hw : minInt64 < window ∧ window + Second ≤ maxInt64) (hl : limit < maxInt64)
    (reqs : List (Int × String)) :
    ∀ c : Cache,
      (∀ k item, c.items k = some item →
        minInt64 ≤ item.Object.Count ∧ item.Object.Count ≤ limit) →
      runLimiter64 limit window reqs c = runLimiter limit window reqs c := by
  induction reqs with
  | nil => intro c _; rfl
  | cons r rest ih =>
    intro c h
    obtain ⟨t, a⟩ := r
    have hstep : RateLimitMiddleware64 c limit window (Clock.instant t) a
        = RateLimitMiddleware c limit window (Clock.instant t) a := by
      apply middleware64_eq c limit window (Clock.instant t) a hw
      intro e he
      obtain ⟨item, hi, ho, _⟩ := cacheGet_some c _ _ e he
      have hb := h _ item hi
      rw [ho] at hb
      exact ⟨hb.1, by omega⟩
    simp only [runLimiter64, runLimiter, hstep]
    rw [ih _ (middleware_counts c limit window (Clock.instant t) a h)]

end Ecommerce
